import Mathlib

/-!
A verification development for the gitignore-assistant extension's core engine
(`src/extension.ts`, current revision).  Strings are modelled as `List Char`
(`Str`); every definition is a direct translation of the corresponding
TypeScript function, keeping its name.  External collaborators (the
filesystem path-type probe, the locale collator used by `localeCompare`) are
modelled as parameters, with the collator instantiated by code-point
lexicographic comparison, which satisfies the comparator laws `Array.sort`
requires.
-/

/-- Strings as character lists (the logical model of JS strings). -/
abbrev Str := List Char

/-- Convert a Lean string literal to the `Str` model. -/
def strL (s : String) : Str := s.toList

/-- JS whitespace test used by `String.prototype.trim` (the characters that
can actually occur in a text line; the full JS class also has exotic spaces,
which never matter here). -/
def isWS (c : Char) : Bool :=
  c == ' ' || c == '\t' || c == '\n' || c == '\r' || c == '\x0b' || c == '\x0c'

/-- `String.prototype.trim`: drop leading and trailing whitespace. -/
def trim (s : Str) : Str :=
  ((s.dropWhile isWS).reverse.dropWhile isWS).reverse

/-- `line.endsWith('/')`. -/
def endsWithSlash (s : Str) : Bool := s.getLast? == some '/'

/-- `line.startsWith('/')`. -/
def startsWithSlash (s : Str) : Bool := s.head? == some '/'

/-- `line.startsWith('#')`: the cleaning orchestrator's comment test. -/
def isComment (s : Str) : Bool := s.head? == some '#'

/-- `value.replace(/^\/+/, '')`. -/
def stripLeadingSlashes (s : Str) : Str := s.dropWhile (· == '/')

/-- `value.replace(/\/+$/, '')`. -/
def stripTrailingSlashes (s : Str) : Str :=
  (s.reverse.dropWhile (· == '/')).reverse

/-- A globbing character (`* ? [ ]`). -/
def isGlobChar (c : Char) : Bool :=
  c == '*' || c == '?' || c == '[' || c == ']'

/-- `isPatternLine`: the line carries glob or negation syntax
(`/(^!|\*|\?|\[|\]|\*\*)/.test(line)`). -/
def isPatternLine (s : Str) : Bool :=
  s.head? == some '!' || s.any isGlobChar

/-- `stripAnchorsAndSlashes`: the canonical dedup key of a literal entry. -/
def stripAnchorsAndSlashes (s : Str) : Str :=
  stripTrailingSlashes (stripLeadingSlashes s)

/-- `escapeGitignorePath`: backslash-escape space, `#` and `!`. -/
def escapeGitignorePath (s : Str) : Str :=
  s.flatMap (fun c => if c = ' ' ∨ c = '#' ∨ c = '!' then ['\\', c] else [c])

/-- `unescapeGitignorePath`: undo `escapeGitignorePath`. -/
def unescapeGitignorePath (s : Str) : Str :=
  match s with
  | [] => []
  | '\\' :: c :: rest =>
      if c = ' ' ∨ c = '#' ∨ c = '!' then c :: unescapeGitignorePath rest
      else '\\' :: unescapeGitignorePath (c :: rest)
  | c :: rest => c :: unescapeGitignorePath rest

/-- `content.replace(/\r\n/g, '\n')`: the global replace scans left to right
without overlap. -/
def normalizeNewlines : Str → Str
  | [] => []
  | [c] => [c]
  | a :: b :: rest =>
      if a = '\r' ∧ b = '\n' then '\n' :: normalizeNewlines rest
      else a :: normalizeNewlines (b :: rest)

/-- `s.split(sep)` for a one-character separator, as in JS: always at least
one segment, empty segments kept. -/
def splitOnChar (sep : Char) : Str → List Str
  | [] => [[]]
  | c :: rest =>
      if c = sep then [] :: splitOnChar sep rest
      else
        match splitOnChar sep rest with
        | [] => [[c]]
        | h :: t => (c :: h) :: t

/-- `segments.join(sep)` for a one-character separator. -/
def joinChar (sep : Char) : List Str → Str
  | [] => []
  | [s] => s
  | s :: rest => s ++ sep :: joinChar sep rest

/-- `parseLines`: normalize CRLF, split on newlines, drop a single trailing
empty segment produced by a final terminator. -/
def parseLines (content : Str) : List Str :=
  if content == [] then []
  else
    let segments := splitOnChar '\n' (normalizeNewlines content)
    match segments.getLast? with
    | some [] => segments.dropLast
    | _ => segments

/-- `serializeLines`: join with newlines and append one trailing newline for
a non-empty sequence. -/
def serializeLines (lines : List Str) : Str :=
  if lines == [] then [] else joinChar '\n' lines ++ ['\n']

example : parseLines (strL "a\r\nb\nc\n") = [strL "a", strL "b", strL "c"] := by decide
example : parseLines (strL "") = [] := by decide
example : parseLines (strL "a\n\n") = [strL "a", []] := by decide
example : serializeLines [strL "a", strL "b"] = strL "a\nb\n" := by decide
example : serializeLines [] = [] := by decide

namespace ParserLemmas

theorem splitOnChar_ne_nil (sep : Char) (s : Str) : splitOnChar sep s ≠ [] := by
  induction s with
  | nil => simp [splitOnChar]
  | cons c rest ih =>
    by_cases h : c = sep
    · simp [splitOnChar, h]
    · simp only [splitOnChar, h, if_false]
      cases hs : splitOnChar sep rest with
      | nil => simp
      | cons hd tl => simp

theorem splitOnChar_sep_not_mem {sep : Char} {s : Str} :
    ∀ seg ∈ splitOnChar sep s, sep ∉ seg := by
  induction s with
  | nil =>
    intro seg hseg
    simp [splitOnChar] at hseg
    simp [hseg]
  | cons c rest ih =>
    intro seg hseg
    by_cases h : c = sep
    · simp only [splitOnChar, h, if_pos rfl] at hseg
      rcases List.mem_cons.mp hseg with hseg | hseg
      · simp [hseg]
      · exact ih seg hseg
    · simp only [splitOnChar, h, if_false] at hseg
      cases hs : splitOnChar sep rest with
      | nil => exact absurd hs (splitOnChar_ne_nil sep rest)
      | cons hd tl =>
        rw [hs] at hseg
        rcases List.mem_cons.mp hseg with hseg | hseg
        · subst hseg
          intro hmem
          rcases List.mem_cons.mp hmem with hc | hc
          · exact absurd hc.symm h
          · exact ih hd (hs ▸ List.mem_cons_self hd tl) hc
        · exact ih seg (hs ▸ List.mem_cons_of_mem hd hseg)

theorem splitOnChar_subset {sep : Char} {s : Str} :
    ∀ seg ∈ splitOnChar sep s, ∀ c ∈ seg, c ∈ s := by
  induction s with
  | nil =>
    intro seg hseg
    simp [splitOnChar] at hseg
    simp [hseg]
  | cons a rest ih =>
    intro seg hseg c hc
    by_cases h : a = sep
    · simp only [splitOnChar, h, if_pos rfl] at hseg
      rcases List.mem_cons.mp hseg with hseg | hseg
      · simp [hseg] at hc
      · exact List.mem_cons_of_mem a (ih seg hseg c hc)
    · simp only [splitOnChar, h, if_false] at hseg
      cases hs : splitOnChar sep rest with
      | nil => exact absurd hs (splitOnChar_ne_nil sep rest)
      | cons hd tl =>
        rw [hs] at hseg
        rcases List.mem_cons.mp hseg with hseg | hseg
        · subst hseg
          rcases List.mem_cons.mp hc with hc | hc
          · simp [hc]
          · exact List.mem_cons_of_mem a (ih hd (hs ▸ List.mem_cons_self hd tl) c hc)
        · exact List.mem_cons_of_mem a (ih seg (hs ▸ List.mem_cons_of_mem hd hseg) c hc)

theorem splitOnChar_append_sep {sep : Char} {s : Str} (hs : sep ∉ s) (t : Str) :
    splitOnChar sep (s ++ sep :: t) = s :: splitOnChar sep t := by
  induction s with
  | nil => simp [splitOnChar]
  | cons a rest ih =>
    have ha : ¬ a = sep := fun heq => hs (heq ▸ List.mem_cons_self a rest)
    have hrest : sep ∉ rest := fun hmem => hs (List.mem_cons_of_mem a hmem)
    have ihr := ih hrest
    simp only [List.cons_append, splitOnChar, ha, if_false]
    rw [show rest.append (sep :: t) = rest ++ sep :: t from rfl, ihr]

theorem splitOnChar_no_sep {sep : Char} {s : Str} (hs : sep ∉ s) :
    splitOnChar sep s = [s] := by
  induction s with
  | nil => simp [splitOnChar]
  | cons a rest ih =>
    have ha : ¬ a = sep := fun heq => hs (heq ▸ List.mem_cons_self a rest)
    have hrest : sep ∉ rest := fun hmem => hs (List.mem_cons_of_mem a hmem)
    simp [splitOnChar, ha, ih hrest]

theorem joinChar_split (sep : Char) (s : Str) :
    joinChar sep (splitOnChar sep s) = s := by
  induction s with
  | nil => simp [splitOnChar, joinChar]
  | cons a rest ih =>
    by_cases h : a = sep
    · subst h
      simp only [splitOnChar, if_pos rfl]
      cases hs : splitOnChar a rest with
      | nil => exact absurd hs (splitOnChar_ne_nil a rest)
      | cons hd tl =>
        rw [hs] at ih
        simp [joinChar, ih]
    · simp only [splitOnChar, h, if_false]
      cases hs : splitOnChar sep rest with
      | nil => exact absurd hs (splitOnChar_ne_nil sep rest)
      | cons hd tl =>
        rw [hs] at ih
        cases tl with
        | nil => simp_all [joinChar]
        | cons t ts => simp_all [joinChar]

theorem normalizeNewlines_eq_self {s : Str} (h : '\r' ∉ s) :
    normalizeNewlines s = s := by
  induction s using normalizeNewlines.induct with
  | case1 => rfl
  | case2 c => rfl
  | case3 a b rest hab ih =>
    exact absurd (hab.1 ▸ List.mem_cons_self a (b :: rest)) h
  | case4 a b rest hab ih =>
    have hb : '\r' ∉ b :: rest := fun hmem => h (List.mem_cons_of_mem a hmem)
    simp only [normalizeNewlines, hab, if_false]
    rw [ih hb]

theorem splitOnChar_join_terminated (sep : Char) (ls : List Str)
    (hne : ls ≠ []) (hfree : ∀ seg ∈ ls, sep ∉ seg) :
    splitOnChar sep (joinChar sep ls ++ [sep]) = ls ++ [[]] := by
  induction ls with
  | nil => simp at hne
  | cons a rest ih =>
    have ha : sep ∉ a := hfree a (List.mem_cons_self a rest)
    cases rest with
    | nil =>
      have : splitOnChar sep (a ++ sep :: ([] : Str)) = a :: splitOnChar sep [] :=
        splitOnChar_append_sep ha []
      simpa [joinChar, splitOnChar] using this
    | cons b bs =>
      have hrest : ∀ seg ∈ b :: bs, sep ∉ seg := fun seg hseg =>
        hfree seg (List.mem_cons_of_mem a hseg)
      have ihr := ih (by simp) hrest
      have : joinChar sep (a :: b :: bs) ++ [sep] =
          a ++ sep :: (joinChar sep (b :: bs) ++ [sep]) := by
        simp [joinChar]
      rw [this, splitOnChar_append_sep ha, ihr]
      simp

theorem joinChar_mem {sep : Char} {ls : List Str} {c : Char}
    (h : c ∈ joinChar sep ls) : c = sep ∨ ∃ s ∈ ls, c ∈ s := by
  induction ls with
  | nil => simp [joinChar] at h
  | cons a rest ih =>
    cases rest with
    | nil =>
      simp only [joinChar] at h
      exact Or.inr ⟨a, List.mem_singleton_self a, h⟩
    | cons b bs =>
      simp only [joinChar] at h
      rcases List.mem_append.mp h with h | h
      · exact Or.inr ⟨a, List.mem_cons_self a (b :: bs), h⟩
      · rcases List.mem_cons.mp h with h | h
        · exact Or.inl h
        · rcases ih h with h | ⟨t, ht, hc⟩
          · exact Or.inl h
          · exact Or.inr ⟨t, List.mem_cons_of_mem a ht, hc⟩

theorem mem_parseLines_no_newline {x : Str} :
    ∀ seg ∈ parseLines x, '\n' ∉ seg := by
  intro seg hseg
  by_cases hx : x = []
  · simp [parseLines, hx] at hseg
  · have hxb : (x == []) = false := by simpa using hx
    simp only [parseLines, hxb, Bool.false_eq_true, if_false] at hseg
    set segs := splitOnChar '\n' (normalizeNewlines x) with hsegs
    have hsub : seg ∈ segs := by
      rcases hlast : segs.getLast? with _ | last
      · rw [hlast] at hseg; exact hseg
      · cases last with
        | nil =>
          rw [hlast] at hseg
          exact (List.dropLast_sublist segs).subset hseg
        | cons c cs =>
          rw [hlast] at hseg; exact hseg
    exact splitOnChar_sep_not_mem seg hsub

theorem mem_parseLines_subset {x : Str} (hx : '\r' ∉ x) :
    ∀ seg ∈ parseLines x, ∀ c ∈ seg, c ∈ x := by
  intro seg hseg c hc
  by_cases hxe : x = []
  · simp [parseLines, hxe] at hseg
  · have hxb : (x == []) = false := by simpa using hxe
    simp only [parseLines, hxb, Bool.false_eq_true, if_false,
      normalizeNewlines_eq_self hx] at hseg
    set segs := splitOnChar '\n' x with hsegs
    have hsub : seg ∈ segs := by
      rcases hlast : segs.getLast? with _ | last
      · rw [hlast] at hseg; exact hseg
      · cases last with
        | nil =>
          rw [hlast] at hseg
          exact (List.dropLast_sublist segs).subset hseg
        | cons d ds =>
          rw [hlast] at hseg; exact hseg
    exact splitOnChar_subset seg hsub c hc

end ParserLemmas

/-- C8: for carriage-return-free input, `parse ∘ serialize ∘ parse = parse`:
parsing normalizes CRLF, splits on newlines and drops one trailing empty
segment, while serializing joins with newlines and appends exactly one
trailing newline for a non-empty sequence (the empty string otherwise). -/
theorem parse_serialize_parse_roundtrip (x : Str) (hx : '\r' ∉ x) :
    parseLines (serializeLines (parseLines x)) = parseLines x := by
  set ls := parseLines x with hls
  by_cases hempty : ls = []
  · rw [hempty]
    simp [serializeLines, parseLines]
  · have hlsb : (ls == []) = false := by simpa using hempty
    have hnl : ∀ seg ∈ ls, '\n' ∉ seg := ParserLemmas.mem_parseLines_no_newline
    have hxsub : ∀ seg ∈ ls, ∀ c ∈ seg, c ∈ x := ParserLemmas.mem_parseLines_subset hx
    have hser : serializeLines ls = joinChar '\n' ls ++ ['\n'] := by
      simp [serializeLines, hlsb]
    have hserne : joinChar '\n' ls ++ ['\n'] ≠ [] := by simp
    have hsernb : ((joinChar '\n' ls ++ ['\n'] : Str) == []) = false := by
      simp
    have hnocr : '\r' ∉ joinChar '\n' ls ++ ['\n'] := by
      intro hmem
      rcases List.mem_append.mp hmem with hmem | hmem
      · rcases ParserLemmas.joinChar_mem hmem with h | ⟨t, ht, hct⟩
        · exact absurd h (by decide)
        · exact hx (hxsub t ht _ hct)
      · simp at hmem
    rw [hser]
    simp only [parseLines, hsernb, Bool.false_eq_true, if_false,
      ParserLemmas.normalizeNewlines_eq_self hnocr]
    rw [ParserLemmas.splitOnChar_join_terminated '\n' ls hempty hnl]
    have hlast : (ls ++ [([] : Str)]).getLast? = some [] := by
      simp [List.getLast?_append]
    rw [hlast]
    simp

/-- Witness for C8 at a concrete input. -/
theorem parse_serialize_parse_roundtrip_witness :
    parseLines (serializeLines (parseLines (strL "a\nb\n\nc"))) =
      parseLines (strL "a\nb\n\nc") :=
  parse_serialize_parse_roundtrip (strL "a\nb\n\nc") (by decide)

/-- The per-line rendering facts recorded for the first occurrence of a key:
`{ trailingSlash: line.endsWith('/'), anchored: line.startsWith('/') }`. -/
structure Variant where
  trailingSlash : Bool
  anchored : Bool
deriving DecidableEq

/-- The variant of a concrete line. -/
def variantOf (line : Str) : Variant := ⟨endsWithSlash line, startsWithSlash line⟩

/-- `buildCanonicalFromKey`: render the canonical line for a key given its
folder status, the first-seen variant and the trailing-slash policy. -/
def buildCanonicalFromKey (key : Str) (isFolder : Bool) (v : Variant)
    (trailingSlashForFolders : Bool) : Str :=
  if isPatternLine key then key
  else
    let rootDotfile := !isFolder && !(key.contains '/') && (key.head? == some '.')
    let normalizedKey := stripTrailingSlashes key
    if isFolder then
      let anchoredBase := if v.anchored then '/' :: normalizedKey else normalizedKey
      if trailingSlashForFolders || v.trailingSlash then
        if endsWithSlash anchoredBase then anchoredBase else anchoredBase ++ ['/']
      else stripTrailingSlashes anchoredBase
    else if rootDotfile then normalizedKey
    else
      let anchoredBase := if v.anchored then '/' :: normalizedKey else normalizedKey
      stripTrailingSlashes anchoredBase

/-- `isRootLevelPath`: the relative path has no separator. -/
def isRootLevelPath (p : Str) : Bool := !(p.contains '/')

/-- `formatGitignoreEntry`: render the entry line for a freshly added or
removed path, per the leading/trailing-slash policies. -/
def formatGitignoreEntry (relativePath : Str) (isDirectory : Bool)
    (trailingSlashForFolders addWithLeadingSlash : Bool) : Str :=
  let escaped := escapeGitignorePath relativePath
  let core := stripLeadingSlashes escaped
  let isRootDotfile := !isDirectory && isRootLevelPath relativePath && (core.head? == some '.')
  let normalized :=
    if isDirectory then
      let withoutTrailing := stripTrailingSlashes core
      if trailingSlashForFolders then withoutTrailing ++ ['/'] else withoutTrailing
    else stripTrailingSlashes core
  let anchored :=
    if addWithLeadingSlash && !isRootDotfile then
      if startsWithSlash normalized then normalized else '/' :: normalized
    else stripLeadingSlashes normalized
  if isDirectory then anchored else stripTrailingSlashes anchored

example : buildCanonicalFromKey (strL "node_modules") true ⟨false, true⟩ true =
    strL "/node_modules/" := by decide
example : buildCanonicalFromKey (strL ".env") false ⟨false, true⟩ true =
    strL ".env" := by decide
example : formatGitignoreEntry (strL "src/a.ts") false true true =
    strL "/src/a.ts" := by decide
example : formatGitignoreEntry (strL ".vscode") true true true =
    strL "/.vscode/" := by decide

namespace StrLemmas

theorem dropWhile_head?_false {α : Type} {p : α → Bool} {l : List α} {c : α}
    (h : (l.dropWhile p).head? = some c) : p c = false := by
  induction l with
  | nil => simp [List.dropWhile] at h
  | cons a rest ih =>
    by_cases ha : p a
    · rw [List.dropWhile_cons_of_pos ha] at h
      exact ih h
    · rw [List.dropWhile_cons_of_neg ha] at h
      simp only [List.head?_cons, Option.some.injEq] at h
      subst h
      simpa using ha

theorem dropWhile_eq_self {α : Type} {p : α → Bool} {l : List α}
    (h : ∀ c, l.head? = some c → p c = false) : l.dropWhile p = l := by
  cases l with
  | nil => rfl
  | cons a rest =>
    have := h a (by simp)
    simp [List.dropWhile, this]

theorem dropWhile_decomp {α : Type} (p : α → Bool) (l : List α) :
    ∃ pre, pre ++ l.dropWhile p = l := by
  rcases List.dropWhile_suffix (l := l) p with ⟨pre, hpre⟩
  exact ⟨pre, hpre⟩

theorem getLast?_dropWhile_of_ne_nil {α : Type} {p : α → Bool} {l : List α}
    (h : l.dropWhile p ≠ []) : (l.dropWhile p).getLast? = l.getLast? := by
  rcases dropWhile_decomp p l with ⟨pre, hpre⟩
  conv_rhs => rw [← hpre]
  rw [List.getLast?_append]
  cases hd : (l.dropWhile p).getLast? with
  | none => exact absurd (List.getLast?_eq_none_iff.mp hd) h
  | some c => simp

theorem stripLeadingSlashes_cons_slash (t : Str) :
    stripLeadingSlashes ('/' :: t) = stripLeadingSlashes t := by
  simp [stripLeadingSlashes, List.dropWhile]

theorem stripLeadingSlashes_eq_self {t : Str} (h : t.head? ≠ some '/') :
    stripLeadingSlashes t = t := by
  apply dropWhile_eq_self
  intro c hc
  simp only [beq_eq_false_iff_ne, ne_eq]
  intro he
  exact h (he ▸ hc)

theorem stripLeadingSlashes_head? (t : Str) :
    (stripLeadingSlashes t).head? ≠ some '/' := by
  intro h
  have := dropWhile_head?_false h
  simp at this

theorem stripTrailingSlashes_append_slash (t : Str) :
    stripTrailingSlashes (t ++ ['/']) = stripTrailingSlashes t := by
  simp [stripTrailingSlashes, List.dropWhile]

theorem stripTrailingSlashes_eq_self {t : Str} (h : t.getLast? ≠ some '/') :
    stripTrailingSlashes t = t := by
  have : t.reverse.dropWhile (· == '/') = t.reverse := by
    apply dropWhile_eq_self
    intro c hc
    rw [List.head?_reverse] at hc
    simp only [beq_eq_false_iff_ne, ne_eq]
    intro he
    exact h (he ▸ hc)
  simp [stripTrailingSlashes, this]

theorem stripTrailingSlashes_getLast? (t : Str) :
    (stripTrailingSlashes t).getLast? ≠ some '/' := by
  intro h
  rw [show stripTrailingSlashes t = (t.reverse.dropWhile (· == '/')).reverse from rfl] at h
  rw [List.getLast?_reverse] at h
  have := dropWhile_head?_false h
  simp at this

theorem stripTrailingSlashes_decomp (t : Str) :
    ∃ r, stripTrailingSlashes t ++ r = t := by
  rcases dropWhile_decomp (· == '/') t.reverse with ⟨pre, hpre⟩
  refine ⟨pre.reverse, ?_⟩
  have := congrArg List.reverse hpre
  simpa [stripTrailingSlashes] using this

theorem stripTrailingSlashes_head?_of_ne_nil {t : Str}
    (h : stripTrailingSlashes t ≠ []) :
    (stripTrailingSlashes t).head? = t.head? := by
  have hrev : t.reverse.dropWhile (· == '/') ≠ [] := by
    intro he
    exact h (by simp [stripTrailingSlashes, he])
  have := getLast?_dropWhile_of_ne_nil hrev
  calc (stripTrailingSlashes t).head?
      = (t.reverse.dropWhile (· == '/')).getLast? := by
        rw [show stripTrailingSlashes t = (t.reverse.dropWhile (· == '/')).reverse from rfl,
          List.head?_reverse]
    _ = t.reverse.getLast? := this
    _ = t.head? := List.getLast?_reverse t

theorem stripTrailingSlashes_cons_of_getLast {c : Char} {t : Str}
    (hne : t ≠ []) (h : t.getLast? ≠ some '/') :
    stripTrailingSlashes (c :: t) = c :: t := by
  apply stripTrailingSlashes_eq_self
  rw [List.getLast?_cons, List.getLast?_eq_getLast _ hne]
  simpa [List.getLast?_eq_getLast _ hne] using h

end StrLemmas

namespace StrLemmas

theorem trim_eq_self {s : Str}
    (hh : ∀ c, s.head? = some c → isWS c = false)
    (hl : ∀ c, s.getLast? = some c → isWS c = false) : trim s = s := by
  have hfront : s.dropWhile isWS = s := dropWhile_eq_self hh
  have hback : s.reverse.dropWhile isWS = s.reverse := by
    apply dropWhile_eq_self
    intro c hc
    rw [List.head?_reverse] at hc
    exact hl c hc
  simp [trim, hfront, hback]

theorem trim_getLast?_not_ws {s : Str} {c : Char}
    (h : (trim s).getLast? = some c) : isWS c = false := by
  rw [show trim s = ((s.dropWhile isWS).reverse.dropWhile isWS).reverse from rfl,
    List.getLast?_reverse] at h
  exact dropWhile_head?_false h

theorem trim_head?_not_ws {s : Str} {c : Char}
    (h : (trim s).head? = some c) : isWS c = false := by
  rw [show trim s = ((s.dropWhile isWS).reverse.dropWhile isWS).reverse from rfl,
    List.head?_reverse] at h
  have hne : (s.dropWhile isWS).reverse.dropWhile isWS ≠ [] := by
    intro he
    rw [he] at h
    simp at h
  rw [getLast?_dropWhile_of_ne_nil hne, List.getLast?_reverse] at h
  exact dropWhile_head?_false h

theorem trim_trim (s : Str) : trim (trim s) = trim s := by
  by_cases h : trim s = []
  · rw [h]
    rfl
  · exact trim_eq_self (fun c hc => trim_head?_not_ws hc) (fun c hc => trim_getLast?_not_ws hc)

theorem escape_nil : escapeGitignorePath [] = [] := rfl

theorem escape_cons (c : Char) (t : Str) :
    escapeGitignorePath (c :: t) =
      (if c = ' ' ∨ c = '#' ∨ c = '!' then ['\\', c] else [c]) ++ escapeGitignorePath t := by
  simp [escapeGitignorePath]

theorem escape_mem {p : Str} {c : Char} (h : c ∈ escapeGitignorePath p) :
    c = '\\' ∨ c ∈ p := by
  induction p with
  | nil => simp [escapeGitignorePath] at h
  | cons a rest ih =>
    rw [escape_cons] at h
    rcases List.mem_append.mp h with h | h
    · by_cases ha : a = ' ' ∨ a = '#' ∨ a = '!'
      · rw [if_pos ha] at h
        rcases List.mem_cons.mp h with h | h
        · exact Or.inl h
        · simp only [List.mem_singleton] at h
          exact Or.inr (h ▸ List.mem_cons_self a rest)
      · rw [if_neg ha] at h
        simp only [List.mem_singleton] at h
        exact Or.inr (h ▸ List.mem_cons_self a rest)
    · rcases ih h with h | h
      · exact Or.inl h
      · exact Or.inr (List.mem_cons_of_mem a h)

theorem escape_ne_nil {p : Str} (h : p ≠ []) : escapeGitignorePath p ≠ [] := by
  cases p with
  | nil => exact absurd rfl h
  | cons a rest =>
    rw [escape_cons]
    by_cases ha : a = ' ' ∨ a = '#' ∨ a = '!' <;> simp [ha]

theorem escape_head?_no_slash {p : Str} (h : '/' ∉ p) :
    (escapeGitignorePath p).head? ≠ some '/' := by
  intro hc
  have hmem : '/' ∈ escapeGitignorePath p := by
    cases hp : escapeGitignorePath p with
    | nil => rw [hp] at hc; simp at hc
    | cons a t =>
      rw [hp] at hc
      simp only [List.head?_cons, Option.some.injEq] at hc
      exact hc ▸ List.mem_cons_self a t
  rcases escape_mem hmem with hmem | hmem
  · simp at hmem
  · exact h hmem

theorem escape_getLast?_no_slash {p : Str} (h : '/' ∉ p) :
    (escapeGitignorePath p).getLast? ≠ some '/' := by
  intro hc
  have hmem : '/' ∈ escapeGitignorePath p := by
    cases hp : escapeGitignorePath p with
    | nil => rw [hp] at hc; simp at hc
    | cons a t =>
      rw [hp] at hc
      rw [List.getLast?_eq_getLast _ (by simp)] at hc
      rw [Option.some.injEq] at hc
      exact hc ▸ List.getLast_mem (l := a :: t) (by simp)
  rcases escape_mem hmem with hmem | hmem
  · simp at hmem
  · exact h hmem

theorem escape_head?_dot {p : Str} (h : p.head? = some '.') :
    (escapeGitignorePath p).head? = some '.' := by
  cases p with
  | nil => simp at h
  | cons a rest =>
    simp only [List.head?_cons, Option.some.injEq] at h
    subst h
    rw [escape_cons]
    have : ¬('.' = ' ' ∨ '.' = '#' ∨ '.' = '!') := by decide
    rw [if_neg this]
    rfl

theorem escape_no_slash_mem {p : Str} (h : '/' ∉ p) :
    '/' ∉ escapeGitignorePath p := by
  intro hmem
  rcases escape_mem hmem with hmem | hmem
  · simp at hmem
  · exact h hmem

end StrLemmas

namespace CanonLemmas
open StrLemmas

theorem getLast?_cons_ne {c : Char} {t : Str} (h : t ≠ []) :
    (c :: t).getLast? = t.getLast? := by
  cases t with
  | nil => exact absurd rfl h
  | cons b l => simp [List.getLast?]

theorem head?_append_left {t r : Str} (h : t ≠ []) : (t ++ r).head? = t.head? := by
  cases t with
  | nil => exact absurd rfl h
  | cons a l => simp

theorem anchSeg_getLast? {key : Str} (hne : key ≠ []) (anch : Bool) :
    ((if anch then '/' :: key else key) : Str).getLast? = key.getLast? := by
  cases anch with
  | false => simp
  | true => simp [getLast?_cons_ne hne]

/-- The rendered canonical line, spelled out, for a well-formed key. -/
theorem buildCanonical_shape {key : Str} (hpat : isPatternLine key = false)
    (_hlead : key.head? ≠ some '/') (htrail : key.getLast? ≠ some '/') (hne : key ≠ [])
    (f : Bool) (v : Variant) (t : Bool) :
    buildCanonicalFromKey key f v t =
      if f then
        (if v.anchored then '/' :: key else key) ++
          (if t || v.trailingSlash then ['/'] else [])
      else if !(key.contains '/') && (key.head? == some '.') then key
      else if v.anchored then '/' :: key else key := by
  have hstrip : stripTrailingSlashes key = key := stripTrailingSlashes_eq_self htrail
  have hanchLast : ∀ anch : Bool,
      ((if anch then '/' :: key else key) : Str).getLast? ≠ some '/' := by
    intro anch
    rw [anchSeg_getLast? hne]
    exact htrail
  have hends : endsWithSlash (if v.anchored then '/' :: key else key) = false := by
    simp only [endsWithSlash, beq_eq_false_iff_ne, ne_eq]
    exact hanchLast v.anchored
  simp only [buildCanonicalFromKey, hpat, Bool.false_eq_true, if_false]
  cases f with
  | true =>
    simp only [if_true, hstrip]
    by_cases hts : (t || v.trailingSlash) = true
    · simp [hts, hends]
    · have hts' : (t || v.trailingSlash) = false := by
        simpa using hts
      simp only [hts', Bool.false_eq_true, if_false, List.append_nil, if_true]
      exact stripTrailingSlashes_eq_self (hanchLast v.anchored)
  | false =>
    simp only [Bool.false_eq_true, if_false, Bool.not_false, Bool.true_and, hstrip]
    by_cases hdot : (!(key.contains '/') && (key.head? == some '.')) = true
    · simp only [hdot]
      simp
    · have hdot' : (!(key.contains '/') && (key.head? == some '.')) = false := by
        simpa using hdot
      simp only [hdot', Bool.false_eq_true, if_false]
      exact stripTrailingSlashes_eq_self (hanchLast v.anchored)

theorem toKey_buildCanonical {key : Str}
    (hlead : key.head? ≠ some '/') (htrail : key.getLast? ≠ some '/') (hne : key ≠ [])
    (f : Bool) (v : Variant) (t : Bool) :
    stripAnchorsAndSlashes (buildCanonicalFromKey key f v t) = key := by
  have hself : stripAnchorsAndSlashes key = key := by
    rw [stripAnchorsAndSlashes, stripLeadingSlashes_eq_self hlead,
      stripTrailingSlashes_eq_self htrail]
  by_cases hpat : isPatternLine key = true
  · rw [show buildCanonicalFromKey key f v t = key by
      simp [buildCanonicalFromKey, hpat]]
    exact hself
  · have hpat' : isPatternLine key = false := by simpa using hpat
    rw [buildCanonical_shape hpat' hlead htrail hne]
    have hkeySlash : stripAnchorsAndSlashes (key ++ ['/']) = key := by
      rw [stripAnchorsAndSlashes, stripLeadingSlashes_eq_self (by
        rw [head?_append_left hne]; exact hlead),
        stripTrailingSlashes_append_slash, stripTrailingSlashes_eq_self htrail]
    have hconsKey : stripAnchorsAndSlashes ('/' :: key) = key := by
      rw [stripAnchorsAndSlashes, stripLeadingSlashes_cons_slash,
        stripLeadingSlashes_eq_self hlead, stripTrailingSlashes_eq_self htrail]
    have hconsKeySlash : stripAnchorsAndSlashes ('/' :: (key ++ ['/'])) = key := by
      rw [stripAnchorsAndSlashes, stripLeadingSlashes_cons_slash,
        stripLeadingSlashes_eq_self (by rw [head?_append_left hne]; exact hlead),
        stripTrailingSlashes_append_slash, stripTrailingSlashes_eq_self htrail]
    cases f with
    | true =>
      cases hv : v.anchored with
      | true =>
        by_cases hts : (t || v.trailingSlash) = true
        · simp only [hts, if_true, if_pos rfl]
          simpa using hconsKeySlash
        · have hts' : (t || v.trailingSlash) = false := by simpa using hts
          simp only [hts', Bool.false_eq_true, if_false, if_true, List.append_nil]
          exact hconsKey
      | false =>
        by_cases hts : (t || v.trailingSlash) = true
        · simp only [hts, if_true, Bool.false_eq_true, if_false]
          exact hkeySlash
        · have hts' : (t || v.trailingSlash) = false := by simpa using hts
          simp only [hts', Bool.false_eq_true, if_false, List.append_nil]
          exact hself
    | false =>
      by_cases hdot : (!(key.contains '/') && (key.head? == some '.')) = true
      · simp only [Bool.false_eq_true, if_false, hdot, if_true]
        exact hself
      · have hdot' := Bool.not_eq_true _ |>.mp hdot
        simp only [Bool.false_eq_true, if_false, hdot', if_true]
        cases hv : v.anchored with
        | true => simp only [if_true]; exact hconsKey
        | false => simp only [Bool.false_eq_true, if_false]; exact hself

end CanonLemmas

namespace CanonLemmas
open StrLemmas

theorem buildCanonical_pattern_key {key : Str} (hpat : isPatternLine key = true)
    (f : Bool) (v : Variant) (t : Bool) :
    buildCanonicalFromKey key f v t = key := by
  simp [buildCanonicalFromKey, hpat]

theorem buildCanonical_head? {key : Str} (hpat : isPatternLine key = false)
    (hlead : key.head? ≠ some '/') (htrail : key.getLast? ≠ some '/') (hne : key ≠ [])
    (f : Bool) (v : Variant) (t : Bool) :
    (buildCanonicalFromKey key f v t).head? =
      if v.anchored && (f || !(!(key.contains '/') && (key.head? == some '.')))
      then some '/' else key.head? := by
  rw [buildCanonical_shape hpat hlead htrail hne]
  cases f with
  | true =>
    cases hv : v.anchored with
    | true => simp
    | false =>
      simp only [if_true, Bool.false_eq_true, if_false, Bool.false_and]
      exact head?_append_left hne
  | false =>
    by_cases hdot : (!(key.contains '/') && (key.head? == some '.')) = true
    · have hdotP : '/' ∉ key ∧ key.head? = some '.' := by simpa using hdot
      have hrhs : ¬(v.anchored = true ∧ ('/' ∈ key ∨ ¬key.head? = some '.')) := by
        rintro ⟨-, h⟩
        rcases h with h | h
        · exact hdotP.1 h
        · exact h hdotP.2
      simp only [Bool.false_eq_true, if_false]
      rw [if_pos (by simpa using hdot)]
      simp only [Bool.false_or]
      rw [if_neg (by simpa using hrhs)]
    · have hdotN : ¬('/' ∉ key ∧ key.head? = some '.') := by simpa using hdot
      have hrhsP : '/' ∈ key ∨ ¬key.head? = some '.' := by
        by_cases hm : '/' ∈ key
        · exact Or.inl hm
        · exact Or.inr (fun hd => hdotN ⟨hm, hd⟩)
      cases hv : v.anchored with
      | true =>
        simp only [Bool.false_eq_true, if_false, if_true]
        rw [if_neg (by simpa using hdotN)]
        simp only [Bool.false_or, List.head?_cons]
        rw [if_pos (by simpa using hrhsP)]
      | false => simp [hdotN]

theorem buildCanonical_getLast? {key : Str} (hpat : isPatternLine key = false)
    (hlead : key.head? ≠ some '/') (htrail : key.getLast? ≠ some '/') (hne : key ≠ [])
    (f : Bool) (v : Variant) (t : Bool) :
    (buildCanonicalFromKey key f v t).getLast? =
      if f && (t || v.trailingSlash) then some '/' else key.getLast? := by
  rw [buildCanonical_shape hpat hlead htrail hne]
  cases f with
  | true =>
    by_cases hts : (t || v.trailingSlash) = true
    · simp [hts, List.getLast?_append]
    · have hts' : (t || v.trailingSlash) = false := by simpa using hts
      simp only [hts', Bool.false_eq_true, if_false, List.append_nil, if_true, Bool.and_false]
      exact anchSeg_getLast? hne v.anchored
  | false =>
    by_cases hdot : (!(key.contains '/') && (key.head? == some '.')) = true
    · simp only [Bool.false_eq_true, if_false, Bool.false_and]
      rw [if_pos (by simpa using hdot)]
    · have hdotN : ¬('/' ∉ key ∧ key.head? = some '.') := by simpa using hdot
      simp only [Bool.false_eq_true, if_false, Bool.false_and]
      rw [if_neg (by simpa using hdotN)]
      exact anchSeg_getLast? hne v.anchored

theorem buildCanonical_mem {key : Str} (hpat : isPatternLine key = false)
    (hlead : key.head? ≠ some '/') (htrail : key.getLast? ≠ some '/') (hne : key ≠ [])
    (f : Bool) (v : Variant) (t : Bool) :
    ∀ c ∈ buildCanonicalFromKey key f v t, c = '/' ∨ c ∈ key := by
  rw [buildCanonical_shape hpat hlead htrail hne]
  intro c hc
  cases f with
  | true =>
    simp only [if_true] at hc
    rcases List.mem_append.mp hc with hc | hc
    · cases hv : v.anchored with
      | true =>
        rw [hv] at hc
        simp only [if_true] at hc
        rcases List.mem_cons.mp hc with hc | hc
        · exact Or.inl hc
        · exact Or.inr hc
      | false =>
        rw [hv] at hc
        simp only [Bool.false_eq_true, if_false] at hc
        exact Or.inr hc
    · by_cases hts : (t || v.trailingSlash) = true
      · rw [hts] at hc
        simp only [if_true, List.mem_singleton] at hc
        exact Or.inl hc
      · have hts' : (t || v.trailingSlash) = false := by simpa using hts
        rw [hts'] at hc
        simp at hc
  | false =>
    simp only [Bool.false_eq_true, if_false] at hc
    by_cases hdot : (!(key.contains '/') && (key.head? == some '.')) = true
    · rw [hdot] at hc
      simp only [if_true] at hc
      exact Or.inr hc
    · have hdot' : (!(key.contains '/') && (key.head? == some '.')) = false := by
        simpa using hdot
      rw [hdot'] at hc
      simp only [Bool.false_eq_true, if_false] at hc
      cases hv : v.anchored with
      | true =>
        rw [hv] at hc
        simp only [if_true] at hc
        rcases List.mem_cons.mp hc with hc | hc
        · exact Or.inl hc
        · exact Or.inr hc
      | false =>
        rw [hv] at hc
        simp only [Bool.false_eq_true, if_false] at hc
        exact Or.inr hc

theorem buildCanonical_ne_nil {key : Str}
    (hlead : key.head? ≠ some '/') (htrail : key.getLast? ≠ some '/') (hne : key ≠ [])
    (f : Bool) (v : Variant) (t : Bool) :
    buildCanonicalFromKey key f v t ≠ [] := by
  by_cases hpat : isPatternLine key = true
  · rw [buildCanonical_pattern_key hpat]
    exact hne
  · have hpat' : isPatternLine key = false := by simpa using hpat
    intro he
    have := buildCanonical_head? hpat' hlead htrail hne f v t
    rw [he] at this
    by_cases hcond : (v.anchored && (f || !(!(key.contains '/') && (key.head? == some '.')))) = true
    · rw [hcond] at this
      simp at this
    · have hcond' : (v.anchored && (f || !(!(key.contains '/') && (key.head? == some '.')))) = false := by
        simpa using hcond
      rw [hcond'] at this
      simp only [Bool.false_eq_true, if_false, List.head?_nil] at this
      cases key with
      | nil => exact hne rfl
      | cons a l => simp at this

end CanonLemmas

namespace CanonLemmas
open StrLemmas

theorem pattern_eq_false_parts {s : Str} (h : isPatternLine s = false) :
    (s.head? == some '!') = false ∧ s.any isGlobChar = false := by
  rw [isPatternLine, Bool.or_eq_false_iff] at h
  exact h

theorem buildCanonical_not_pattern {key : Str} (hpat : isPatternLine key = false)
    (hlead : key.head? ≠ some '/') (htrail : key.getLast? ≠ some '/') (hne : key ≠ [])
    (f : Bool) (v : Variant) (t : Bool) :
    isPatternLine (buildCanonicalFromKey key f v t) = false := by
  rcases pattern_eq_false_parts hpat with ⟨hhead, hany⟩
  rw [isPatternLine, Bool.or_eq_false_iff]
  constructor
  · rw [buildCanonical_head? hpat hlead htrail hne f v t]
    by_cases hcond : (v.anchored && (f || !(!(key.contains '/') && (key.head? == some '.')))) = true
    · rw [if_pos hcond]
      decide
    · rw [if_neg hcond]
      exact hhead
  · rw [List.any_eq_false]
    intro c hc
    rcases buildCanonical_mem hpat hlead htrail hne f v t c hc with hc' | hc'
    · subst hc'
      decide
    · rw [List.any_eq_false] at hany
      exact hany c hc'

theorem buildCanonical_not_comment {key : Str} (hpat : isPatternLine key = false)
    (hlead : key.head? ≠ some '/') (htrail : key.getLast? ≠ some '/') (hne : key ≠ [])
    {v : Variant} (hh : v.anchored = false → key.head? ≠ some '#')
    (f : Bool) (t : Bool) :
    isComment (buildCanonicalFromKey key f v t) = false := by
  rw [isComment, beq_eq_false_iff_ne, ne_eq]
  rw [buildCanonical_head? hpat hlead htrail hne f v t]
  by_cases hcond : (v.anchored && (f || !(!(key.contains '/') && (key.head? == some '.')))) = true
  · rw [if_pos hcond]
    simp
  · rw [if_neg hcond]
    cases hv : v.anchored with
    | false => exact hh hv
    | true =>
      have hcond' : (v.anchored && (f || !(!(key.contains '/') && (key.head? == some '.')))) = false := by
        simpa using hcond
      rw [hv] at hcond'
      simp only [Bool.true_and, Bool.or_eq_false_iff] at hcond'
      rcases hcond' with ⟨-, hdot⟩
      have hdotT : (!(key.contains '/') && (key.head? == some '.')) = true := by
        simpa using hdot
      have : key.head? = some '.' := by
        have := (Bool.and_eq_true _ _).mp hdotT |>.2
        simpa using this
      rw [this]
      simp

theorem buildCanonical_trim {key : Str} (hpat : isPatternLine key = false)
    (hlead : key.head? ≠ some '/') (htrail : key.getLast? ≠ some '/') (hne : key ≠ [])
    (hwh : ∀ c, key.head? = some c → isWS c = false)
    (hwl : ∀ c, key.getLast? = some c → isWS c = false)
    (f : Bool) (v : Variant) (t : Bool) :
    trim (buildCanonicalFromKey key f v t) = buildCanonicalFromKey key f v t := by
  apply trim_eq_self
  · intro c hc
    rw [buildCanonical_head? hpat hlead htrail hne f v t] at hc
    by_cases hcond : (v.anchored && (f || !(!(key.contains '/') && (key.head? == some '.')))) = true
    · rw [if_pos hcond] at hc
      rw [Option.some.injEq] at hc
      subst hc
      decide
    · rw [if_neg hcond] at hc
      exact hwh c hc
  · intro c hc
    rw [buildCanonical_getLast? hpat hlead htrail hne f v t] at hc
    by_cases hcond : (f && (t || v.trailingSlash)) = true
    · rw [if_pos hcond] at hc
      rw [Option.some.injEq] at hc
      subst hc
      decide
    · rw [if_neg hcond] at hc
      exact hwl c hc

theorem variantOf_buildCanonical {key : Str} (hpat : isPatternLine key = false)
    (hlead : key.head? ≠ some '/') (htrail : key.getLast? ≠ some '/') (hne : key ≠ [])
    (f : Bool) (v : Variant) (t : Bool) :
    variantOf (buildCanonicalFromKey key f v t) =
      ⟨f && (t || v.trailingSlash),
       v.anchored && (f || !(!(key.contains '/') && (key.head? == some '.')))⟩ := by
  rw [variantOf, Variant.mk.injEq]
  constructor
  · rw [endsWithSlash, buildCanonical_getLast? hpat hlead htrail hne f v t]
    by_cases hcond : (f && (t || v.trailingSlash)) = true
    · rw [if_pos hcond, hcond]
      decide
    · have hcond' : (f && (t || v.trailingSlash)) = false := by simpa using hcond
      rw [if_neg hcond, hcond']
      simpa using htrail
  · rw [startsWithSlash, buildCanonical_head? hpat hlead htrail hne f v t]
    by_cases hcond : (v.anchored && (f || !(!(key.contains '/') && (key.head? == some '.')))) = true
    · rw [if_pos hcond, hcond]
      decide
    · have hcond' : (v.anchored && (f || !(!(key.contains '/') && (key.head? == some '.')))) = false := by
        simpa using hcond
      rw [if_neg hcond, hcond']
      simpa using hlead

theorem buildCanonical_fix {key : Str}
    (hlead : key.head? ≠ some '/') (htrail : key.getLast? ≠ some '/') (hne : key ≠ [])
    (f : Bool) (v : Variant) (t : Bool) :
    buildCanonicalFromKey key f (variantOf (buildCanonicalFromKey key f v t)) t =
      buildCanonicalFromKey key f v t := by
  by_cases hpat : isPatternLine key = true
  · rw [buildCanonical_pattern_key hpat, buildCanonical_pattern_key hpat]
  · have hpat' : isPatternLine key = false := by simpa using hpat
    rw [variantOf_buildCanonical hpat' hlead htrail hne f v t]
    rw [buildCanonical_shape hpat' hlead htrail hne,
      buildCanonical_shape hpat' hlead htrail hne]
    cases f with
    | true =>
      have hanch : (v.anchored && (true || !(!(key.contains '/') && (key.head? == some '.'))))
          = v.anchored := by
        cases v.anchored <;> rfl
      have htr : (t || (true && (t || v.trailingSlash))) = (t || v.trailingSlash) := by
        cases t <;> cases v.trailingSlash <;> rfl
      simp only [if_true, hanch, htr]
    | false =>
      by_cases hdot : (!(key.contains '/') && (key.head? == some '.')) = true
      · simp only [Bool.false_eq_true, if_false]
        rw [if_pos hdot, if_pos hdot]
      · have hdotB : (!(key.contains '/') && (key.head? == some '.')) = false := by
          simpa using hdot
        have hinner :
            (v.anchored && (false || !(!(key.contains '/') && (key.head? == some '.'))))
              = v.anchored := by
          rw [hdotB]
          cases v.anchored <;> rfl
        simp only [Bool.false_eq_true, if_false]
        rw [if_neg hdot, if_neg hdot]
        simp only [hinner]

end CanonLemmas

namespace StrLemmas

theorem head?_mem {α : Type} {s : List α} {c : α} (h : s.head? = some c) : c ∈ s := by
  cases s with
  | nil => simp at h
  | cons a t =>
    simp only [List.head?_cons, Option.some.injEq] at h
    exact h ▸ List.mem_cons_self a t

theorem getLast?_mem {α : Type} {s : List α} {c : α} (h : s.getLast? = some c) : c ∈ s := by
  cases s with
  | nil => simp at h
  | cons a t =>
    rw [List.getLast?_eq_getLast _ (by simp), Option.some.injEq] at h
    exact h ▸ List.getLast_mem (by simp)

theorem head?_ne_of_not_mem {s : Str} {c : Char} (h : c ∉ s) : s.head? ≠ some c :=
  fun hh => h (head?_mem hh)

theorem getLast?_ne_of_not_mem {s : Str} {c : Char} (h : c ∉ s) : s.getLast? ≠ some c :=
  fun hh => h (getLast?_mem hh)

theorem contains_eq_false {s : Str} {c : Char} (h : c ∉ s) : s.contains c = false := by
  simpa using h

end StrLemmas

namespace FormatLemmas
open StrLemmas

theorem format_rootDotfile {p : Str} (t a : Bool) (hp : '/' ∉ p)
    (hdot : p.head? = some '.') :
    formatGitignoreEntry p false t a = escapeGitignorePath p := by
  have hesc : (escapeGitignorePath p).head? = some '.' := escape_head?_dot hdot
  have hns : '/' ∉ escapeGitignorePath p := escape_no_slash_mem hp
  have hcore : stripLeadingSlashes (escapeGitignorePath p) = escapeGitignorePath p :=
    stripLeadingSlashes_eq_self (by rw [hesc]; simp)
  have hstrip : stripTrailingSlashes (escapeGitignorePath p) = escapeGitignorePath p :=
    stripTrailingSlashes_eq_self (getLast?_ne_of_not_mem hns)
  have hroot : isRootLevelPath p = true := by
    rw [isRootLevelPath, contains_eq_false hp]
    rfl
  simp only [formatGitignoreEntry, hcore, hstrip, hroot, hesc, Bool.not_false,
    Bool.true_and, Bool.and_true, beq_self_eq_true, Bool.and_self]
  simp [hcore, stripLeadingSlashes_eq_self (show (escapeGitignorePath p).head? ≠ some '/'
    by rw [hesc]; simp), hstrip]

theorem format_rootDir {p : Str} (t a : Bool) (hp : '/' ∉ p) (hne : p ≠ []) :
    formatGitignoreEntry p true t a =
      (if a then '/' :: escapeGitignorePath p else escapeGitignorePath p) ++
        (if t then ['/'] else []) := by
  have hns : '/' ∉ escapeGitignorePath p := escape_no_slash_mem hp
  have hescne : escapeGitignorePath p ≠ [] := escape_ne_nil hne
  have hlead : (escapeGitignorePath p).head? ≠ some '/' := head?_ne_of_not_mem hns
  have hcore : stripLeadingSlashes (escapeGitignorePath p) = escapeGitignorePath p :=
    stripLeadingSlashes_eq_self hlead
  have hstrip : stripTrailingSlashes (escapeGitignorePath p) = escapeGitignorePath p :=
    stripTrailingSlashes_eq_self (getLast?_ne_of_not_mem hns)
  simp only [formatGitignoreEntry, hcore, hstrip, Bool.not_true, Bool.and_false,
    Bool.false_and, Bool.false_eq_true, if_false, if_true]
  have hE : (if t = true then escapeGitignorePath p ++ ['/'] else escapeGitignorePath p)
      = escapeGitignorePath p ++ (if t = true then ['/'] else []) := by
    cases t <;> simp
  rw [hE]
  have hhead : (escapeGitignorePath p ++ (if t = true then ['/'] else [])).head?
      = (escapeGitignorePath p).head? := CanonLemmas.head?_append_left hescne
  have h1 : startsWithSlash (escapeGitignorePath p ++ (if t = true then ['/'] else [])) = false := by
    rw [startsWithSlash, hhead]
    simpa using hlead
  have h2 : stripLeadingSlashes (escapeGitignorePath p ++ (if t = true then ['/'] else []))
      = escapeGitignorePath p ++ (if t = true then ['/'] else []) :=
    stripLeadingSlashes_eq_self (by rw [hhead]; exact hlead)
  cases a with
  | true => simp [h1]
  | false => simp [h2]

end FormatLemmas

/-- C7: a root dotfile key (no path separator, leading `.`, not a folder) is
rendered without a leading slash by both the cleaning canonicalizer
(whatever the first-seen variant's anchoring) and the add-entry renderer
(whatever the `addWithLeadingSlash` setting), while a root-level directory
key is anchored per the first-seen variant (cleaning) or per the setting
(adding) and suffixed with `/` when `trailingSlashForFolders` is enabled. -/
theorem rootDotfile_unanchored_rootDir_anchored :
    (∀ (key : Str) (v : Variant) (t : Bool), '/' ∉ key → key.head? = some '.' →
      (buildCanonicalFromKey key false v t).head? ≠ some '/') ∧
    (∀ (key : Str) (v : Variant) (t : Bool),
      isPatternLine key = false → '/' ∉ key → key ≠ [] →
      buildCanonicalFromKey key true v t =
        (if v.anchored then '/' :: key else key) ++
          (if t || v.trailingSlash then ['/'] else [])) ∧
    (∀ (p : Str) (t a : Bool), '/' ∉ p → p.head? = some '.' →
      formatGitignoreEntry p false t a = escapeGitignorePath p) ∧
    (∀ (p : Str) (t a : Bool), '/' ∉ p → p ≠ [] →
      formatGitignoreEntry p true t a =
        (if a then '/' :: escapeGitignorePath p else escapeGitignorePath p) ++
          (if t then ['/'] else [])) := by
  refine ⟨?_, ?_, ?_, ?_⟩
  · intro key v t hfree hdot
    by_cases hpat : isPatternLine key = true
    · rw [CanonLemmas.buildCanonical_pattern_key hpat]
      rw [hdot]
      simp
    · have hpat' : isPatternLine key = false := by simpa using hpat
      have hne : key ≠ [] := by
        intro he
        rw [he] at hdot
        simp at hdot
      have hlead : key.head? ≠ some '/' := by rw [hdot]; simp
      have htrail : key.getLast? ≠ some '/' := StrLemmas.getLast?_ne_of_not_mem hfree
      rw [CanonLemmas.buildCanonical_head? hpat' hlead htrail hne false v t]
      have hcond : (v.anchored &&
          (false || !(!(key.contains '/') && (key.head? == some '.')))) = false := by
        rw [StrLemmas.contains_eq_false hfree, hdot]
        cases v.anchored <;> rfl
      rw [hcond]
      simp only [Bool.false_eq_true, if_false]
      exact hlead
  · intro key v t hpat hfree hne
    have hlead : key.head? ≠ some '/' := StrLemmas.head?_ne_of_not_mem hfree
    have htrail : key.getLast? ≠ some '/' := StrLemmas.getLast?_ne_of_not_mem hfree
    rw [CanonLemmas.buildCanonical_shape hpat hlead htrail hne]
    simp
  · intro pth t a hfree hdot
    exact FormatLemmas.format_rootDotfile t a hfree hdot
  · intro pth t a hfree hne
    exact FormatLemmas.format_rootDir t a hfree hne

/-- Witness for C7 on the spec's own examples, `.env` and `.vscode`. -/
theorem rootDotfile_unanchored_rootDir_anchored_witness :
    (buildCanonicalFromKey (strL ".env") false ⟨false, true⟩ true).head? ≠ some '/' ∧
    buildCanonicalFromKey (strL ".vscode") true ⟨false, true⟩ true = strL "/.vscode/" ∧
    formatGitignoreEntry (strL ".env") false true true = strL ".env" ∧
    formatGitignoreEntry (strL ".vscode") true true true = strL "/.vscode/" := by
  refine ⟨?_, ?_, ?_, ?_⟩
  · exact rootDotfile_unanchored_rootDir_anchored.1 (strL ".env") ⟨false, true⟩ true
      (by decide) (by decide)
  · have h := rootDotfile_unanchored_rootDir_anchored.2.1 (strL ".vscode") ⟨false, true⟩ true
      (by decide) (by decide) (by decide)
    rw [h]
    decide
  · have h := rootDotfile_unanchored_rootDir_anchored.2.2.1 (strL ".env") true true
      (by decide) (by decide)
    rw [h]
    decide
  · have h := rootDotfile_unanchored_rootDir_anchored.2.2.2 (strL ".vscode") true true
      (by decide) (by decide)
    rw [h]
    decide

/-- `findMatchingEntry`: the first candidate that some line trims to exactly. -/
def findMatchingEntry (lines : List Str) (candidates : List Str) : Option Str :=
  candidates.find? (fun candidate => lines.any (fun l => trim l == candidate))

/-- `enforceBaseEntries`: walk the configured entries in reverse order,
prepending any whose exact trimmed text is absent from the current lines;
returns the updated lines and whether anything was added. -/
def enforceBaseEntries (lines : List Str) (baseEntries : List Str) : List Str × Bool :=
  baseEntries.foldr
    (fun entry acc =>
      if (findMatchingEntry acc.1 [entry]).isSome then acc
      else (entry :: acc.1, true))
    (lines, false)

example : enforceBaseEntries [strL "dist/"] [strL ".DS_Store"] =
    ([strL ".DS_Store", strL "dist/"], true) := by decide
example : enforceBaseEntries [strL " .DS_Store "] [strL ".DS_Store"] =
    ([strL " .DS_Store "], false) := by decide

namespace EnforceLemmas

theorem findMatchingEntry_single {lines : List Str} {b : Str} :
    (findMatchingEntry lines [b]).isSome = lines.any (fun l => trim l == b) := by
  simp only [findMatchingEntry, List.find?]
  cases h : lines.any (fun l => trim l == b) <;> simp [h]

theorem enforce_cons (lines : List Str) (b : Str) (bs : List Str) :
    enforceBaseEntries lines (b :: bs) =
      (if (findMatchingEntry (enforceBaseEntries lines bs).1 [b]).isSome
       then enforceBaseEntries lines bs
       else (b :: (enforceBaseEntries lines bs).1, true)) := rfl

theorem enforce_decomp (lines : List Str) (base : List Str) :
    ∃ pre, (enforceBaseEntries lines base).1 = pre ++ lines ∧
      (∀ b ∈ pre, b ∈ base ∧ ¬∃ l ∈ lines, trim l = b) ∧
      ((enforceBaseEntries lines base).2 = true ↔ pre ≠ []) := by
  induction base with
  | nil => exact ⟨[], rfl, by simp, by simp [enforceBaseEntries]⟩
  | cons b bs ih =>
    rcases ih with ⟨pre, hout, hpre, hflag⟩
    rw [enforce_cons]
    by_cases hfound : (findMatchingEntry (enforceBaseEntries lines bs).1 [b]).isSome = true
    · rw [if_pos hfound]
      exact ⟨pre, hout, fun b' hb' =>
        ⟨List.mem_cons_of_mem b (hpre b' hb').1, (hpre b' hb').2⟩, hflag⟩
    · rw [if_neg hfound]
      refine ⟨b :: pre, by simp [hout], ?_, by simp⟩
      intro b' hb'
      rcases List.mem_cons.mp hb' with hb' | hb'
      · subst hb'
        refine ⟨List.mem_cons_self b' bs, ?_⟩
        rintro ⟨l, hl, hlt⟩
        apply hfound
        rw [findMatchingEntry_single]
        rw [List.any_eq_true]
        refine ⟨l, ?_, by simp [hlt]⟩
        rw [hout]
        exact List.mem_append_right pre hl
      · exact ⟨List.mem_cons_of_mem b (hpre b' hb').1, (hpre b' hb').2⟩

theorem enforce_lines_subset (lines base : List Str) :
    ∀ l ∈ lines, l ∈ (enforceBaseEntries lines base).1 := by
  rcases enforce_decomp lines base with ⟨pre, hout, -, -⟩
  intro l hl
  rw [hout]
  exact List.mem_append_right pre hl

theorem enforce_present (lines base : List Str)
    (htrim : ∀ b ∈ base, trim b = b) :
    ∀ b ∈ base, ∃ l ∈ (enforceBaseEntries lines base).1, trim l = b := by
  induction base with
  | nil => simp
  | cons b bs ih =>
    intro b' hb'
    rw [enforce_cons]
    by_cases hfound : (findMatchingEntry (enforceBaseEntries lines bs).1 [b]).isSome = true
    · rw [if_pos hfound]
      rcases List.mem_cons.mp hb' with hb' | hb'
      · subst hb'
        rw [findMatchingEntry_single, List.any_eq_true] at hfound
        rcases hfound with ⟨l, hl, hlt⟩
        exact ⟨l, hl, by simpa using hlt⟩
      · exact ih (fun x hx => htrim x (List.mem_cons_of_mem b hx)) b' hb'
    · rw [if_neg hfound]
      rcases List.mem_cons.mp hb' with hb' | hb'
      · subst hb'
        exact ⟨b', List.mem_cons_self b' _, htrim b' hb'⟩
      · rcases ih (fun x hx => htrim x (List.mem_cons_of_mem b hx)) b' hb' with ⟨l, hl, hlt⟩
        exact ⟨l, List.mem_cons_of_mem b hl, hlt⟩

theorem enforce_all_present (lines base : List Str)
    (h : ∀ b ∈ base, ∃ l ∈ lines, trim l = b) :
    enforceBaseEntries lines base = (lines, false) := by
  induction base with
  | nil => rfl
  | cons b bs ih =>
    have hbs : enforceBaseEntries lines bs = (lines, false) :=
      ih (fun b' hb' => h b' (List.mem_cons_of_mem b hb'))
    rw [enforce_cons, hbs]
    rcases h b (List.mem_cons_self b bs) with ⟨l, hl, hlt⟩
    have : (findMatchingEntry lines [b]).isSome = true := by
      rw [findMatchingEntry_single, List.any_eq_true]
      exact ⟨l, hl, by simp [hlt]⟩
    rw [if_pos this]

end EnforceLemmas

/-- C2 (amended): the base-entry enforcer walks the configured list in
reverse order and prepends a baseline's literal text exactly when no line's
exact trimmed text equals it.  Matching is by exact trimmed text, not by
canonical key: every configured entry occurs by trimmed text after
enforcement; when a baseline's exact text is already present no further
line trimming to it is added; and when all baselines are present the
enforcer is the identity and reports no addition. -/
theorem enforceBaseEntries_exact_text (lines base : List Str)
    (htrim : ∀ b ∈ base, trim b = b) :
    (∀ b ∈ base, ∃ l ∈ (enforceBaseEntries lines base).1, trim l = b) ∧
    (∀ b ∈ base, (∃ l ∈ lines, trim l = b) →
      (enforceBaseEntries lines base).1.countP (fun l => trim l == b) =
        lines.countP (fun l => trim l == b)) ∧
    ((∀ b ∈ base, ∃ l ∈ lines, trim l = b) →
      enforceBaseEntries lines base = (lines, false)) := by
  refine ⟨EnforceLemmas.enforce_present lines base htrim, ?_, EnforceLemmas.enforce_all_present lines base⟩
  intro b hb hpresent
  rcases EnforceLemmas.enforce_decomp lines base with ⟨pre, hout, hpre, -⟩
  rw [hout, List.countP_append]
  have hzero : pre.countP (fun l => trim l == b) = 0 := by
    rw [List.countP_eq_zero]
    intro x hx
    rcases hpre x hx with ⟨hxbase, hxabs⟩
    simp only [beq_iff_eq]
    intro hxb
    rw [htrim x hxbase] at hxb
    subst hxb
    exact hxabs hpresent
  rw [hzero, Nat.zero_add]

/-- Counterexample to C2 as stated: `/node_modules` has the same canonical
dedup key as the baseline `node_modules`, yet the enforcer still prepends
the baseline (it matches by exact trimmed text, not by key). -/
theorem enforceBaseEntries_key_matching_counterexample :
    stripAnchorsAndSlashes (trim (strL "/node_modules")) =
      stripAnchorsAndSlashes (strL "node_modules") ∧
    enforceBaseEntries [strL "/node_modules"] [strL "node_modules"] =
      ([strL "node_modules", strL "/node_modules"], true) := by
  constructor
  · decide
  · decide

/-- Witness for C2's amended theorem at a concrete input. -/
theorem enforceBaseEntries_exact_text_witness :
    (∃ l ∈ (enforceBaseEntries [strL ".DS_Store", strL "dist/"] [strL ".DS_Store"]).1,
      trim l = strL ".DS_Store") ∧
    enforceBaseEntries [strL ".DS_Store", strL "dist/"] [strL ".DS_Store"] =
      ([strL ".DS_Store", strL "dist/"], false) := by
  have h := enforceBaseEntries_exact_text [strL ".DS_Store", strL "dist/"] [strL ".DS_Store"]
    (by decide)
  refine ⟨h.1 (strL ".DS_Store") (by decide), h.2.2 ?_⟩
  intro b hb
  rw [List.mem_singleton] at hb
  subst hb
  exact ⟨strL ".DS_Store", by decide, by decide⟩

/-- The recognized cleaning options. -/
structure CleaningOptions where
  sort : Bool
  removeEmptyLines : Bool
  removeComments : Bool
  trailingSlashForFolders : Bool
deriving DecidableEq

/-- The cleaning report. -/
structure CleanGitignoreResult where
  lines : List Str
  duplicatesRemoved : Nat
  emptyLinesRemoved : Nat
  sortedApplied : Bool
  baseEntriesAdded : Bool
  commentsRemoved : Nat
deriving DecidableEq

/-- The locale collator of `localeCompare`, modelled as code-point
lexicographic comparison; it satisfies the consistency laws `Array.sort`
requires of its comparator, which is all the engine relies on. -/
def strLe : Str → Str → Bool
  | [], _ => true
  | _ :: _, [] => false
  | a :: as, b :: bs =>
      if a.toNat < b.toNat then true
      else if b.toNat < a.toNat then false
      else strLe as bs

/-- Stable insertion of a line into a sorted run (the unique stable sort
under a consistent comparator, hence a faithful model of `Array.sort`). -/
def insertSorted (a : Str) : List Str → List Str
  | [] => [a]
  | b :: bs => if strLe a b then a :: b :: bs else b :: insertSorted a bs

/-- `[...lines].sort((l, r) => l.localeCompare(r))`. -/
def sortLines (ls : List Str) : List Str := ls.foldr insertSorted []

/-- `cleanupLines`' first pass: collapse runs of blank lines, tracking
whether the previously kept line was blank. -/
def cleanupCollapse : Bool → List Str → List Str
  | _, [] => []
  | prevBlank, l :: ls =>
      if (trim l == []) && prevBlank then cleanupCollapse true ls
      else l :: cleanupCollapse (trim l == []) ls

/-- `cleanupLines`' second pass: drop trailing blank lines. -/
def trimTrailingBlanks (ls : List Str) : List Str :=
  (ls.reverse.dropWhile (fun l => trim l == [])).reverse

/-- `cleanupLines` with its default options (collapse runs of blanks, trim
trailing blanks) — the only configuration the callers use. -/
def cleanupLines (ls : List Str) : List Str :=
  trimTrailingBlanks (cleanupCollapse false ls)

/-- A literal entry line: not blank, not a comment, not a pattern. -/
def isLiteralLine (l : Str) : Bool :=
  !(l == []) && !isComment l && !isPatternLine l

/-- `EntryMeta.hasFolderSyntax` for a key: some kept literal variant of the
key ends with a slash. -/
def sawFolderSyntax (kept : List Str) (key : Str) : Bool :=
  kept.any (fun l => isLiteralLine l && (stripAnchorsAndSlashes l == key) && endsWithSlash l)

/-- `isFolderForKey`: a definite probe answer (`detectDirectoriesForKeys`,
which stats the unescaped key and reports `isRealDirectory`, or undefined on
failure) wins over folder syntax observed in the input. -/
def isFolderForKey (probe : Str → Option Bool) (kept : List Str) (key : Str) : Bool :=
  match probe key with
  | some b => b
  | none => sawFolderSyntax kept key

/-- First-seen variant store (`firstVariantByKey`). -/
def lookupVariant : List (Str × Variant) → Str → Option Variant
  | [], _ => none
  | (k, v) :: rest, key => if k = key then some v else lookupVariant rest key

/-- The deduplicating walk of `cleanGitignoreEntries`: blank and comment
lines pass through, pattern lines dedup by exact text, literal lines dedup
by canonical key with the first occurrence re-rendered canonically; a
dropped line whose variant differs from the first one only in trailing
slash is not counted when the trailing-slash policy is disabled. -/
def dedupGo (tsff : Bool) (isF : Str → Bool) :
    List Str → List Str → List Str → List (Str × Variant) → List Str × Nat
  | [], _, _, _ => ([], 0)
  | l :: rest, seenEntries, seenPatterns, firstVariants =>
    if l = [] then
      let r := dedupGo tsff isF rest seenEntries seenPatterns firstVariants
      ([] :: r.1, r.2)
    else if isComment l = true then
      let r := dedupGo tsff isF rest seenEntries seenPatterns firstVariants
      (l :: r.1, r.2)
    else if isPatternLine l = true then
      if l ∈ seenPatterns then
        let r := dedupGo tsff isF rest seenEntries seenPatterns firstVariants
        (r.1, r.2 + 1)
      else
        let r := dedupGo tsff isF rest seenEntries (l :: seenPatterns) firstVariants
        (l :: r.1, r.2)
    else
      let key := stripAnchorsAndSlashes l
      let v := variantOf l
      if key ∈ seenEntries then
        let onlyTrailingSlashDiff :=
          match lookupVariant firstVariants key with
          | some first => (first.trailingSlash != v.trailingSlash) && !tsff
          | none => false
        let r := dedupGo tsff isF rest seenEntries seenPatterns firstVariants
        if onlyTrailingSlashDiff then (r.1, r.2) else (r.1, r.2 + 1)
      else
        let c := buildCanonicalFromKey key (isF key) v tsff
        let r := dedupGo tsff isF rest (key :: seenEntries) seenPatterns ((key, v) :: firstVariants)
        (c :: r.1, r.2)

/-- The kept lines of a cleaning run: every line trimmed, blanks and
comments filtered out per the options. -/
def keptLinesOf (lines : List Str) (options : CleaningOptions) : List Str :=
  (lines.map trim).filter (fun l =>
    !(options.removeEmptyLines && (l == [])) && !(options.removeComments && isComment l))

/-- `cleanGitignoreEntries`: trim, filter blanks/comments per options,
dedup/canonicalize, enforce base entries, optionally sort, and (when blank
removal is on) run the defensive blank cleanup; the probe is always
consulted since cleaning always runs inside a workspace. -/
def cleanGitignoreEntries (lines : List Str) (options : CleaningOptions)
    (baseEntries : List Str) (probe : Str → Option Bool) : CleanGitignoreResult :=
  let trimmed := lines.map trim
  let originalEmptyCount := trimmed.countP (fun l => l == [])
  let originalCommentCount := trimmed.countP (fun l => isComment l)
  let keptLines := keptLinesOf lines options
  let dedup := dedupGo options.trailingSlashForFolders
    (isFolderForKey probe keptLines) keptLines [] [] []
  let base := enforceBaseEntries dedup.1 baseEntries
  let sorted := sortLines base.1
  let finalLines := if options.sort then sorted else base.1
  { lines := if options.removeEmptyLines then cleanupLines finalLines else finalLines
    duplicatesRemoved := dedup.2
    emptyLinesRemoved := if options.removeEmptyLines then originalEmptyCount else 0
    sortedApplied := options.sort && !(base.1 == sorted)
    baseEntriesAdded := base.2
    commentsRemoved := if options.removeComments then originalCommentCount else 0 }

section CleanExamples

/-- The end-to-end example of the spec with all removal options enabled. -/
example :
    (cleanGitignoreEntries
      [strL "# comment", [], strL "node_modules/", strL "dist/", strL "node_modules/",
        strL "build/", [], strL "build/"]
      ⟨true, true, true, true⟩ [strL ".DS_Store"] (fun _ => none)).lines =
      [strL ".DS_Store", strL "build/", strL "dist/", strL "node_modules/"] := by decide

/-- The default-options example: blanks and the comment survive in place. -/
example :
    (cleanGitignoreEntries
      [strL "# keep me", [], strL "dist/", [], strL "dist/", strL "logs/app.log",
        strL "logs/app.log"]
      ⟨false, false, false, true⟩ [strL ".DS_Store"] (fun _ => none)).lines =
      [strL ".DS_Store", strL "# keep me", [], strL "dist/", [], strL "logs/app.log"] := by
  decide

end CleanExamples

/-- C4: cleaning `/node_modules` together with `/node_modules/` where the key
probes as a real directory keeps exactly one line.  With the trailing-slash
policy disabled the survivor is `/node_modules` and the pair is not counted
in `duplicatesRemoved`; with the policy enabled the survivor is
`/node_modules/` and the pair counts as one removed duplicate.  This holds
for every combination of the sort/removal options. -/
theorem trailingSlashDuplicate_counting (srt re rc : Bool) :
    (cleanGitignoreEntries [strL "/node_modules", strL "/node_modules/"]
        ⟨srt, re, rc, false⟩ []
        (fun k => if k = strL "node_modules" then some true else none)).lines =
      [strL "/node_modules"] ∧
    (cleanGitignoreEntries [strL "/node_modules", strL "/node_modules/"]
        ⟨srt, re, rc, false⟩ []
        (fun k => if k = strL "node_modules" then some true else none)).duplicatesRemoved = 0 ∧
    (cleanGitignoreEntries [strL "/node_modules", strL "/node_modules/"]
        ⟨srt, re, rc, true⟩ []
        (fun k => if k = strL "node_modules" then some true else none)).lines =
      [strL "/node_modules/"] ∧
    (cleanGitignoreEntries [strL "/node_modules", strL "/node_modules/"]
        ⟨srt, re, rc, true⟩ []
        (fun k => if k = strL "node_modules" then some true else none)).duplicatesRemoved = 1 := by
  cases srt <;> cases re <;> cases rc <;> exact ⟨by decide, by decide, by decide, by decide⟩

namespace DedupLemmas
open StrLemmas CanonLemmas

/-- Classification bridge: a line is a literal entry iff it is non-blank,
not a comment and not a pattern. -/
theorem isLiteralLine_iff {l : Str} :
    isLiteralLine l = true ↔ l ≠ [] ∧ isComment l = false ∧ isPatternLine l = false := by
  simp [isLiteralLine, and_assoc]

theorem toKey_head?_ne (l : Str) : (stripAnchorsAndSlashes l).head? ≠ some '/' := by
  by_cases h : stripAnchorsAndSlashes l = []
  · rw [h]
    simp
  · rw [stripAnchorsAndSlashes] at h ⊢
    rw [stripTrailingSlashes_head?_of_ne_nil h]
    exact stripLeadingSlashes_head? _

theorem toKey_getLast?_ne (l : Str) : (stripAnchorsAndSlashes l).getLast? ≠ some '/' :=
  stripTrailingSlashes_getLast? _

theorem toKey_buildCanonical_nil (f : Bool) (v : Variant) (t : Bool) :
    stripAnchorsAndSlashes (buildCanonicalFromKey [] f v t) = [] := by
  obtain ⟨tr, anch⟩ := v
  cases f <;> cases tr <;> cases anch <;> cases t <;> decide

/-- The canonical line's own dedup key is the key it was built from. -/
theorem toKey_buildCanonical_all {key : Str}
    (hlead : key.head? ≠ some '/') (htrail : key.getLast? ≠ some '/')
    (f : Bool) (v : Variant) (t : Bool) :
    stripAnchorsAndSlashes (buildCanonicalFromKey key f v t) = key := by
  by_cases hne : key = []
  · subst hne
    exact toKey_buildCanonical_nil f v t
  · exact toKey_buildCanonical hlead htrail hne f v t

/-- The head of a key of an unanchored line is the line's head. -/
theorem toKey_head?_of_unanchored {l : Str} (h : l.head? ≠ some '/')
    (hne : stripAnchorsAndSlashes l ≠ []) :
    (stripAnchorsAndSlashes l).head? = l.head? := by
  rw [stripAnchorsAndSlashes, stripLeadingSlashes_eq_self h] at hne ⊢
  exact stripTrailingSlashes_head?_of_ne_nil hne

/-- The canonical line rendered for a literal line with a nonempty,
non-pattern key is itself classified as a literal entry. -/
theorem canonical_isLiteral {l : Str} (hl : isLiteralLine l = true)
    (hk : stripAnchorsAndSlashes l ≠ [])
    (hkp : isPatternLine (stripAnchorsAndSlashes l) = false) (f t : Bool) :
    isLiteralLine
      (buildCanonicalFromKey (stripAnchorsAndSlashes l) f (variantOf l) t) = true := by
  rcases isLiteralLine_iff.mp hl with ⟨hlne, hlc, hlp⟩
  have hlead := toKey_head?_ne l
  have htrail := toKey_getLast?_ne l
  rw [isLiteralLine_iff]
  refine ⟨buildCanonical_ne_nil hlead htrail hk f (variantOf l) t, ?_, ?_⟩
  · apply buildCanonical_not_comment hkp hlead htrail hk _ f t
    intro hanch
    have hlh : l.head? ≠ some '/' := by
      rw [variantOf] at hanch
      simp only [startsWithSlash] at hanch
      simpa using hanch
    rw [toKey_head?_of_unanchored hlh hk]
    rw [isComment, beq_eq_false_iff_ne, ne_eq] at hlc
    exact hlc
  · exact buildCanonical_not_pattern hkp hlead htrail hk f (variantOf l) t

end DedupLemmas

namespace DedupLemmas

variable {tsff : Bool} {isF : Str → Bool} {l : Str} {rest sE sP : List Str}
variable {fv : List (Str × Variant)}

theorem dedupGo_nil : dedupGo tsff isF [] sE sP fv = ([], 0) := rfl

theorem dedupGo_blank (h : l = []) :
    dedupGo tsff isF (l :: rest) sE sP fv =
      ([] :: (dedupGo tsff isF rest sE sP fv).1, (dedupGo tsff isF rest sE sP fv).2) := by
  simp [dedupGo, h]

theorem dedupGo_comment (h1 : l ≠ []) (h2 : isComment l = true) :
    dedupGo tsff isF (l :: rest) sE sP fv =
      (l :: (dedupGo tsff isF rest sE sP fv).1, (dedupGo tsff isF rest sE sP fv).2) := by
  simp [dedupGo, h1, h2]

theorem dedupGo_pattern_seen (h1 : l ≠ []) (h2 : isComment l = false)
    (h3 : isPatternLine l = true) (h4 : l ∈ sP) :
    dedupGo tsff isF (l :: rest) sE sP fv =
      ((dedupGo tsff isF rest sE sP fv).1, (dedupGo tsff isF rest sE sP fv).2 + 1) := by
  simp [dedupGo, h1, h2, h3, h4]

theorem dedupGo_pattern_new (h1 : l ≠ []) (h2 : isComment l = false)
    (h3 : isPatternLine l = true) (h4 : l ∉ sP) :
    dedupGo tsff isF (l :: rest) sE sP fv =
      (l :: (dedupGo tsff isF rest sE (l :: sP) fv).1,
       (dedupGo tsff isF rest sE (l :: sP) fv).2) := by
  simp [dedupGo, h1, h2, h3, h4]

theorem dedupGo_seen (h1 : l ≠ []) (h2 : isComment l = false)
    (h3 : isPatternLine l = false) (h4 : stripAnchorsAndSlashes l ∈ sE) :
    dedupGo tsff isF (l :: rest) sE sP fv =
      (if (match lookupVariant fv (stripAnchorsAndSlashes l) with
           | some first => (first.trailingSlash != (variantOf l).trailingSlash) && !tsff
           | none => false) = true
       then ((dedupGo tsff isF rest sE sP fv).1, (dedupGo tsff isF rest sE sP fv).2)
       else ((dedupGo tsff isF rest sE sP fv).1, (dedupGo tsff isF rest sE sP fv).2 + 1)) := by
  simp [dedupGo, h1, h2, h3, h4]

theorem dedupGo_fresh (h1 : l ≠ []) (h2 : isComment l = false)
    (h3 : isPatternLine l = false) (h4 : stripAnchorsAndSlashes l ∉ sE) :
    dedupGo tsff isF (l :: rest) sE sP fv =
      (buildCanonicalFromKey (stripAnchorsAndSlashes l) (isF (stripAnchorsAndSlashes l))
          (variantOf l) tsff ::
        (dedupGo tsff isF rest (stripAnchorsAndSlashes l :: sE) sP
          ((stripAnchorsAndSlashes l, variantOf l) :: fv)).1,
       (dedupGo tsff isF rest (stripAnchorsAndSlashes l :: sE) sP
          ((stripAnchorsAndSlashes l, variantOf l) :: fv)).2) := by
  simp [dedupGo, h1, h2, h3, h4]

end DedupLemmas

/-- A pattern line that survives filtering: non-blank, non-comment, pattern. -/
def isKeptPattern (l : Str) : Bool := !(l == []) && !isComment l && isPatternLine l

namespace DedupLemmas
open StrLemmas CanonLemmas

/-- What a line of the dedup output can be. -/
def OutSpec (tsff : Bool) (isF : Str → Bool) (ls : List Str) (x : Str) : Prop :=
  x = [] ∨
  (isComment x = true ∧ x ∈ ls) ∨
  (isPatternLine x = true ∧ isComment x = false ∧ x ≠ [] ∧ x ∈ ls) ∨
  (∃ l ∈ ls, isLiteralLine l = true ∧
    x = buildCanonicalFromKey (stripAnchorsAndSlashes l)
          (isF (stripAnchorsAndSlashes l)) (variantOf l) tsff)

theorem OutSpec_mono {tsff isF} {l x : Str} {rest : List Str}
    (h : OutSpec tsff isF rest x) : OutSpec tsff isF (l :: rest) x := by
  rcases h with h | ⟨h1, h2⟩ | ⟨h1, h2, h3, h4⟩ | ⟨y, hy, h1, h2⟩
  · exact Or.inl h
  · exact Or.inr (Or.inl ⟨h1, List.mem_cons_of_mem _ h2⟩)
  · exact Or.inr (Or.inr (Or.inl ⟨h1, h2, h3, List.mem_cons_of_mem _ h4⟩))
  · exact Or.inr (Or.inr (Or.inr ⟨y, List.mem_cons_of_mem _ hy, h1, h2⟩))

theorem literal_not_blank {l : Str} (h : isLiteralLine l = true) : l ≠ [] :=
  (isLiteralLine_iff.mp h).1

theorem comment_not_literal {l : Str} (h : isComment l = true) : isLiteralLine l = false := by
  simp [isLiteralLine, h]

theorem pattern_not_literal {l : Str} (h : isPatternLine l = true) : isLiteralLine l = false := by
  simp [isLiteralLine, h]

theorem blank_not_literal : isLiteralLine ([] : Str) = false := by decide

theorem dedup_out_mem (tsff : Bool) (isF : Str → Bool) :
    ∀ (ls sE sP : List Str) (fv : List (Str × Variant)),
      ∀ x ∈ (dedupGo tsff isF ls sE sP fv).1, OutSpec tsff isF ls x := by
  intro ls
  induction ls with
  | nil =>
    intro sE sP fv x hx
    rw [dedupGo_nil] at hx
    simp at hx
  | cons l rest ih =>
    intro sE sP fv x hx
    by_cases h1 : l = []
    · rw [dedupGo_blank h1] at hx
      rcases List.mem_cons.mp hx with hx | hx
      · exact Or.inl hx
      · exact OutSpec_mono (ih sE sP fv x hx)
    by_cases h2 : isComment l = true
    · rw [dedupGo_comment h1 h2] at hx
      rcases List.mem_cons.mp hx with hx | hx
      · exact Or.inr (Or.inl ⟨hx ▸ h2, hx ▸ List.mem_cons_self l rest⟩)
      · exact OutSpec_mono (ih sE sP fv x hx)
    have h2' : isComment l = false := by simpa using h2
    by_cases h3 : isPatternLine l = true
    · by_cases h4 : l ∈ sP
      · rw [dedupGo_pattern_seen h1 h2' h3 h4] at hx
        exact OutSpec_mono (ih sE sP fv x hx)
      · rw [dedupGo_pattern_new h1 h2' h3 h4] at hx
        rcases List.mem_cons.mp hx with hx | hx
        · exact Or.inr (Or.inr (Or.inl ⟨by rw [hx]; exact h3, by rw [hx]; exact h2',
            by rw [hx]; exact h1, by rw [hx]; exact List.mem_cons_self _ _⟩))
        · exact OutSpec_mono (ih sE (l :: sP) fv x hx)
    have h3' : isPatternLine l = false := by simpa using h3
    have hlit : isLiteralLine l = true := isLiteralLine_iff.mpr ⟨h1, h2', h3'⟩
    by_cases h4 : stripAnchorsAndSlashes l ∈ sE
    · rw [dedupGo_seen h1 h2' h3' h4] at hx
      rw [apply_ite Prod.fst, ite_self] at hx
      exact OutSpec_mono (ih sE sP fv x hx)
    · rw [dedupGo_fresh h1 h2' h3' h4] at hx
      rcases List.mem_cons.mp hx with hx | hx
      · exact Or.inr (Or.inr (Or.inr ⟨l, List.mem_cons_self l rest, hlit, hx⟩))
      · exact OutSpec_mono (ih _ sP _ x hx)

theorem dedup_out_keys (tsff : Bool) (isF : Str → Bool) :
    ∀ (ls sE sP : List Str) (fv : List (Str × Variant)),
      (∀ x ∈ (dedupGo tsff isF ls sE sP fv).1, isLiteralLine x = true →
        stripAnchorsAndSlashes x ∉ sE) ∧
      (((dedupGo tsff isF ls sE sP fv).1.filter isLiteralLine).map
        stripAnchorsAndSlashes).Nodup := by
  intro ls
  induction ls with
  | nil =>
    intro sE sP fv
    rw [dedupGo_nil]
    exact ⟨by simp, by simp⟩
  | cons l rest ih =>
    intro sE sP fv
    by_cases h1 : l = []
    · rw [dedupGo_blank h1]
      rcases ih sE sP fv with ⟨iha, ihb⟩
      refine ⟨?_, ?_⟩
      · intro x hx hlitx
        rcases List.mem_cons.mp hx with hx | hx
        · rw [hx] at hlitx
          rw [blank_not_literal] at hlitx
          exact absurd hlitx (by simp)
        · exact iha x hx hlitx
      · rw [List.filter_cons_of_neg (by rw [blank_not_literal]; simp)]
        exact ihb
    by_cases h2 : isComment l = true
    · rw [dedupGo_comment h1 h2]
      rcases ih sE sP fv with ⟨iha, ihb⟩
      refine ⟨?_, ?_⟩
      · intro x hx hlitx
        rcases List.mem_cons.mp hx with hx | hx
        · rw [hx, comment_not_literal h2] at hlitx
          exact absurd hlitx (by simp)
        · exact iha x hx hlitx
      · rw [List.filter_cons_of_neg (by rw [comment_not_literal h2]; simp)]
        exact ihb
    have h2' : isComment l = false := by simpa using h2
    by_cases h3 : isPatternLine l = true
    · by_cases h4 : l ∈ sP
      · rw [dedupGo_pattern_seen h1 h2' h3 h4]
        exact ih sE sP fv
      · rw [dedupGo_pattern_new h1 h2' h3 h4]
        rcases ih sE (l :: sP) fv with ⟨iha, ihb⟩
        refine ⟨?_, ?_⟩
        · intro x hx hlitx
          rcases List.mem_cons.mp hx with hx | hx
          · rw [hx, pattern_not_literal h3] at hlitx
            exact absurd hlitx (by simp)
          · exact iha x hx hlitx
        · rw [List.filter_cons_of_neg (by rw [pattern_not_literal h3]; simp)]
          exact ihb
    have h3' : isPatternLine l = false := by simpa using h3
    by_cases h4 : stripAnchorsAndSlashes l ∈ sE
    · rw [dedupGo_seen h1 h2' h3' h4]
      rw [apply_ite Prod.fst, ite_self]
      exact ih sE sP fv
    · rw [dedupGo_fresh h1 h2' h3' h4]
      rcases ih (stripAnchorsAndSlashes l :: sE) sP
        ((stripAnchorsAndSlashes l, variantOf l) :: fv) with ⟨iha, ihb⟩
      have hkeyc : stripAnchorsAndSlashes
          (buildCanonicalFromKey (stripAnchorsAndSlashes l)
            (isF (stripAnchorsAndSlashes l)) (variantOf l) tsff) =
          stripAnchorsAndSlashes l :=
        toKey_buildCanonical_all (toKey_head?_ne l) (toKey_getLast?_ne l) _ _ _
      refine ⟨?_, ?_⟩
      · intro x hx hlitx
        rcases List.mem_cons.mp hx with hx | hx
        · rw [hx, hkeyc]
          exact h4
        · intro hmem
          exact (iha x hx hlitx) (List.mem_cons_of_mem _ hmem)
      · by_cases hlc : isLiteralLine (buildCanonicalFromKey (stripAnchorsAndSlashes l)
            (isF (stripAnchorsAndSlashes l)) (variantOf l) tsff) = true
        · rw [List.filter_cons_of_pos hlc, List.map_cons]
          rw [List.nodup_cons]
          refine ⟨?_, ihb⟩
          rw [hkeyc]
          intro hmem
          rcases List.mem_map.mp hmem with ⟨y, hy, hykey⟩
          rcases List.mem_filter.mp hy with ⟨hymem, hylit⟩
          exact (iha y hymem hylit) (hykey ▸ List.mem_cons_self _ _)
        · rw [List.filter_cons_of_neg (by simpa using hlc)]
          exact ihb

end DedupLemmas

namespace DedupLemmas
open StrLemmas CanonLemmas

/-- Once a key is seen, no later output line is a literal with that key. -/
theorem dedup_count_zero (tsff : Bool) (isF : Str → Bool) (k : Str) :
    ∀ (ls sE sP : List Str) (fv : List (Str × Variant)), k ∈ sE →
      ((dedupGo tsff isF ls sE sP fv).1.countP
        (fun x => isLiteralLine x && (stripAnchorsAndSlashes x == k))) = 0 := by
  intro ls
  induction ls with
  | nil =>
    intro sE sP fv hk
    rw [dedupGo_nil]
    rfl
  | cons l rest ih =>
    intro sE sP fv hk
    by_cases h1 : l = []
    · rw [dedupGo_blank h1, List.countP_cons_of_neg _ _ (by rw [blank_not_literal]; simp)]
      exact ih sE sP fv hk
    by_cases h2 : isComment l = true
    · rw [dedupGo_comment h1 h2,
        List.countP_cons_of_neg _ _ (by rw [comment_not_literal h2]; simp)]
      exact ih sE sP fv hk
    have h2' : isComment l = false := by simpa using h2
    by_cases h3 : isPatternLine l = true
    · by_cases h4 : l ∈ sP
      · rw [dedupGo_pattern_seen h1 h2' h3 h4]
        exact ih sE sP fv hk
      · rw [dedupGo_pattern_new h1 h2' h3 h4,
          List.countP_cons_of_neg _ _ (by rw [pattern_not_literal h3]; simp)]
        exact ih sE (l :: sP) fv hk
    have h3' : isPatternLine l = false := by simpa using h3
    by_cases h4 : stripAnchorsAndSlashes l ∈ sE
    · rw [dedupGo_seen h1 h2' h3' h4, apply_ite Prod.fst, ite_self]
      exact ih sE sP fv hk
    · rw [dedupGo_fresh h1 h2' h3' h4]
      have hkeyc : stripAnchorsAndSlashes
          (buildCanonicalFromKey (stripAnchorsAndSlashes l)
            (isF (stripAnchorsAndSlashes l)) (variantOf l) tsff) =
          stripAnchorsAndSlashes l :=
        toKey_buildCanonical_all (toKey_head?_ne l) (toKey_getLast?_ne l) _ _ _
      have hne : stripAnchorsAndSlashes l ≠ k := fun he => h4 (he ▸ hk)
      rw [List.countP_cons_of_neg _ _ (by
        rw [Bool.and_eq_true, beq_iff_eq, hkeyc]
        rintro ⟨-, he⟩
        exact hne he)]
      exact ih _ sP _ (List.mem_cons_of_mem _ hk)

/-- The first literal occurrence of a fresh key is rendered canonically
into the output and is the only literal output line with that key. -/
theorem dedup_count_first (tsff : Bool) (isF : Str → Bool) (k : Str)
    (hk : k ≠ []) (hkp : isPatternLine k = false) :
    ∀ (ls sE sP : List Str) (fv : List (Str × Variant)), k ∉ sE →
      ∀ l₀, ls.find? (fun l => isLiteralLine l && (stripAnchorsAndSlashes l == k)) = some l₀ →
        ((dedupGo tsff isF ls sE sP fv).1.countP
          (fun x => isLiteralLine x && (stripAnchorsAndSlashes x == k))) = 1 ∧
        buildCanonicalFromKey k (isF k) (variantOf l₀) tsff ∈
          (dedupGo tsff isF ls sE sP fv).1 := by
  intro ls
  induction ls with
  | nil =>
    intro sE sP fv hkE l₀ hfind
    simp at hfind
  | cons l rest ih =>
    intro sE sP fv hkE l₀ hfind
    by_cases hmatch : (isLiteralLine l && (stripAnchorsAndSlashes l == k)) = true
    · rw [List.find?_cons_of_pos rest hmatch, Option.some.injEq] at hfind
      rcases Bool.and_eq_true _ _ |>.mp hmatch with ⟨hlit, hkey⟩
      rw [beq_iff_eq] at hkey
      rcases isLiteralLine_iff.mp hlit with ⟨h1, h2', h3'⟩
      have h4 : stripAnchorsAndSlashes l ∉ sE := hkey ▸ hkE
      rw [dedupGo_fresh h1 h2' h3' h4]
      have hcanL : isLiteralLine (buildCanonicalFromKey (stripAnchorsAndSlashes l)
          (isF (stripAnchorsAndSlashes l)) (variantOf l) tsff) = true :=
        canonical_isLiteral hlit (hkey ▸ hk) (hkey ▸ hkp) _ _
      have hkeyc : stripAnchorsAndSlashes
          (buildCanonicalFromKey (stripAnchorsAndSlashes l)
            (isF (stripAnchorsAndSlashes l)) (variantOf l) tsff) =
          stripAnchorsAndSlashes l :=
        toKey_buildCanonical_all (toKey_head?_ne l) (toKey_getLast?_ne l) _ _ _
      constructor
      · rw [List.countP_cons_of_pos _ _ (by
          rw [Bool.and_eq_true, beq_iff_eq, hkeyc]
          exact ⟨hcanL, hkey⟩)]
        rw [dedup_count_zero tsff isF k rest _ sP _ (hkey ▸ List.mem_cons_self _ _)]
      · rw [← hfind, hkey]
        exact List.mem_cons_self _ _
    · rw [List.find?_cons_of_neg rest (by simpa using hmatch)] at hfind
      have hnotk : ∀ {c : Str}, stripAnchorsAndSlashes c = stripAnchorsAndSlashes l →
          isLiteralLine c = true → (isLiteralLine l) = true →
          stripAnchorsAndSlashes l ≠ k := by
        intro c hceq hclit hllit he
        exact absurd (by rw [Bool.and_eq_true, beq_iff_eq]; exact ⟨hllit, he⟩) hmatch
      by_cases h1 : l = []
      · rw [dedupGo_blank h1]
        rcases ih sE sP fv hkE l₀ hfind with ⟨ihc, ihm⟩
        exact ⟨by rw [List.countP_cons_of_neg _ _ (by rw [blank_not_literal]; simp)]; exact ihc,
          List.mem_cons_of_mem _ ihm⟩
      by_cases h2 : isComment l = true
      · rw [dedupGo_comment h1 h2]
        rcases ih sE sP fv hkE l₀ hfind with ⟨ihc, ihm⟩
        exact ⟨by rw [List.countP_cons_of_neg _ _ (by rw [comment_not_literal h2]; simp)]; exact ihc,
          List.mem_cons_of_mem _ ihm⟩
      have h2' : isComment l = false := by simpa using h2
      by_cases h3 : isPatternLine l = true
      · by_cases h4 : l ∈ sP
        · rw [dedupGo_pattern_seen h1 h2' h3 h4]
          exact ih sE sP fv hkE l₀ hfind
        · rw [dedupGo_pattern_new h1 h2' h3 h4]
          rcases ih sE (l :: sP) fv hkE l₀ hfind with ⟨ihc, ihm⟩
          exact ⟨by rw [List.countP_cons_of_neg _ _ (by rw [pattern_not_literal h3]; simp)]; exact ihc,
            List.mem_cons_of_mem _ ihm⟩
      have h3' : isPatternLine l = false := by simpa using h3
      have hlit : isLiteralLine l = true := isLiteralLine_iff.mpr ⟨h1, h2', h3'⟩
      have hlk : stripAnchorsAndSlashes l ≠ k := by
        intro he
        exact absurd (by rw [Bool.and_eq_true, beq_iff_eq]; exact ⟨hlit, he⟩) hmatch
      by_cases h4 : stripAnchorsAndSlashes l ∈ sE
      · rw [dedupGo_seen h1 h2' h3' h4, apply_ite Prod.fst, ite_self]
        exact ih sE sP fv hkE l₀ hfind
      · rw [dedupGo_fresh h1 h2' h3' h4]
        have hkeyc : stripAnchorsAndSlashes
            (buildCanonicalFromKey (stripAnchorsAndSlashes l)
              (isF (stripAnchorsAndSlashes l)) (variantOf l) tsff) =
            stripAnchorsAndSlashes l :=
          toKey_buildCanonical_all (toKey_head?_ne l) (toKey_getLast?_ne l) _ _ _
        have hkE' : k ∉ stripAnchorsAndSlashes l :: sE := by
          intro hmem
          rcases List.mem_cons.mp hmem with hmem | hmem
          · exact hlk hmem.symm
          · exact hkE hmem
        rcases ih _ sP _ hkE' l₀ hfind with ⟨ihc, ihm⟩
        refine ⟨?_, List.mem_cons_of_mem _ ihm⟩
        rw [List.countP_cons_of_neg _ _ (by
          rw [Bool.and_eq_true, beq_iff_eq, hkeyc]
          rintro ⟨-, he⟩
          exact hlk he)]
        exact ihc

end DedupLemmas

namespace SortLemmas

theorem strLe_total : ∀ a b : Str, strLe a b = true ∨ strLe b a = true := by
  intro a
  induction a with
  | nil => intro b; left; rfl
  | cons x xs ih =>
    intro b
    cases b with
    | nil => right; rfl
    | cons y ys =>
      by_cases hxy : x.toNat < y.toNat
      · left
        simp [strLe, hxy]
      · by_cases hyx : y.toNat < x.toNat
        · right
          simp [strLe, hyx]
        · rcases ih ys with h | h
          · left
            simp [strLe, hxy, hyx, h]
          · right
            simp [strLe, hyx, hxy, h]

theorem strLe_trans : ∀ a b c : Str, strLe a b = true → strLe b c = true →
    strLe a c = true := by
  intro a
  induction a with
  | nil => intro b c _ _; rfl
  | cons x xs ih =>
    intro b c hab hbc
    cases b with
    | nil => simp [strLe] at hab
    | cons y ys =>
      cases c with
      | nil => simp [strLe] at hbc
      | cons z zs =>
        simp only [strLe] at hab hbc ⊢
        by_cases hxy : x.toNat < y.toNat
        · by_cases hyz : y.toNat < z.toNat
          · have hxz : x.toNat < z.toNat := Nat.lt_trans hxy hyz
            simp [hxz]
          · by_cases hzy : z.toNat < y.toNat
            · rw [if_neg hyz, if_pos hzy] at hbc
              simp at hbc
            · have hyz' : y.toNat = z.toNat := Nat.le_antisymm (Nat.le_of_not_lt hzy) (Nat.le_of_not_lt hyz)
              have hxz : x.toNat < z.toNat := hyz' ▸ hxy
              simp [hxz]
        · by_cases hyx : y.toNat < x.toNat
          · rw [if_neg hxy, if_pos hyx] at hab
            simp at hab
          · have hxy' : x.toNat = y.toNat := Nat.le_antisymm (Nat.le_of_not_lt hyx) (Nat.le_of_not_lt hxy)
            rw [if_neg hxy, if_neg hyx] at hab
            by_cases hyz : y.toNat < z.toNat
            · have hxz : x.toNat < z.toNat := hxy' ▸ hyz
              simp [hxz]
            · by_cases hzy : z.toNat < y.toNat
              · rw [if_neg hyz, if_pos hzy] at hbc
                simp at hbc
              · rw [if_neg hyz, if_neg hzy] at hbc
                have hxz : ¬ x.toNat < z.toNat := by
                  rw [hxy']
                  exact hyz
                have hzx : ¬ z.toNat < x.toNat := by
                  rw [hxy']
                  exact hzy
                rw [if_neg hxz, if_neg hzx]
                exact ih ys zs hab hbc

/-- Sortedness under the modelled collator. -/
def sortedB (ls : List Str) : Prop := List.Pairwise (fun a b => strLe a b = true) ls

theorem insertSorted_perm (a : Str) : ∀ ls : List Str,
    List.Perm (insertSorted a ls) (a :: ls) := by
  intro ls
  induction ls with
  | nil => rfl
  | cons b bs ih =>
    by_cases h : strLe a b = true
    · simp [insertSorted, h]
    · simp only [insertSorted, h, if_false]
      exact (List.Perm.cons b ih).trans (List.Perm.swap a b bs)

theorem sortLines_perm (ls : List Str) : List.Perm (sortLines ls) ls := by
  induction ls with
  | nil => rfl
  | cons a rest ih =>
    exact (insertSorted_perm a (sortLines rest)).trans (List.Perm.cons a ih)

theorem mem_insertSorted {a x : Str} {ls : List Str} (h : x ∈ insertSorted a ls) :
    x = a ∨ x ∈ ls :=
  List.mem_cons.mp ((insertSorted_perm a ls).mem_iff.mp h)

theorem insertSorted_sorted (a : Str) : ∀ {ls : List Str}, sortedB ls →
    sortedB (insertSorted a ls) := by
  intro ls
  induction ls with
  | nil => intro _; simp [insertSorted, sortedB]
  | cons b bs ih =>
    intro hs
    rcases List.pairwise_cons.mp hs with ⟨hb, hbs⟩
    by_cases h : strLe a b = true
    · rw [show insertSorted a (b :: bs) = a :: b :: bs by simp [insertSorted, h]]
      rw [sortedB, List.pairwise_cons]
      refine ⟨?_, hs⟩
      intro x hx
      rcases List.mem_cons.mp hx with hx | hx
      · exact hx ▸ h
      · exact strLe_trans a b x h (hb x hx)
    · rw [show insertSorted a (b :: bs) = b :: insertSorted a bs by simp [insertSorted, h]]
      have hba : strLe b a = true := by
        rcases strLe_total a b with h' | h'
        · exact absurd h' h
        · exact h'
      rw [sortedB, List.pairwise_cons]
      refine ⟨?_, ih hbs⟩
      intro x hx
      rcases mem_insertSorted hx with hx | hx
      · exact hx ▸ hba
      · exact hb x hx

theorem sortLines_sorted (ls : List Str) : sortedB (sortLines ls) := by
  induction ls with
  | nil => simp [sortLines, sortedB]
  | cons a rest ih => exact insertSorted_sorted a ih

theorem sortLines_eq_self : ∀ {ls : List Str}, sortedB ls → sortLines ls = ls := by
  intro ls
  induction ls with
  | nil => intro _; rfl
  | cons a rest ih =>
    intro hs
    rcases List.pairwise_cons.mp hs with ⟨ha, hrest⟩
    have : sortLines (a :: rest) = insertSorted a (sortLines rest) := rfl
    rw [this, ih hrest]
    cases rest with
    | nil => rfl
    | cons b bs =>
      have hab : strLe a b = true := ha b (List.mem_cons_self b bs)
      simp [insertSorted, hab]

theorem sortLines_countP (p : Str → Bool) (ls : List Str) :
    (sortLines ls).countP p = ls.countP p :=
  (sortLines_perm ls).countP_eq p

theorem mem_sortLines {x : Str} {ls : List Str} : x ∈ sortLines ls ↔ x ∈ ls :=
  (sortLines_perm ls).mem_iff

end SortLemmas

namespace CleanupLemmas
open StrLemmas

theorem cleanupCollapse_cons (b : Bool) (l : Str) (rest : List Str) :
    cleanupCollapse b (l :: rest) =
      if ((trim l == []) && b) = true then cleanupCollapse true rest
      else l :: cleanupCollapse (trim l == []) rest := rfl

theorem cleanupCollapse_sublist : ∀ (b : Bool) (ls : List Str),
    List.Sublist (cleanupCollapse b ls) ls := by
  intro b ls
  induction ls generalizing b with
  | nil => simp [cleanupCollapse]
  | cons l rest ih =>
    rw [cleanupCollapse_cons]
    by_cases h : ((trim l == []) && b) = true
    · rw [if_pos h]
      exact (ih true).cons l
    · rw [if_neg h]
      exact (ih _).cons₂ l

theorem trimTrailingBlanks_decomp (ls : List Str) :
    ∃ r, trimTrailingBlanks ls ++ r = ls := by
  rcases dropWhile_decomp (fun l : Str => trim l == []) ls.reverse with ⟨pre, hpre⟩
  refine ⟨pre.reverse, ?_⟩
  have := congrArg List.reverse hpre
  simpa [trimTrailingBlanks] using this

theorem trimTrailingBlanks_sublist (ls : List Str) :
    List.Sublist (trimTrailingBlanks ls) ls := by
  rcases trimTrailingBlanks_decomp ls with ⟨r, hr⟩
  have := List.sublist_append_left (trimTrailingBlanks ls) r
  rw [hr] at this
  exact this

theorem cleanupLines_sublist (ls : List Str) : List.Sublist (cleanupLines ls) ls :=
  (trimTrailingBlanks_sublist _).trans (cleanupCollapse_sublist false ls)

theorem mem_cleanupLines {x : Str} {ls : List Str} (h : x ∈ cleanupLines ls) : x ∈ ls :=
  (cleanupLines_sublist ls).subset h

theorem cleanupCollapse_countP {p : Str → Bool}
    (hp : ∀ x, p x = true → (trim x == []) = false) :
    ∀ (b : Bool) (ls : List Str), (cleanupCollapse b ls).countP p = ls.countP p := by
  intro b ls
  induction ls generalizing b with
  | nil => rfl
  | cons l rest ih =>
    rw [cleanupCollapse_cons]
    by_cases h : ((trim l == []) && b) = true
    · rw [if_pos h]
      have hbl : (trim l == []) = true := (Bool.and_eq_true _ _ |>.mp h).1
      have hpl : p l = false := by
        cases hpl : p l with
        | false => rfl
        | true => rw [hp l hpl] at hbl; exact absurd hbl (by simp)
      rw [List.countP_cons_of_neg _ _ (by simp [hpl]), ih true]
    · rw [if_neg h]
      rw [List.countP_cons, List.countP_cons, ih]

theorem trimTrailingBlanks_countP {p : Str → Bool}
    (hp : ∀ x, p x = true → (trim x == []) = false) (ls : List Str) :
    (trimTrailingBlanks ls).countP p = ls.countP p := by
  have hsplit := List.takeWhile_append_dropWhile (p := fun l : Str => trim l == [])
    (l := ls.reverse)
  have hzero : (ls.reverse.takeWhile (fun l : Str => trim l == [])).countP p = 0 := by
    rw [List.countP_eq_zero]
    intro x hx
    have hbx := List.mem_takeWhile_imp hx
    intro hpx
    rw [hp x hpx] at hbx
    exact absurd hbx (by simp)
  calc (trimTrailingBlanks ls).countP p
      = (ls.reverse.dropWhile (fun l : Str => trim l == [])).countP p := by
        rw [trimTrailingBlanks, List.countP_reverse]
    _ = (ls.reverse.takeWhile (fun l : Str => trim l == [])).countP p +
          (ls.reverse.dropWhile (fun l : Str => trim l == [])).countP p := by
        rw [hzero, Nat.zero_add]
    _ = ls.reverse.countP p := by rw [← List.countP_append, hsplit]
    _ = ls.countP p := List.countP_reverse p ls

theorem cleanupLines_countP {p : Str → Bool}
    (hp : ∀ x, p x = true → (trim x == []) = false) (ls : List Str) :
    (cleanupLines ls).countP p = ls.countP p := by
  rw [cleanupLines, trimTrailingBlanks_countP hp, cleanupCollapse_countP hp]

theorem cleanupCollapse_id {ls : List Str}
    (h : ∀ x ∈ ls, (trim x == []) = false) : ∀ b, cleanupCollapse b ls = ls := by
  induction ls with
  | nil => intro b; rfl
  | cons l rest ih =>
    intro b
    have hl : (trim l == []) = false := h l (List.mem_cons_self l rest)
    rw [cleanupCollapse_cons, if_neg (by simp [hl]), hl]
    rw [ih (fun x hx => h x (List.mem_cons_of_mem l hx))]

theorem trimTrailingBlanks_id {ls : List Str}
    (h : ∀ x ∈ ls, (trim x == []) = false) : trimTrailingBlanks ls = ls := by
  rw [trimTrailingBlanks, dropWhile_eq_self, List.reverse_reverse]
  intro c hc
  rw [List.head?_reverse] at hc
  exact h c (getLast?_mem hc)

theorem cleanupLines_id {ls : List Str}
    (h : ∀ x ∈ ls, (trim x == []) = false) : cleanupLines ls = ls := by
  rw [cleanupLines, cleanupCollapse_id h false, trimTrailingBlanks_id h]

end CleanupLemmas

namespace StrLemmas

theorem mem_stripLeadingSlashes {x : Str} {c : Char}
    (h : c ∈ stripLeadingSlashes x) : c ∈ x := by
  rcases dropWhile_decomp (· == '/') x with ⟨pre, hpre⟩
  rw [← hpre]
  exact List.mem_append_right pre h

theorem mem_stripTrailingSlashes {x : Str} {c : Char}
    (h : c ∈ stripTrailingSlashes x) : c ∈ x := by
  rcases stripTrailingSlashes_decomp x with ⟨r, hr⟩
  rw [← hr]
  exact List.mem_append_left r h

theorem mem_stripAnchorsAndSlashes {x : Str} {c : Char}
    (h : c ∈ stripAnchorsAndSlashes x) : c ∈ x :=
  mem_stripLeadingSlashes (mem_stripTrailingSlashes h)

theorem all_ws_of_trim_nil {x : Str} (h : trim x = []) : ∀ c ∈ x, isWS c = true := by
  have h1 : (x.dropWhile isWS).reverse.dropWhile isWS = [] := by
    have := congrArg List.reverse h
    simpa [trim] using this
  have h2 := List.dropWhile_eq_nil_iff.mp h1
  intro c hc
  rw [← List.takeWhile_append_dropWhile (p := isWS) (l := x)] at hc
  rcases List.mem_append.mp hc with hc | hc
  · exact List.mem_takeWhile_imp hc
  · exact h2 c (List.mem_reverse.mpr hc)

theorem trim_nil_of_all_ws {x : Str} (h : ∀ c ∈ x, isWS c = true) : trim x = [] := by
  have h1 : x.dropWhile isWS = [] := List.dropWhile_eq_nil_iff.mpr h
  simp [trim, h1]

end StrLemmas

namespace ListHelpers

theorem two_le_countP {α : Type} {p : α → Bool} :
    ∀ {l : List α} {x y : α}, x ∈ l → y ∈ l → x ≠ y →
      p x = true → p y = true → 2 ≤ l.countP p := by
  intro l
  induction l with
  | nil => intro x y hx; simp at hx
  | cons a rest ih =>
    intro x y hx hy hxy hpx hpy
    by_cases hxa : x = a
    · have hyrest : y ∈ rest := by
        rcases List.mem_cons.mp hy with h | h
        · exact absurd (hxa.trans h.symm) hxy
        · exact h
      rw [List.countP_cons_of_pos _ _ (hxa ▸ hpx)]
      have : 0 < rest.countP p := List.countP_pos.mpr ⟨y, hyrest, hpy⟩
      omega
    · by_cases hya : y = a
      · have hxrest : x ∈ rest := by
          rcases List.mem_cons.mp hx with h | h
          · exact absurd (h.trans hya.symm) hxy
          · exact h
        rw [List.countP_cons_of_pos _ _ (hya ▸ hpy)]
        have : 0 < rest.countP p := List.countP_pos.mpr ⟨x, hxrest, hpx⟩
        omega
      · have hxrest : x ∈ rest := by
          rcases List.mem_cons.mp hx with h | h
          · exact absurd h hxa
          · exact h
        have hyrest : y ∈ rest := by
          rcases List.mem_cons.mp hy with h | h
          · exact absurd h hya
          · exact h
        calc 2 ≤ rest.countP p := ih hxrest hyrest hxy hpx hpy
          _ ≤ (a :: rest).countP p := by rw [List.countP_cons]; omega

end ListHelpers

/-- The deduplicated/canonicalized stage of a cleaning run. -/
def dedupedOf (lines : List Str) (o : CleaningOptions) (probe : Str → Option Bool) : List Str :=
  (dedupGo o.trailingSlashForFolders (isFolderForKey probe (keptLinesOf lines o))
    (keptLinesOf lines o) [] [] []).1

/-- Stage-wise view of the cleaned line sequence. -/
theorem clean_lines_eq (lines : List Str) (o : CleaningOptions)
    (base : List Str) (probe : Str → Option Bool) :
    (cleanGitignoreEntries lines o base probe).lines =
      (let e := (enforceBaseEntries (dedupedOf lines o probe) base).1
       let f := if o.sort then sortLines e else e
       if o.removeEmptyLines then cleanupLines f else f) := rfl

/-- C5 (amended): for a key `k` that is nonempty, not pattern-like and not
whitespace-only, if `l₀` is the first kept literal line with key `k` and no
configured baseline entry has key `k`, then the cleaned output contains
exactly one literal line with key `k`, and that line is the canonical
rendering built from the first occurrence's variant (which keeps the first
occurrence's anchoring except under the root-dotfile rule). -/
theorem key_dedup_unique_canonical (lines : List Str) (o : CleaningOptions)
    (base : List Str) (probe : Str → Option Bool) (k l₀ : Str)
    (hk : k ≠ []) (hkp : isPatternLine k = false) (hknb : trim k ≠ [])
    (hfind : (keptLinesOf lines o).find?
      (fun l => isLiteralLine l && (stripAnchorsAndSlashes l == k)) = some l₀)
    (hbase : ∀ b ∈ base, stripAnchorsAndSlashes b ≠ k) :
    ((cleanGitignoreEntries lines o base probe).lines.countP
      (fun x => isLiteralLine x && (stripAnchorsAndSlashes x == k))) = 1 ∧
    buildCanonicalFromKey k (isFolderForKey probe (keptLinesOf lines o) k)
        (variantOf l₀) o.trailingSlashForFolders ∈
      (cleanGitignoreEntries lines o base probe).lines := by
  classical
  set kept := keptLinesOf lines o with hkept
  set isF := isFolderForKey probe kept with hisF
  set p : Str → Bool := fun x => isLiteralLine x && (stripAnchorsAndSlashes x == k) with hp
  set cstar := buildCanonicalFromKey k (isF k) (variantOf l₀) o.trailingSlashForFolders
    with hcstar
  obtain ⟨hd1, hd2⟩ := DedupLemmas.dedup_count_first o.trailingSlashForFolders isF k hk hkp
    kept [] [] [] (by simp) l₀ hfind
  set d := (dedupGo o.trailingSlashForFolders isF kept [] [] []).1 with hd
  have hddef : d = dedupedOf lines o probe := rfl
  -- the enforcement stage
  rcases EnforceLemmas.enforce_decomp d base with ⟨pre, hout, hpre, -⟩
  have hpre0 : pre.countP p = 0 := by
    rw [List.countP_eq_zero]
    intro x hx hpx
    rcases (Bool.and_eq_true _ _).mp hpx with ⟨-, hkey⟩
    rw [beq_iff_eq] at hkey
    exact hbase x (hpre x hx).1 hkey
  set e := (enforceBaseEntries d base).1 with he
  have hce : e.countP p = 1 := by
    rw [hout, List.countP_append, hpre0, Nat.zero_add]
    exact hd1
  have hme : cstar ∈ e := by
    rw [hout]
    exact List.mem_append_right pre hd2
  -- the sorting stage
  set f := if o.sort then sortLines e else e with hf
  have hcf : f.countP p = 1 := by
    rw [hf]
    cases o.sort with
    | false => exact hce
    | true => rw [if_pos rfl, SortLemmas.sortLines_countP]; exact hce
  have hmf : cstar ∈ f := by
    rw [hf]
    cases o.sort with
    | false => exact hme
    | true => rw [if_pos rfl]; exact SortLemmas.mem_sortLines.mpr hme
  -- the blank-cleanup stage
  have hp_notblank : ∀ x, p x = true → (trim x == []) = false := by
    intro x hpx
    rcases (Bool.and_eq_true _ _).mp hpx with ⟨-, hkey⟩
    rw [beq_iff_eq] at hkey
    rw [beq_eq_false_iff_ne, ne_eq]
    intro htx
    apply hknb
    apply StrLemmas.trim_nil_of_all_ws
    intro c hc
    exact StrLemmas.all_ws_of_trim_nil htx c
      (StrLemmas.mem_stripAnchorsAndSlashes (hkey ▸ hc))
  set pl := if o.removeEmptyLines then cleanupLines f else f with hpl
  have hcp : pl.countP p = 1 := by
    rw [hpl]
    cases o.removeEmptyLines with
    | false => exact hcf
    | true => rw [if_pos rfl, CleanupLemmas.cleanupLines_countP hp_notblank]; exact hcf
  have hlines : (cleanGitignoreEntries lines o base probe).lines = pl := by
    rw [clean_lines_eq]
    rfl
  have hpfind := List.find?_some hfind
  have hpcstar : p cstar = true := by
    rcases (Bool.and_eq_true _ _).mp hpfind with ⟨hlit₀, hkey₀⟩
    rw [beq_iff_eq] at hkey₀
    rw [hp, Bool.and_eq_true, beq_iff_eq]
    constructor
    · rw [hcstar, ← hkey₀]
      exact DedupLemmas.canonical_isLiteral hlit₀ (hkey₀ ▸ hk) (hkey₀ ▸ hkp) _ _
    · rw [hcstar, ← hkey₀]
      exact DedupLemmas.toKey_buildCanonical_all (DedupLemmas.toKey_head?_ne l₀)
        (DedupLemmas.toKey_getLast?_ne l₀) _ _ _
  have hexists : ∃ y ∈ pl, p y = true := by
    rw [← List.countP_pos, hcp]
    norm_num
  rcases hexists with ⟨y, hy, hpy⟩
  have hyf : y ∈ f := by
    rw [hpl] at hy
    cases hre : o.removeEmptyLines with
    | false => rw [hre] at hy; simpa using hy
    | true =>
      rw [hre] at hy
      exact CleanupLemmas.mem_cleanupLines (by simpa using hy)
  have hycstar : y = cstar := by
    by_contra hne
    have := ListHelpers.two_le_countP hyf hmf hne hpy hpcstar
    omega
  rw [hlines]
  exact ⟨hcp, hycstar ▸ hy⟩

/-- Counterexample to C5 as stated: with input `[/.env, .env]` the first
occurrence of the key `.env` is anchored, yet the retained line is the
unanchored `.env` — the root-dotfile rule overrides the first occurrence's
anchoring variant. -/
theorem key_dedup_first_anchoring_counterexample :
    stripAnchorsAndSlashes (strL "/.env") = stripAnchorsAndSlashes (strL ".env") ∧
    startsWithSlash (strL "/.env") = true ∧
    (cleanGitignoreEntries [strL "/.env", strL ".env"] ⟨false, false, false, false⟩ []
      (fun _ => some false)).lines = [strL ".env"] ∧
    startsWithSlash (strL ".env") = false := by
  refine ⟨by decide, by decide, by decide, by decide⟩

/-- Witness for C5's amended theorem at a concrete input. -/
theorem key_dedup_unique_canonical_witness :
    ((cleanGitignoreEntries [strL "node_modules", strL "/node_modules/"]
        ⟨false, false, false, true⟩ [strL ".DS_Store"]
        (fun key => if key = strL "node_modules" then some true else none)).lines.countP
      (fun x => isLiteralLine x && (stripAnchorsAndSlashes x == strL "node_modules"))) = 1 ∧
    buildCanonicalFromKey (strL "node_modules")
        (isFolderForKey (fun key => if key = strL "node_modules" then some true else none)
          (keptLinesOf [strL "node_modules", strL "/node_modules/"] ⟨false, false, false, true⟩)
          (strL "node_modules"))
        (variantOf (strL "node_modules")) true ∈
      (cleanGitignoreEntries [strL "node_modules", strL "/node_modules/"]
        ⟨false, false, false, true⟩ [strL ".DS_Store"]
        (fun key => if key = strL "node_modules" then some true else none)).lines :=
  key_dedup_unique_canonical [strL "node_modules", strL "/node_modules/"]
    ⟨false, false, false, true⟩ [strL ".DS_Store"]
    (fun key => if key = strL "node_modules" then some true else none)
    (strL "node_modules") (strL "node_modules")
    (by decide) (by decide) (by decide) (by decide) (by decide)

namespace CanonLemmas

theorem buildCanonical_nil_false (v : Variant) (t : Bool) :
    buildCanonicalFromKey [] false v t = [] := by
  obtain ⟨tr, anch⟩ := v
  cases tr <;> cases anch <;> cases t <;> decide

end CanonLemmas

/-- C6 (amended): when the probe definitely reports a key as a file or
symbolic link (not a real directory), no literal-classified line of the
cleaned output with that key ends with `/`, whatever folder syntax the
input used — provided no configured baseline entry with that key itself
carries a trailing slash (baselines are prepended verbatim). -/
theorem probed_file_never_trailing_slash (lines : List Str) (o : CleaningOptions)
    (base : List Str) (probe : Str → Option Bool) (k : Str)
    (hprobe : probe k = some false)
    (hbase : ∀ b ∈ base, stripAnchorsAndSlashes b = k → endsWithSlash b = false) :
    ∀ x ∈ (cleanGitignoreEntries lines o base probe).lines,
      isLiteralLine x = true → stripAnchorsAndSlashes x = k →
      endsWithSlash x = false := by
  intro x hx hlitx hkeyx
  set kept := keptLinesOf lines o with hkept
  set isF := isFolderForKey probe kept with hisF
  have hisFk : isF k = false := by
    rw [hisF, isFolderForKey, hprobe]
  set d := (dedupGo o.trailingSlashForFolders isF kept [] [] []).1 with hd
  set e := (enforceBaseEntries d base).1 with he
  have hxe : x ∈ e := by
    rw [clean_lines_eq] at hx
    simp only at hx
    have hxf : x ∈ (if o.sort then sortLines e else e) := by
      cases hre : o.removeEmptyLines with
      | false =>
        rw [hre] at hx
        simpa using hx
      | true =>
        rw [hre] at hx
        exact CleanupLemmas.mem_cleanupLines (by simpa using hx)
    cases hsrt : o.sort with
    | false => rw [hsrt] at hxf; simpa using hxf
    | true =>
      rw [hsrt] at hxf
      exact SortLemmas.mem_sortLines.mp (by simpa using hxf)
  rcases EnforceLemmas.enforce_decomp d base with ⟨pre, hout, hpre, -⟩
  rw [he, hout] at hxe
  rcases List.mem_append.mp hxe with hxe | hxe
  · exact hbase x (hpre x hxe).1 hkeyx
  · rcases DedupLemmas.dedup_out_mem o.trailingSlashForFolders isF kept [] [] [] x hxe with
      hsp | ⟨hsp, -⟩ | ⟨hsp, -, -, -⟩ | ⟨l, hl, hlit, hsp⟩
    · rw [hsp] at hlitx
      rw [DedupLemmas.blank_not_literal] at hlitx
      exact absurd hlitx (by simp)
    · rw [DedupLemmas.comment_not_literal hsp] at hlitx
      exact absurd hlitx (by simp)
    · rw [DedupLemmas.pattern_not_literal hsp] at hlitx
      exact absurd hlitx (by simp)
    · have hkeyl : stripAnchorsAndSlashes l = k := by
        rw [hsp] at hkeyx
        rw [DedupLemmas.toKey_buildCanonical_all (DedupLemmas.toKey_head?_ne l)
          (DedupLemmas.toKey_getLast?_ne l) _ _ _] at hkeyx
        exact hkeyx
      rw [hsp, hkeyl, hisFk]
      by_cases hkp : isPatternLine k = true
      · rw [CanonLemmas.buildCanonical_pattern_key hkp]
        rw [endsWithSlash, beq_eq_false_iff_ne, ne_eq]
        rw [← hkeyl]
        exact DedupLemmas.toKey_getLast?_ne l
      · have hkp' : isPatternLine k = false := by simpa using hkp
        by_cases hkne : k = []
        · rw [hkne, CanonLemmas.buildCanonical_nil_false]
          decide
        · rw [endsWithSlash, beq_eq_false_iff_ne, ne_eq]
          rw [CanonLemmas.buildCanonical_getLast? hkp' (hkeyl ▸ DedupLemmas.toKey_head?_ne l)
            (hkeyl ▸ DedupLemmas.toKey_getLast?_ne l) hkne false (variantOf l)
            o.trailingSlashForFolders]
          simp only [Bool.false_and, Bool.false_eq_true, if_false]
          exact hkeyl ▸ DedupLemmas.toKey_getLast?_ne l

/-- Counterexample to C6 as stated: with baseline `dist/` configured and the
key `dist` probed as a non-directory, the cleaned output still contains the
verbatim baseline line `dist/`, a line for that key ending in `/`. -/
theorem probed_file_trailing_slash_counterexample :
    (fun key => if key = strL "dist" then some false else none) (strL "dist") = some false ∧
    (cleanGitignoreEntries [strL "dist/"] ⟨false, false, false, true⟩ [strL "dist/"]
      (fun key => if key = strL "dist" then some false else none)).lines =
      [strL "dist/", strL "dist"] ∧
    stripAnchorsAndSlashes (strL "dist/") = strL "dist" ∧
    endsWithSlash (strL "dist/") = true := by
  refine ⟨by decide, by decide, by decide, by decide⟩

/-- Witness for C6's amended theorem: the symlink-cleanup scenario of the
repository's test suite (`/public/uploads/` with the key probed as a
symlink) rendered without its trailing slash. -/
theorem probed_file_never_trailing_slash_witness :
    endsWithSlash (strL "/public/uploads") = false ∧
    (cleanGitignoreEntries [strL ".DS_Store", strL "/public/uploads/"]
      ⟨false, false, false, true⟩ [strL ".DS_Store"]
      (fun key => if key = strL "public/uploads" then some false else none)).lines =
      [strL ".DS_Store", strL "/public/uploads"] := by
  constructor
  · exact probed_file_never_trailing_slash
      [strL ".DS_Store", strL "/public/uploads/"] ⟨false, false, false, true⟩
      [strL ".DS_Store"]
      (fun key => if key = strL "public/uploads" then some false else none)
      (strL "public/uploads") (by decide) (by decide)
      (strL "/public/uploads") (by decide) (by decide) (by decide)
  · decide

namespace CleanLemmas
open StrLemmas CanonLemmas DedupLemmas

theorem map_id_of_forall {α : Type} (f : α → α) :
    ∀ {l : List α}, (∀ x ∈ l, f x = x) → l.map f = l := by
  intro l
  induction l with
  | nil => intro h; rfl
  | cons a rest ih =>
    intro h
    rw [List.map_cons, h a (List.mem_cons_self a rest),
      ih (fun x hx => h x (List.mem_cons_of_mem a hx))]

theorem keptLinesOf_trim (lines : List Str) (o : CleaningOptions) :
    ∀ l ∈ keptLinesOf lines o, trim l = l := by
  intro l hl
  rw [keptLinesOf] at hl
  have hmem : l ∈ lines.map trim := (List.mem_filter.mp hl).1
  rcases List.mem_map.mp hmem with ⟨y, -, hy⟩
  rw [← hy]
  exact trim_trim y

theorem keptLinesOf_no_blank (lines : List Str) {o : CleaningOptions}
    (hre : o.removeEmptyLines = true) : ∀ l ∈ keptLinesOf lines o, l ≠ [] := by
  intro l hl he
  rw [keptLinesOf] at hl
  have hcond := (List.mem_filter.mp hl).2
  rw [hre, he] at hcond
  simp at hcond

theorem keptLinesOf_no_comment (lines : List Str) {o : CleaningOptions}
    (hrc : o.removeComments = true) : ∀ l ∈ keptLinesOf lines o, isComment l = false := by
  intro l hl
  rw [keptLinesOf] at hl
  have hcond := (List.mem_filter.mp hl).2
  by_contra hc
  have hc' : isComment l = true := by simpa using hc
  rw [hrc, hc'] at hcond
  simp at hcond

theorem isFolder_probe {probe : Str → Option Bool} {k : Str} {v : Bool}
    (h : probe k = some v) (kept : List Str) : isFolderForKey probe kept k = v := by
  rw [isFolderForKey, h]

/-- The pattern pool: output pattern lines are fresh for the accumulator and
pairwise distinct, provided literal keys never fall into the pattern class. -/
theorem dedup_out_patterns (tsff : Bool) (isF : Str → Bool) :
    ∀ (ls sE sP : List Str) (fv : List (Str × Variant)),
      (∀ l ∈ ls, isLiteralLine l = true → stripAnchorsAndSlashes l ≠ [] ∧
        isPatternLine (stripAnchorsAndSlashes l) = false) →
      (∀ x ∈ (dedupGo tsff isF ls sE sP fv).1, isKeptPattern x = true → x ∉ sP) ∧
      ((dedupGo tsff isF ls sE sP fv).1.filter isKeptPattern).Nodup := by
  intro ls
  induction ls with
  | nil =>
    intro sE sP fv _
    rw [dedupGo_nil]
    exact ⟨by simp, by simp⟩
  | cons l rest ih =>
    intro sE sP fv hkey
    have hkeyR : ∀ l' ∈ rest, isLiteralLine l' = true → stripAnchorsAndSlashes l' ≠ [] ∧
        isPatternLine (stripAnchorsAndSlashes l') = false :=
      fun l' hl' => hkey l' (List.mem_cons_of_mem l hl')
    by_cases h1 : l = []
    · rw [dedupGo_blank h1]
      rcases ih sE sP fv hkeyR with ⟨iha, ihb⟩
      refine ⟨?_, ?_⟩
      · intro x hx hpx
        rcases List.mem_cons.mp hx with hx | hx
        · rw [hx] at hpx
          exact absurd hpx (by decide)
        · exact iha x hx hpx
      · rw [List.filter_cons_of_neg (by decide)]
        exact ihb
    by_cases h2 : isComment l = true
    · rw [dedupGo_comment h1 h2]
      rcases ih sE sP fv hkeyR with ⟨iha, ihb⟩
      have hnp : isKeptPattern l = false := by
        rw [isKeptPattern, h2]
        simp
      refine ⟨?_, ?_⟩
      · intro x hx hpx
        rcases List.mem_cons.mp hx with hx | hx
        · rw [hx, hnp] at hpx
          exact absurd hpx (by simp)
        · exact iha x hx hpx
      · rw [List.filter_cons_of_neg (by rw [hnp]; simp)]
        exact ihb
    have h2' : isComment l = false := by simpa using h2
    by_cases h3 : isPatternLine l = true
    · have hkp : isKeptPattern l = true := by
        rw [isKeptPattern, h2', h3]
        simpa using h1
      by_cases h4 : l ∈ sP
      · rw [dedupGo_pattern_seen h1 h2' h3 h4]
        exact ih sE sP fv hkeyR
      · rw [dedupGo_pattern_new h1 h2' h3 h4]
        rcases ih sE (l :: sP) fv hkeyR with ⟨iha, ihb⟩
        refine ⟨?_, ?_⟩
        · intro x hx hpx
          rcases List.mem_cons.mp hx with hx | hx
          · rw [hx]
            exact h4
          · intro hmem
            exact (iha x hx hpx) (List.mem_cons_of_mem l hmem)
        · rw [List.filter_cons_of_pos hkp, List.nodup_cons]
          refine ⟨?_, ihb⟩
          intro hmem
          rcases List.mem_filter.mp hmem with ⟨hxmem, hxp⟩
          exact (iha l hxmem hxp) (List.mem_cons_self l sP)
    have h3' : isPatternLine l = false := by simpa using h3
    have hlit : isLiteralLine l = true := isLiteralLine_iff.mpr ⟨h1, h2', h3'⟩
    by_cases h4 : stripAnchorsAndSlashes l ∈ sE
    · rw [dedupGo_seen h1 h2' h3' h4]
      rw [apply_ite Prod.fst, ite_self]
      exact ih sE sP fv hkeyR
    · rw [dedupGo_fresh h1 h2' h3' h4]
      rcases ih (stripAnchorsAndSlashes l :: sE) sP
        ((stripAnchorsAndSlashes l, variantOf l) :: fv) hkeyR with ⟨iha, ihb⟩
      rcases hkey l (List.mem_cons_self l rest) hlit with ⟨hk1, hk2⟩
      have hcp : isPatternLine (buildCanonicalFromKey (stripAnchorsAndSlashes l)
          (isF (stripAnchorsAndSlashes l)) (variantOf l) tsff) = false :=
        buildCanonical_not_pattern hk2 (toKey_head?_ne l) (toKey_getLast?_ne l) hk1 _ _ _
      have hckp : isKeptPattern (buildCanonicalFromKey (stripAnchorsAndSlashes l)
          (isF (stripAnchorsAndSlashes l)) (variantOf l) tsff) = false := by
        rw [isKeptPattern, hcp]
        simp
      refine ⟨?_, ?_⟩
      · intro x hx hpx
        rcases List.mem_cons.mp hx with hx | hx
        · rw [hx, hckp] at hpx
          exact absurd hpx (by simp)
        · exact iha x hx hpx
      · rw [List.filter_cons_of_neg (by rw [hckp]; simp)]
        exact ihb

/-- No blank input, nonempty literal keys: no blank output line. -/
theorem dedup_out_ne_nil (tsff : Bool) (isF : Str → Bool) :
    ∀ (ls sE sP : List Str) (fv : List (Str × Variant)),
      [] ∉ ls →
      (∀ l ∈ ls, isLiteralLine l = true → stripAnchorsAndSlashes l ≠ []) →
      ∀ x ∈ (dedupGo tsff isF ls sE sP fv).1, x ≠ [] := by
  intro ls
  induction ls with
  | nil =>
    intro sE sP fv _ _ x hx
    rw [dedupGo_nil] at hx
    simp at hx
  | cons l rest ih =>
    intro sE sP fv hbl hkey x hx
    have h1 : l ≠ [] := fun he => hbl (he ▸ List.mem_cons_self l rest)
    have hblR : [] ∉ rest := fun hm => hbl (List.mem_cons_of_mem l hm)
    have hkeyR : ∀ l' ∈ rest, isLiteralLine l' = true → stripAnchorsAndSlashes l' ≠ [] :=
      fun l' hl' => hkey l' (List.mem_cons_of_mem l hl')
    by_cases h2 : isComment l = true
    · rw [dedupGo_comment h1 h2] at hx
      rcases List.mem_cons.mp hx with hx | hx
      · rw [hx]; exact h1
      · exact ih sE sP fv hblR hkeyR x hx
    have h2' : isComment l = false := by simpa using h2
    by_cases h3 : isPatternLine l = true
    · by_cases h4 : l ∈ sP
      · rw [dedupGo_pattern_seen h1 h2' h3 h4] at hx
        exact ih sE sP fv hblR hkeyR x hx
      · rw [dedupGo_pattern_new h1 h2' h3 h4] at hx
        rcases List.mem_cons.mp hx with hx | hx
        · rw [hx]; exact h1
        · exact ih sE (l :: sP) fv hblR hkeyR x hx
    have h3' : isPatternLine l = false := by simpa using h3
    have hlit : isLiteralLine l = true := isLiteralLine_iff.mpr ⟨h1, h2', h3'⟩
    by_cases h4 : stripAnchorsAndSlashes l ∈ sE
    · rw [dedupGo_seen h1 h2' h3' h4, apply_ite Prod.fst, ite_self] at hx
      exact ih sE sP fv hblR hkeyR x hx
    · rw [dedupGo_fresh h1 h2' h3' h4] at hx
      rcases List.mem_cons.mp hx with hx | hx
      · rw [hx]
        exact buildCanonical_ne_nil (toKey_head?_ne l) (toKey_getLast?_ne l)
          (hkey l (List.mem_cons_self l rest) hlit) _ _ _
      · exact ih _ sP _ hblR hkeyR x hx

/-- Trimmed input with trimmed keys: every output line is trimmed. -/
theorem dedup_out_trim (tsff : Bool) (isF : Str → Bool) (ls : List Str)
    (htr : ∀ l ∈ ls, trim l = l)
    (hkey : ∀ l ∈ ls, isLiteralLine l = true →
      stripAnchorsAndSlashes l ≠ [] ∧ isPatternLine (stripAnchorsAndSlashes l) = false ∧
      trim (stripAnchorsAndSlashes l) = stripAnchorsAndSlashes l) :
    ∀ x ∈ (dedupGo tsff isF ls [] [] []).1, trim x = x := by
  intro x hx
  rcases dedup_out_mem tsff isF ls [] [] [] x hx with
    hsp | ⟨-, hm⟩ | ⟨-, -, -, hm⟩ | ⟨l, hl, hlit, hsp⟩
  · rw [hsp]; rfl
  · exact htr x hm
  · exact htr x hm
  · rcases hkey l hl hlit with ⟨hk1, hk2, hk3⟩
    rw [hsp]
    exact buildCanonical_trim hk2 (toKey_head?_ne l) (toKey_getLast?_ne l) hk1
      (fun c hc => trim_head?_not_ws
        (show (trim (stripAnchorsAndSlashes l)).head? = some c by rw [hk3]; exact hc))
      (fun c hc => trim_getLast?_not_ws
        (show (trim (stripAnchorsAndSlashes l)).getLast? = some c by rw [hk3]; exact hc))
      _ _ _

/-- Comment-free input with well-formed literal keys: comment-free output. -/
theorem dedup_out_no_comment (tsff : Bool) (isF : Str → Bool) (ls : List Str)
    (hnc : ∀ l ∈ ls, isComment l = false)
    (hkey : ∀ l ∈ ls, isLiteralLine l = true →
      stripAnchorsAndSlashes l ≠ [] ∧ isPatternLine (stripAnchorsAndSlashes l) = false) :
    ∀ x ∈ (dedupGo tsff isF ls [] [] []).1, isComment x = false := by
  intro x hx
  rcases dedup_out_mem tsff isF ls [] [] [] x hx with
    hsp | ⟨hc, hm⟩ | ⟨-, hc, -, -⟩ | ⟨l, hl, hlit, hsp⟩
  · rw [hsp]; decide
  · rw [hnc x hm] at hc
    exact absurd hc (by simp)
  · exact hc
  · rcases hkey l hl hlit with ⟨hk1, hk2⟩
    have hcl := canonical_isLiteral hlit hk1 hk2 (isF (stripAnchorsAndSlashes l)) tsff
    rw [hsp]
    exact (isLiteralLine_iff.mp hcl).2.1

/-- A pass over an already-normalized list changes nothing and counts no
duplicate: literal lines are fixed points of the canonical renderer, literal
keys are fresh and pairwise distinct, pattern lines fresh and distinct. -/
theorem dedup_id (tsff : Bool) (isF : Str → Bool) :
    ∀ (ls sE sP : List Str) (fv : List (Str × Variant)),
      (∀ l ∈ ls, isLiteralLine l = true →
        buildCanonicalFromKey (stripAnchorsAndSlashes l) (isF (stripAnchorsAndSlashes l))
          (variantOf l) tsff = l) →
      (∀ l ∈ ls, isLiteralLine l = true → stripAnchorsAndSlashes l ∉ sE) →
      (∀ l ∈ ls, isKeptPattern l = true → l ∉ sP) →
      ((ls.filter isLiteralLine).map stripAnchorsAndSlashes).Nodup →
      (ls.filter isKeptPattern).Nodup →
      dedupGo tsff isF ls sE sP fv = (ls, 0) := by
  intro ls
  induction ls with
  | nil =>
    intro sE sP fv _ _ _ _ _
    rfl
  | cons l rest ih =>
    intro sE sP fv hfix hsE hsP hkeys hpats
    have hfixR : ∀ l' ∈ rest, isLiteralLine l' = true →
        buildCanonicalFromKey (stripAnchorsAndSlashes l') (isF (stripAnchorsAndSlashes l'))
          (variantOf l') tsff = l' :=
      fun l' hl' => hfix l' (List.mem_cons_of_mem l hl')
    by_cases h1 : l = []
    · subst h1
      rw [dedupGo_blank rfl]
      rw [List.filter_cons_of_neg (by decide)] at hkeys
      rw [List.filter_cons_of_neg (by decide)] at hpats
      rw [ih sE sP fv hfixR
        (fun l' hl' => hsE l' (List.mem_cons_of_mem [] hl'))
        (fun l' hl' => hsP l' (List.mem_cons_of_mem [] hl'))
        hkeys hpats]
    by_cases h2 : isComment l = true
    · rw [dedupGo_comment h1 h2]
      rw [List.filter_cons_of_neg (by rw [comment_not_literal h2]; simp)] at hkeys
      rw [List.filter_cons_of_neg (by rw [isKeptPattern, h2]; simp)] at hpats
      rw [ih sE sP fv hfixR
        (fun l' hl' => hsE l' (List.mem_cons_of_mem l hl'))
        (fun l' hl' => hsP l' (List.mem_cons_of_mem l hl'))
        hkeys hpats]
    have h2' : isComment l = false := by simpa using h2
    by_cases h3 : isPatternLine l = true
    · have hkp : isKeptPattern l = true := by
        rw [isKeptPattern, h2', h3]
        simpa using h1
      have h4 : l ∉ sP := hsP l (List.mem_cons_self l rest) hkp
      rw [dedupGo_pattern_new h1 h2' h3 h4]
      rw [List.filter_cons_of_neg (by rw [pattern_not_literal h3]; simp)] at hkeys
      rw [List.filter_cons_of_pos hkp] at hpats
      rcases List.nodup_cons.mp hpats with ⟨hlnot, hrestnd⟩
      rw [ih sE (l :: sP) fv hfixR
        (fun l' hl' => hsE l' (List.mem_cons_of_mem l hl'))
        (fun l' hl' hp' => by
          rw [List.mem_cons]
          rintro (he | hm)
          · exact hlnot (he ▸ List.mem_filter.mpr ⟨hl', hp'⟩)
          · exact hsP l' (List.mem_cons_of_mem l hl') hp' hm)
        hkeys hrestnd]
    have h3' : isPatternLine l = false := by simpa using h3
    have hlit : isLiteralLine l = true := isLiteralLine_iff.mpr ⟨h1, h2', h3'⟩
    have h4 : stripAnchorsAndSlashes l ∉ sE := hsE l (List.mem_cons_self l rest) hlit
    rw [dedupGo_fresh h1 h2' h3' h4]
    rw [List.filter_cons_of_pos hlit, List.map_cons] at hkeys
    rcases List.nodup_cons.mp hkeys with ⟨hknot, hkrest⟩
    rw [List.filter_cons_of_neg (by rw [isKeptPattern, h3']; simp)] at hpats
    rw [ih (stripAnchorsAndSlashes l :: sE) sP
      ((stripAnchorsAndSlashes l, variantOf l) :: fv) hfixR
      (fun l' hl' hlit' => by
        rw [List.mem_cons]
        rintro (he | hm)
        · exact hknot (he ▸ List.mem_map.mpr
            ⟨l', List.mem_filter.mpr ⟨hl', hlit'⟩, rfl⟩)
        · exact hsE l' (List.mem_cons_of_mem l hl') hlit' hm)
      (fun l' hl' => hsP l' (List.mem_cons_of_mem l hl'))
      hkrest hpats]
    rw [hfix l (List.mem_cons_self l rest) hlit]

/-- The enforcer's prepended block, with its elements pairwise distinct. -/
theorem enforce_decomp_strong (lines base : List Str)
    (htrim : ∀ b ∈ base, trim b = b) :
    ∃ pre, (enforceBaseEntries lines base).1 = pre ++ lines ∧
      pre.Nodup ∧ (∀ b ∈ pre, b ∈ base ∧ ∀ l ∈ lines, trim l ≠ b) := by
  induction base with
  | nil => exact ⟨[], rfl, List.nodup_nil, by simp⟩
  | cons b bs ih =>
    rcases ih (fun b' hb' => htrim b' (List.mem_cons_of_mem b hb')) with
      ⟨pre, hout, hnd, hpre⟩
    rw [EnforceLemmas.enforce_cons]
    by_cases hfound : (findMatchingEntry (enforceBaseEntries lines bs).1 [b]).isSome = true
    · rw [if_pos hfound]
      exact ⟨pre, hout, hnd, fun b' hb' =>
        ⟨List.mem_cons_of_mem b (hpre b' hb').1, (hpre b' hb').2⟩⟩
    · rw [if_neg hfound]
      have hbnot : ∀ l ∈ (enforceBaseEntries lines bs).1, trim l ≠ b := by
        intro l hl he
        apply hfound
        rw [EnforceLemmas.findMatchingEntry_single, List.any_eq_true]
        exact ⟨l, hl, by simp [he]⟩
      refine ⟨b :: pre, by simp [hout], ?_, ?_⟩
      · rw [List.nodup_cons]
        refine ⟨?_, hnd⟩
        intro hmem
        exact hbnot b (by rw [hout]; exact List.mem_append_left lines hmem)
          (htrim b (List.mem_cons_self b bs))
      · intro b' hb'
        rcases List.mem_cons.mp hb' with hb' | hb'
        · subst hb'
          refine ⟨List.mem_cons_self b' bs, ?_⟩
          intro l hl
          exact hbnot l (by rw [hout]; exact List.mem_append_right pre hl)
        · exact ⟨List.mem_cons_of_mem b (hpre b' hb').1, (hpre b' hb').2⟩

end CleanLemmas

/-- C3 (amended): a second cleaning run (same options, baselines and probe)
returns the first run's line sequence unchanged with every counter zero and
every flag false, provided the input is normalized: every kept literal line
has a nonempty, non-pattern, whitespace-trimmed key with a definite probe
answer, every configured baseline entry is a trimmed literal fixed point of
the canonical renderer with a definite probe answer, every kept literal
sharing a baseline's key also renders canonically to that baseline's exact
text, and distinct baselines have distinct keys.  Without these hypotheses a
second run can keep cleaning (see the counterexample). -/
theorem cleaning_second_run_identity (lines : List Str) (o : CleaningOptions)
    (base : List Str) (probe : Str → Option Bool)
    (hlit : ∀ l ∈ keptLinesOf lines o, isLiteralLine l = true →
      stripAnchorsAndSlashes l ≠ [] ∧
      isPatternLine (stripAnchorsAndSlashes l) = false ∧
      trim (stripAnchorsAndSlashes l) = stripAnchorsAndSlashes l ∧
      (probe (stripAnchorsAndSlashes l)).isSome = true)
    (hbase : ∀ b ∈ base, trim b = b ∧ isLiteralLine b = true ∧
      (probe (stripAnchorsAndSlashes b)).isSome = true ∧
      buildCanonicalFromKey (stripAnchorsAndSlashes b)
        (isFolderForKey probe (keptLinesOf lines o) (stripAnchorsAndSlashes b))
        (variantOf b) o.trailingSlashForFolders = b)
    (hagree : ∀ b ∈ base, ∀ l ∈ keptLinesOf lines o, isLiteralLine l = true →
      stripAnchorsAndSlashes l = stripAnchorsAndSlashes b →
      buildCanonicalFromKey (stripAnchorsAndSlashes b)
        (isFolderForKey probe (keptLinesOf lines o) (stripAnchorsAndSlashes b))
        (variantOf l) o.trailingSlashForFolders = b)
    (hinj : ∀ b ∈ base, ∀ b' ∈ base,
      stripAnchorsAndSlashes b = stripAnchorsAndSlashes b' → b = b') :
    cleanGitignoreEntries (cleanGitignoreEntries lines o base probe).lines o base probe =
      ⟨(cleanGitignoreEntries lines o base probe).lines, 0, 0, false, false, 0⟩ := by
  have hkt := CleanLemmas.keptLinesOf_trim lines o
  rcases CleanLemmas.enforce_decomp_strong (dedupedOf lines o probe) base
    (fun b hb => (hbase b hb).1) with ⟨pre, hE, hpreNd, hpre⟩
  have hlitkey : ∀ l ∈ keptLinesOf lines o, isLiteralLine l = true →
      stripAnchorsAndSlashes l ≠ [] ∧ isPatternLine (stripAnchorsAndSlashes l) = false :=
    fun l hl h => ⟨(hlit l hl h).1, (hlit l hl h).2.1⟩
  have hdTr : ∀ x ∈ dedupedOf lines o probe, trim x = x :=
    CleanLemmas.dedup_out_trim _ _ _ hkt
      (fun l hl h => ⟨(hlit l hl h).1, (hlit l hl h).2.1, (hlit l hl h).2.2.1⟩)
  have hETr : ∀ x ∈ pre ++ dedupedOf lines o probe, trim x = x := by
    intro x hx
    rcases List.mem_append.mp hx with hx | hx
    · exact (hbase x (hpre x hx).1).1
    · exact hdTr x hx
  have hEne : o.removeEmptyLines = true → ∀ x ∈ pre ++ dedupedOf lines o probe, x ≠ [] := by
    intro hre x hx
    rcases List.mem_append.mp hx with hx | hx
    · exact DedupLemmas.literal_not_blank (hbase x (hpre x hx).1).2.1
    · exact CleanLemmas.dedup_out_ne_nil _ _ (keptLinesOf lines o) [] [] []
        (fun hm => (CleanLemmas.keptLinesOf_no_blank lines hre [] hm) rfl)
        (fun l hl h => (hlit l hl h).1) x hx
  have hEcom : o.removeComments = true → ∀ x ∈ pre ++ dedupedOf lines o probe,
      isComment x = false := by
    intro hrc x hx
    rcases List.mem_append.mp hx with hx | hx
    · exact (DedupLemmas.isLiteralLine_iff.mp (hbase x (hpre x hx).1).2.1).2.1
    · exact CleanLemmas.dedup_out_no_comment _ _ _
        (CleanLemmas.keptLinesOf_no_comment lines hrc) hlitkey x hx
  have hEfix : ∀ x ∈ pre ++ dedupedOf lines o probe, isLiteralLine x = true →
      (probe (stripAnchorsAndSlashes x)).isSome = true ∧
      buildCanonicalFromKey (stripAnchorsAndSlashes x)
        (isFolderForKey probe (keptLinesOf lines o) (stripAnchorsAndSlashes x))
        (variantOf x) o.trailingSlashForFolders = x := by
    intro x hx hlitx
    rcases List.mem_append.mp hx with hx | hx
    · exact ⟨(hbase x (hpre x hx).1).2.2.1, (hbase x (hpre x hx).1).2.2.2⟩
    · rcases DedupLemmas.dedup_out_mem _ _ (keptLinesOf lines o) [] [] [] x hx with
        hsp | ⟨hc, -⟩ | ⟨hp, -, -, -⟩ | ⟨l, hl, hlitl, hsp⟩
      · rw [hsp, DedupLemmas.blank_not_literal] at hlitx
        exact absurd hlitx (by simp)
      · rw [DedupLemmas.comment_not_literal hc] at hlitx
        exact absurd hlitx (by simp)
      · rw [DedupLemmas.pattern_not_literal hp] at hlitx
        exact absurd hlitx (by simp)
      · have hkeyx : stripAnchorsAndSlashes x = stripAnchorsAndSlashes l := by
          rw [hsp]
          exact DedupLemmas.toKey_buildCanonical_all (DedupLemmas.toKey_head?_ne l)
            (DedupLemmas.toKey_getLast?_ne l) _ _ _
        refine ⟨by rw [hkeyx]; exact (hlit l hl hlitl).2.2.2, ?_⟩
        rw [hkeyx, hsp]
        exact CanonLemmas.buildCanonical_fix (DedupLemmas.toKey_head?_ne l)
          (DedupLemmas.toKey_getLast?_ne l) (hlit l hl hlitl).1 _ _ _
  have hEkeysNd : (((pre ++ dedupedOf lines o probe).filter isLiteralLine).map
      stripAnchorsAndSlashes).Nodup := by
    rw [List.filter_append, List.map_append]
    have hpreF : pre.filter isLiteralLine = pre :=
      List.filter_eq_self.mpr (fun b hb => (hbase b (hpre b hb).1).2.1)
    rw [hpreF]
    apply List.Nodup.append
    · exact List.Nodup.map_on
        (fun b hb b' hb' he => hinj b (hpre b hb).1 b' (hpre b' hb').1 he) hpreNd
    · exact (DedupLemmas.dedup_out_keys o.trailingSlashForFolders
        (isFolderForKey probe (keptLinesOf lines o)) (keptLinesOf lines o) [] [] []).2
    · rw [List.disjoint_left]
      intro k hk hk'
      rcases List.mem_map.mp hk with ⟨b, hbpre, hkb⟩
      rcases List.mem_map.mp hk' with ⟨x, hxf, hkx⟩
      rcases List.mem_filter.mp hxf with ⟨hxd, hxlit⟩
      rcases DedupLemmas.dedup_out_mem _ _ (keptLinesOf lines o) [] [] [] x hxd with
        hsp | ⟨hc, -⟩ | ⟨hp, -, -, -⟩ | ⟨l, hl, hlitl, hsp⟩
      · rw [hsp, DedupLemmas.blank_not_literal] at hxlit
        exact absurd hxlit (by simp)
      · rw [DedupLemmas.comment_not_literal hc] at hxlit
        exact absurd hxlit (by simp)
      · rw [DedupLemmas.pattern_not_literal hp] at hxlit
        exact absurd hxlit (by simp)
      · have hkeyx : stripAnchorsAndSlashes x = stripAnchorsAndSlashes l := by
          rw [hsp]
          exact DedupLemmas.toKey_buildCanonical_all (DedupLemmas.toKey_head?_ne l)
            (DedupLemmas.toKey_getLast?_ne l) _ _ _
        have hkeylb : stripAnchorsAndSlashes l = stripAnchorsAndSlashes b := by
          rw [← hkeyx, hkx, ← hkb]
        have hxb : x = b := by
          rw [hsp]
          have hag := hagree b (hpre b hbpre).1 l hl hlitl hkeylb
          rw [← hkeylb] at hag
          exact hag
        exact (hpre b hbpre).2 x hxd
          (by rw [hETr x (List.mem_append_right pre hxd)]; exact hxb)
  have hEpatNd : ((pre ++ dedupedOf lines o probe).filter isKeptPattern).Nodup := by
    rw [List.filter_append]
    have hpreF : pre.filter isKeptPattern = [] := by
      rw [List.filter_eq_nil_iff]
      intro b hb
      have hlitb := (hbase b (hpre b hb).1).2.1
      simp [isKeptPattern, (DedupLemmas.isLiteralLine_iff.mp hlitb).2.2]
    rw [hpreF, List.nil_append]
    exact (CleanLemmas.dedup_out_patterns o.trailingSlashForFolders
      (isFolderForKey probe (keptLinesOf lines o)) (keptLinesOf lines o) [] [] []
      hlitkey).2
  obtain ⟨X, hX⟩ : ∃ X, (cleanGitignoreEntries lines o base probe).lines = X := ⟨_, rfl⟩
  have hlines1 : X = (if o.sort then sortLines (pre ++ dedupedOf lines o probe)
      else pre ++ dedupedOf lines o probe) := by
    rw [← hX, clean_lines_eq]
    simp only
    rw [hE]
    cases hre : o.removeEmptyLines with
    | false => simp
    | true =>
      simp only [if_true]
      apply CleanupLemmas.cleanupLines_id
      intro x hx
      have hxE : x ∈ pre ++ dedupedOf lines o probe := by
        cases hsrt : o.sort with
        | false =>
          rw [hsrt] at hx
          simpa using hx
        | true =>
          rw [hsrt] at hx
          exact SortLemmas.mem_sortLines.mp (by simpa using hx)
      rw [hETr x hxE]
      simpa using hEne hre x hxE
  have hmem1 : ∀ x, x ∈ X ↔ x ∈ pre ++ dedupedOf lines o probe := by
    intro x
    rw [hlines1]
    cases hsrt : o.sort with
    | false => simp
    | true =>
      simp only [if_true]
      exact SortLemmas.mem_sortLines
  have hperm1 : List.Perm X (pre ++ dedupedOf lines o probe) := by
    rw [hlines1]
    cases hsrt : o.sort with
    | false =>
      simp only [Bool.false_eq_true, if_false]
      exact List.Perm.refl _
    | true =>
      simp only [if_true]
      exact SortLemmas.sortLines_perm _
  have hXkeysNd : ((X.filter isLiteralLine).map stripAnchorsAndSlashes).Nodup :=
    ((hperm1.filter isLiteralLine).map stripAnchorsAndSlashes).nodup_iff.mpr hEkeysNd
  have hXpatNd : (X.filter isKeptPattern).Nodup :=
    (hperm1.filter isKeptPattern).nodup_iff.mpr hEpatNd
  have hXTr : ∀ x ∈ X, trim x = x := fun x hx => hETr x ((hmem1 x).mp hx)
  have hXne : o.removeEmptyLines = true → ∀ x ∈ X, x ≠ [] :=
    fun hre x hx => hEne hre x ((hmem1 x).mp hx)
  have hXcom : o.removeComments = true → ∀ x ∈ X, isComment x = false :=
    fun hrc x hx => hEcom hrc x ((hmem1 x).mp hx)
  have hXmap : X.map trim = X := CleanLemmas.map_id_of_forall trim hXTr
  have hkept2 : keptLinesOf X o = X := by
    rw [keptLinesOf, hXmap]
    apply List.filter_eq_self.mpr
    intro x hx
    have h1 : (o.removeEmptyLines && (x == [])) = false := by
      cases hre : o.removeEmptyLines with
      | false => rfl
      | true =>
        have hxne := hXne hre x hx
        simp [hxne]
    have h2 : (o.removeComments && isComment x) = false := by
      cases hrc : o.removeComments with
      | false => rfl
      | true => simp [hXcom hrc x hx]
    rw [h1, h2]
    rfl
  have hd2 : dedupGo o.trailingSlashForFolders (isFolderForKey probe X) X [] [] [] =
      (X, 0) := by
    apply CleanLemmas.dedup_id
    · intro x hx hlitx
      rcases hEfix x ((hmem1 x).mp hx) hlitx with ⟨hsome, hfix⟩
      rcases Option.isSome_iff_exists.mp hsome with ⟨v, hv⟩
      rw [CleanLemmas.isFolder_probe hv X]
      rw [CleanLemmas.isFolder_probe hv (keptLinesOf lines o)] at hfix
      exact hfix
    · simp
    · simp
    · exact hXkeysNd
    · exact hXpatNd
  have hbmem1 : ∀ b ∈ base, b ∈ X := by
    intro b hb
    rcases EnforceLemmas.enforce_present (dedupedOf lines o probe) base
      (fun b' hb' => (hbase b' hb').1) b hb with ⟨l, hl, hlt⟩
    rw [hE] at hl
    have hlb : l = b := by rw [← hETr l hl]; exact hlt
    exact (hmem1 b).mpr (hlb ▸ hl)
  have he2 : enforceBaseEntries X base = (X, false) :=
    EnforceLemmas.enforce_all_present X base
      (fun b hb => ⟨b, hbmem1 b hb, (hbase b hb).1⟩)
  have hsorted1 : o.sort = true → sortLines X = X := by
    intro hsrt
    apply SortLemmas.sortLines_eq_self
    rw [hlines1, hsrt]
    simp only [if_true]
    exact SortLemmas.sortLines_sorted _
  have hdd2 : dedupedOf X o probe = X := by
    rw [dedupedOf, hkept2, hd2]
  have hee : (enforceBaseEntries (dedupedOf X o probe) base).1 = X := by
    rw [hdd2, he2]
  have hlines2 : (cleanGitignoreEntries X o base probe).lines = X := by
    rw [clean_lines_eq]
    simp only
    rw [hee]
    have hsX : (if o.sort then sortLines X else X) = X := by
      cases hsrt : o.sort with
      | false => simp
      | true =>
        simp only [if_true]
        exact hsorted1 hsrt
    rw [hsX]
    cases hre : o.removeEmptyLines with
    | false => simp
    | true =>
      simp only [if_true]
      apply CleanupLemmas.cleanupLines_id
      intro x hx
      rw [hXTr x hx]
      simpa using hXne hre x hx
  have hdup2 : (cleanGitignoreEntries X o base probe).duplicatesRemoved = 0 := by
    show (dedupGo o.trailingSlashForFolders (isFolderForKey probe (keptLinesOf X o))
      (keptLinesOf X o) [] [] []).2 = 0
    rw [hkept2, hd2]
  have her2 : (cleanGitignoreEntries X o base probe).emptyLinesRemoved = 0 := by
    show (if o.removeEmptyLines then (X.map trim).countP (fun l => l == []) else 0) = 0
    cases hre : o.removeEmptyLines with
    | false => rfl
    | true =>
      simp only [if_true]
      rw [hXmap, List.countP_eq_zero]
      intro x hx
      simpa using hXne hre x hx
  have hcm2 : (cleanGitignoreEntries X o base probe).commentsRemoved = 0 := by
    show (if o.removeComments then (X.map trim).countP (fun l => isComment l) else 0) = 0
    cases hrc : o.removeComments with
    | false => rfl
    | true =>
      simp only [if_true]
      rw [hXmap, List.countP_eq_zero]
      intro x hx
      simp [hXcom hrc x hx]
  have hba2 : (cleanGitignoreEntries X o base probe).baseEntriesAdded = false := by
    show (enforceBaseEntries (dedupedOf X o probe) base).2 = false
    rw [hdd2, he2]
  have hsa2 : (cleanGitignoreEntries X o base probe).sortedApplied = false := by
    show (o.sort && !((enforceBaseEntries (dedupedOf X o probe) base).1 ==
      sortLines (enforceBaseEntries (dedupedOf X o probe) base).1)) = false
    rw [hee]
    cases hsrt : o.sort with
    | false => rfl
    | true =>
      rw [hsorted1 hsrt]
      simp
  rw [hX]
  have heta : cleanGitignoreEntries X o base probe =
      ⟨(cleanGitignoreEntries X o base probe).lines,
       (cleanGitignoreEntries X o base probe).duplicatesRemoved,
       (cleanGitignoreEntries X o base probe).emptyLinesRemoved,
       (cleanGitignoreEntries X o base probe).sortedApplied,
       (cleanGitignoreEntries X o base probe).baseEntriesAdded,
       (cleanGitignoreEntries X o base probe).commentsRemoved⟩ := rfl
  rw [heta, hlines2, hdup2, her2, hsa2, hba2, hcm2]

/-- Counterexample to C3 as stated: a literal line whose key carries pattern
syntax (`/!foo`) is canonicalized into the pattern pool's territory, so the
second run finds a duplicate the first run could not: the first run returns
two copies of `!foo` and the second run removes one, reporting a duplicate. -/
theorem cleaning_idempotence_counterexample :
    (cleanGitignoreEntries [strL "/!foo", strL "!foo"] ⟨false, false, false, false⟩ []
      (fun _ => none)).lines = [strL "!foo", strL "!foo"] ∧
    (cleanGitignoreEntries
        (cleanGitignoreEntries [strL "/!foo", strL "!foo"] ⟨false, false, false, false⟩ []
          (fun _ => none)).lines
        ⟨false, false, false, false⟩ [] (fun _ => none)).lines = [strL "!foo"] ∧
    (cleanGitignoreEntries
        (cleanGitignoreEntries [strL "/!foo", strL "!foo"] ⟨false, false, false, false⟩ []
          (fun _ => none)).lines
        ⟨false, false, false, false⟩ [] (fun _ => none)).duplicatesRemoved = 1 := by
  exact ⟨by decide, by decide, by decide⟩

/-- Witness for C3's amended theorem: a mixed folder/file input with a
baseline and every removal option on; the second run is the identity with
zero counters. -/
theorem cleaning_second_run_identity_witness :
    cleanGitignoreEntries
        (cleanGitignoreEntries [strL "node_modules/", strL "/dist", strL "node_modules"]
          ⟨true, true, true, true⟩ [strL ".DS_Store"]
          (fun k => if k = strL "node_modules" then some true
            else if k = strL "dist" then some false
            else if k = strL ".DS_Store" then some false else none)).lines
        ⟨true, true, true, true⟩ [strL ".DS_Store"]
        (fun k => if k = strL "node_modules" then some true
          else if k = strL "dist" then some false
          else if k = strL ".DS_Store" then some false else none) =
      ⟨(cleanGitignoreEntries [strL "node_modules/", strL "/dist", strL "node_modules"]
          ⟨true, true, true, true⟩ [strL ".DS_Store"]
          (fun k => if k = strL "node_modules" then some true
            else if k = strL "dist" then some false
            else if k = strL ".DS_Store" then some false else none)).lines,
       0, 0, false, false, 0⟩ :=
  cleaning_second_run_identity
    [strL "node_modules/", strL "/dist", strL "node_modules"]
    ⟨true, true, true, true⟩ [strL ".DS_Store"]
    (fun k => if k = strL "node_modules" then some true
      else if k = strL "dist" then some false
      else if k = strL ".DS_Store" then some false else none)
    (by decide) (by decide) (by decide) (by decide)

/-- `vscode.FileStat`, reduced to the two type bits the code inspects. -/
structure FsStat where
  isDirectory : Bool
  isSymbolicLink : Bool
deriving DecidableEq

/-- `isRealDirectory`: a directory bit without the symbolic-link bit. -/
def isRealDirectory (stat : FsStat) : Bool :=
  stat.isDirectory && !stat.isSymbolicLink

/-- The outcome classification of one add/remove operation
(`OperationResult.status`). -/
inductive OpStatus
  | added
  | removed
  | skipped
  | opError
deriving DecidableEq

/-- The reasons `getRelativePath` throws. -/
inductive RelPathError
  | rootTarget
  | outsideWorkspace
  | gitignoreItself
deriving DecidableEq

/-- `getRelativePath`, over the already-computed `path.relative` string with
the POSIX separator: reject the empty relative path (the workspace root),
paths escaping the workspace (starting with `..`, or absolute), and the rule
file itself after separator normalization. -/
def getRelativePath (relative : Str) : Except RelPathError Str :=
  if relative = [] then .error .rootTarget
  else if relative.take 2 = strL ".." ∨ relative.head? = some '/' then
    .error .outsideWorkspace
  else if joinChar '/' (splitOnChar '/' relative) = strL ".gitignore" then
    .error .gitignoreItself
  else .ok (joinChar '/' (splitOnChar '/' relative))

/-- `buildEntryForAdd`: validate the path, then render it with the stat's
real-directory verdict. -/
def buildEntryForAdd (relative : Str) (stat : FsStat) (tsff als : Bool) :
    Except RelPathError Str :=
  match getRelativePath relative with
  | .error e => .error e
  | .ok rel => .ok (formatGitignoreEntry rel (isRealDirectory stat) tsff als)

/-- `addEntry`: append the entry unless a line's trimmed text already equals
it; report whether anything was appended. -/
def addEntry (lines : List Str) (entry : Str) : List Str × Bool :=
  if (findMatchingEntry lines [entry]).isSome then (lines, false)
  else (lines ++ [entry], true)

/-- `removeEntry`: delete every line whose trimmed text equals the entry;
report whether anything was deleted. -/
def removeEntry (lines : List Str) (entry : Str) : List Str × Bool :=
  ((lines.filter (fun l => !(trim l == entry))),
   !((lines.filter (fun l => !(trim l == entry))).length == lines.length))

/-- `buildEntryForRemove`: validate the path, then render the primary entry
from the (possibly failed) stat and the list of alternate spellings. -/
def buildEntryForRemove (relative : Str) (stat : Option FsStat) (tsff als : Bool) :
    Except RelPathError (Str × List Str) :=
  match getRelativePath relative with
  | .error e => .error e
  | .ok rel =>
    let isDir : Option Bool := stat.map isRealDirectory
    let escaped := escapeGitignorePath rel
    let withTrailing := if endsWithSlash escaped then escaped else escaped ++ ['/']
    .ok (formatGitignoreEntry rel (isDir == some true) tsff als,
      if isDir == some true then
        [formatGitignoreEntry rel false tsff als, withTrailing,
          '/' :: withTrailing, escaped, '/' :: escaped]
      else
        [formatGitignoreEntry rel true tsff als, withTrailing,
          '/' :: withTrailing, escaped, '/' :: escaped])

/-- The remove handler's fallback loop over the candidate spellings. -/
def removeLoop (lines : List Str) : List Str → List Str × OpStatus
  | [] => (lines, .skipped)
  | c :: cs =>
      if (removeEntry lines c).2 then ((removeEntry lines c).1, .removed)
      else removeLoop lines cs

/-- `addGitignoreEntry`: build the entry (validation errors become an error
result leaving the lines untouched), skip managed baselines, then append. -/
def addGitignoreEntry (lines : List Str) (relative : Str) (stat : FsStat)
    (baseEntries : List Str) (tsff als : Bool) : List Str × OpStatus :=
  match buildEntryForAdd relative stat tsff als with
  | .error _ => (lines, .opError)
  | .ok entry =>
      if baseEntries.contains entry then (lines, .skipped)
      else if (addEntry lines entry).2 then ((addEntry lines entry).1, .added)
      else (lines, .skipped)

/-- The remove handler's core on the built candidate spellings: protect
managed baselines, remove the matching spelling, else try each candidate. -/
def removeWithCandidates (lines baseEntries cs : List Str) : List Str × OpStatus :=
  match findMatchingEntry lines cs with
  | some existing =>
      if baseEntries.contains existing then (lines, .skipped)
      else if (removeEntry lines existing).2 then
        ((removeEntry lines existing).1, .removed)
      else removeLoop lines cs
  | none => removeLoop lines cs

/-- `removeGitignoreEntry`: build the candidate spellings (validation errors
become an error result leaving the lines untouched), then remove. -/
def removeGitignoreEntry (lines : List Str) (relative : Str) (stat : Option FsStat)
    (baseEntries : List Str) (tsff als : Bool) : List Str × OpStatus :=
  match buildEntryForRemove relative stat tsff als with
  | .error _ => (lines, .opError)
  | .ok (primary, alternates) => removeWithCandidates lines baseEntries (primary :: alternates)

example : getRelativePath (strL "../etc") = .error .outsideWorkspace := by rfl
example : getRelativePath (strL ".gitignore") = .error .gitignoreItself := by rfl
example : getRelativePath (strL "src/db.sqlite") = .ok (strL "src/db.sqlite") := by rfl

namespace RelLemmas

theorem getRelativePath_error_iff (relative : Str) :
    (∃ e, getRelativePath relative = Except.error e) ↔
      (relative = [] ∨ relative.take 2 = strL ".." ∨ relative.head? = some '/' ∨
        relative = strL ".gitignore") := by
  constructor
  · rintro ⟨e, he⟩
    rw [getRelativePath] at he
    by_cases h1 : relative = []
    · exact Or.inl h1
    rw [if_neg h1] at he
    by_cases h2 : relative.take 2 = strL ".." ∨ relative.head? = some '/'
    · rcases h2 with h2 | h2
      · exact Or.inr (Or.inl h2)
      · exact Or.inr (Or.inr (Or.inl h2))
    rw [if_neg h2] at he
    rw [ParserLemmas.joinChar_split] at he
    by_cases h3 : relative = strL ".gitignore"
    · exact Or.inr (Or.inr (Or.inr h3))
    · rw [if_neg h3] at he
      exact absurd he (by simp)
  · intro h
    rcases h with h | h | h | h
    · exact ⟨RelPathError.rootTarget, by rw [getRelativePath, if_pos h]⟩
    · refine ⟨RelPathError.outsideWorkspace, ?_⟩
      have h1 : relative ≠ [] := by
        intro he
        rw [he] at h
        exact absurd h (by decide)
      rw [getRelativePath, if_neg h1, if_pos (Or.inl h)]
    · refine ⟨RelPathError.outsideWorkspace, ?_⟩
      have h1 : relative ≠ [] := by
        intro he
        rw [he] at h
        exact absurd h (by decide)
      rw [getRelativePath, if_neg h1, if_pos (Or.inr h)]
    · subst h
      exact ⟨RelPathError.gitignoreItself, by rfl⟩

theorem addGitignoreEntry_ok_status {relative rel : Str}
    (h : getRelativePath relative = Except.ok rel) (lines baseEntries : List Str)
    (stat : FsStat) (tsff als : Bool) :
    (addGitignoreEntry lines relative stat baseEntries tsff als).2 = OpStatus.added ∨
    (addGitignoreEntry lines relative stat baseEntries tsff als).2 = OpStatus.skipped := by
  simp only [addGitignoreEntry, buildEntryForAdd, h]
  split
  · right; rfl
  · split
    · left; rfl
    · right; rfl

theorem removeLoop_status (lines : List Str) :
    ∀ cs, (removeLoop lines cs).2 = OpStatus.removed ∨
      (removeLoop lines cs).2 = OpStatus.skipped := by
  intro cs
  induction cs with
  | nil => right; rfl
  | cons c cs ih =>
    simp only [removeLoop]
    split
    · left; rfl
    · exact ih

theorem removeWithCandidates_status (lines baseEntries cs : List Str) :
    (removeWithCandidates lines baseEntries cs).2 = OpStatus.removed ∨
    (removeWithCandidates lines baseEntries cs).2 = OpStatus.skipped := by
  simp only [removeWithCandidates]
  split
  · split
    · right; rfl
    · split
      · left; rfl
      · exact removeLoop_status lines cs
  · exact removeLoop_status lines cs

theorem removeWithCandidates_ne (lines baseEntries cs : List Str) :
    (removeWithCandidates lines baseEntries cs).2 ≠ OpStatus.opError := by
  rcases removeWithCandidates_status lines baseEntries cs with hr | hr <;> simp [hr]

theorem removeGitignoreEntry_ok_status {relative rel : Str}
    (h : getRelativePath relative = Except.ok rel) (lines baseEntries : List Str)
    (ostat : Option FsStat) (tsff als : Bool) :
    (removeGitignoreEntry lines relative ostat baseEntries tsff als).2 ≠
      OpStatus.opError := by
  simp only [removeGitignoreEntry, buildEntryForRemove, h]
  exact removeWithCandidates_ne lines baseEntries _

end RelLemmas

/-- C9: the add and remove entry builders reject exactly the invalid inputs —
an empty workspace-relative path (the root), a path escaping the workspace
(starting with `..` or absolute), or the rule file `.gitignore` itself after
separator normalization — and on a rejection the operation reports an error
result with the line sequence untouched, so the rejected target contributes
no written change. -/
theorem input_validation_rejection (relative : Str) (lines baseEntries : List Str)
    (stat : FsStat) (ostat : Option FsStat) (tsff als : Bool) :
    ((addGitignoreEntry lines relative stat baseEntries tsff als).2 = OpStatus.opError ↔
      (relative = [] ∨ relative.take 2 = strL ".." ∨ relative.head? = some '/' ∨
        relative = strL ".gitignore")) ∧
    ((removeGitignoreEntry lines relative ostat baseEntries tsff als).2 = OpStatus.opError ↔
      (relative = [] ∨ relative.take 2 = strL ".." ∨ relative.head? = some '/' ∨
        relative = strL ".gitignore")) ∧
    ((addGitignoreEntry lines relative stat baseEntries tsff als).2 = OpStatus.opError →
      (addGitignoreEntry lines relative stat baseEntries tsff als).1 = lines) ∧
    ((removeGitignoreEntry lines relative ostat baseEntries tsff als).2 = OpStatus.opError →
      (removeGitignoreEntry lines relative ostat baseEntries tsff als).1 = lines) := by
  rcases hg : getRelativePath relative with e | rel
  · have hconds := (RelLemmas.getRelativePath_error_iff relative).mp ⟨e, hg⟩
    have hadd : addGitignoreEntry lines relative stat baseEntries tsff als =
        (lines, OpStatus.opError) := by
      simp only [addGitignoreEntry, buildEntryForAdd, hg]
    have hrem : removeGitignoreEntry lines relative ostat baseEntries tsff als =
        (lines, OpStatus.opError) := by
      simp only [removeGitignoreEntry, buildEntryForRemove, hg]
    rw [hadd, hrem]
    exact ⟨⟨fun _ => hconds, fun _ => rfl⟩, ⟨fun _ => hconds, fun _ => rfl⟩,
      fun _ => rfl, fun _ => rfl⟩
  · have hnc : ¬(relative = [] ∨ relative.take 2 = strL ".." ∨ relative.head? = some '/' ∨
        relative = strL ".gitignore") := by
      intro hc
      rcases (RelLemmas.getRelativePath_error_iff relative).mpr hc with ⟨e, he⟩
      rw [hg] at he
      exact absurd he (by simp)
    have hadd : (addGitignoreEntry lines relative stat baseEntries tsff als).2 ≠
        OpStatus.opError := by
      rcases RelLemmas.addGitignoreEntry_ok_status hg lines baseEntries stat tsff als with
        hr | hr <;> simp [hr]
    have hrem := RelLemmas.removeGitignoreEntry_ok_status hg lines baseEntries ostat tsff als
    exact ⟨⟨fun h => absurd h hadd, fun h => absurd h hnc⟩,
      ⟨fun h => absurd h hrem, fun h => absurd h hnc⟩,
      fun h => absurd h hadd, fun h => absurd h hrem⟩

/-- Witness for C9: the escaping path `../etc` is rejected by both operations
and leaves the line sequence untouched. -/
theorem input_validation_rejection_witness :
    (addGitignoreEntry [strL "dist"] (strL "../etc") ⟨false, false⟩ [] true true).2 =
      OpStatus.opError ∧
    (addGitignoreEntry [strL "dist"] (strL "../etc") ⟨false, false⟩ [] true true).1 =
      [strL "dist"] ∧
    (removeGitignoreEntry [strL "dist"] (strL "../etc") none [] true true).2 =
      OpStatus.opError ∧
    (removeGitignoreEntry [strL "dist"] (strL "../etc") none [] true true).1 =
      [strL "dist"] := by
  have h := input_validation_rejection (strL "../etc") [strL "dist"] []
    ⟨false, false⟩ none true true
  have hc : (strL "../etc" = ([] : Str) ∨ (strL "../etc").take 2 = strL ".." ∨
      (strL "../etc").head? = some '/' ∨ strL "../etc" = strL ".gitignore") := by
    exact Or.inr (Or.inl (by decide))
  exact ⟨h.1.mpr hc, h.2.2.1 (h.1.mpr hc), h.2.1.mpr hc, h.2.2.2 (h.2.1.mpr hc)⟩

/-- `handleCleanGitignoreCommand`'s write decision on an existing rule file:
parse, clean, compare element-for-element, and return the serialized content
to write — or `none` (no write, stored content untouched) when the cleaned
sequence equals the original. -/
def handleCleanGitignore (content : Str) (o : CleaningOptions) (base : List Str)
    (probe : Str → Option Bool) : Option Str :=
  if (cleanGitignoreEntries (parseLines content) o base probe).lines = parseLines content
  then none
  else some (serializeLines (cleanGitignoreEntries (parseLines content) o base probe).lines)

/-- C10: the clean command writes nothing exactly when the cleaned line
sequence equals the parsed original element-for-element; when it writes, the
written content is the serialization of the cleaned sequence and the cleaned
sequence differs from the original. -/
theorem clean_writes_only_when_changed (content : Str) (o : CleaningOptions)
    (base : List Str) (probe : Str → Option Bool) :
    (handleCleanGitignore content o base probe = none ↔
      (cleanGitignoreEntries (parseLines content) o base probe).lines = parseLines content) ∧
    (∀ w, handleCleanGitignore content o base probe = some w →
      (cleanGitignoreEntries (parseLines content) o base probe).lines ≠ parseLines content ∧
      w = serializeLines (cleanGitignoreEntries (parseLines content) o base probe).lines) := by
  constructor
  · constructor
    · intro h
      by_contra hc
      rw [handleCleanGitignore, if_neg hc] at h
      exact absurd h (by simp)
    · intro h
      rw [handleCleanGitignore, if_pos h]
  · intro w hw
    by_cases hc : (cleanGitignoreEntries (parseLines content) o base probe).lines =
        parseLines content
    · rw [handleCleanGitignore, if_pos hc] at hw
      exact absurd hw (by simp)
    · rw [handleCleanGitignore, if_neg hc] at hw
      exact ⟨hc, (Option.some.inj hw).symm⟩

/-- Witness for C10: cleaning `a\na\n` removes a duplicate, so the cleaned
sequence differs and the written content is its serialization. -/
theorem clean_writes_only_when_changed_witness :
    (cleanGitignoreEntries (parseLines (strL "a\na\n")) ⟨false, false, false, true⟩ []
      (fun _ => none)).lines ≠ parseLines (strL "a\na\n") ∧
    strL "a\n" = serializeLines (cleanGitignoreEntries (parseLines (strL "a\na\n"))
      ⟨false, false, false, true⟩ [] (fun _ => none)).lines :=
  (clean_writes_only_when_changed (strL "a\na\n") ⟨false, false, false, true⟩ []
    (fun _ => none)).2 (strL "a\n") (by decide)

/-- `isSymbolicLink`: the stat's symbolic-link bit. -/
def isSymbolicLink (stat : FsStat) : Bool := stat.isSymbolicLink

/-- A path probing as a symbolic link; a failed stat is not a symlink. -/
def probedSymlink (fprobe : List Str → Option FsStat) (p : List Str) : Bool :=
  match fprobe p with
  | some st => isSymbolicLink st
  | none => false

/-- Modelled from the spec: the ancestor walk of the add-entry builder's
symlink resolution (present in the repository only as a changelog entry for
v1.1.2 and a test; the walk itself is absent from `src/`).  Walk the
ancestor chain from the workspace root downward, probing each ancestor; the
first (shallowest) ancestor probing as a symbolic link is returned. -/
def findSymlinkAncestor (fprobe : List Str → Option FsStat) :
    List Str → List Str → Option (List Str)
  | _, [] => none
  | acc, s :: rest =>
      if probedSymlink fprobe (acc ++ [s]) then some (acc ++ [s])
      else findSymlinkAncestor fprobe (acc ++ [s]) rest

/-- Modelled from the spec: `buildEntryForAdd` with ancestor-symlink
resolution — if an ancestor of the target is a symbolic link, substitute the
target with that (shallowest) ancestor's path and force `isDirectory = false`;
otherwise render the target with the stat's real-directory verdict. -/
def buildEntryForAddResolved (segs : List Str) (fprobe : List Str → Option FsStat)
    (stat : FsStat) (tsff als : Bool) : Str :=
  match findSymlinkAncestor fprobe [] segs.dropLast with
  | some anc => formatGitignoreEntry (joinChar '/' anc) false tsff als
  | none => formatGitignoreEntry (joinChar '/' segs) (isRealDirectory stat) tsff als

namespace SymlinkLemmas
open StrLemmas CanonLemmas

theorem walk_nil {fprobe : List Str → Option FsStat} {acc : List Str} :
    findSymlinkAncestor fprobe acc [] = none := rfl

theorem walk_cons {fprobe : List Str → Option FsStat} {acc s : List Str} {rest : List Str}
    {x : Str} (h : s = [x]) :
    findSymlinkAncestor fprobe acc (x :: rest) =
      (if probedSymlink fprobe (acc ++ [x]) then some (acc ++ [x])
       else findSymlinkAncestor fprobe (acc ++ [x]) rest) := rfl

theorem walk_some (fprobe : List Str → Option FsStat) :
    ∀ (ancs acc a : List Str),
      findSymlinkAncestor fprobe acc ancs = some a →
      ∃ i, 1 ≤ i ∧ i ≤ ancs.length ∧ a = acc ++ ancs.take i ∧
        probedSymlink fprobe a = true ∧
        ∀ j, 1 ≤ j → j < i → probedSymlink fprobe (acc ++ ancs.take j) = false := by
  intro ancs
  induction ancs with
  | nil =>
    intro acc a h
    exact absurd h (by rw [walk_nil]; simp)
  | cons s rest ih =>
    intro acc a h
    rw [walk_cons rfl] at h
    by_cases hsym : probedSymlink fprobe (acc ++ [s]) = true
    · rw [if_pos hsym] at h
      have ha : acc ++ [s] = a := Option.some.inj h
      refine ⟨1, le_refl 1, by simp, by rw [← ha]; simp, ha ▸ hsym, ?_⟩
      intro j hj1 hj2
      omega
    · rw [if_neg hsym] at h
      rcases ih (acc ++ [s]) a h with ⟨i, hi1, hi2, hia, hsyma, hmin⟩
      have hsym' : probedSymlink fprobe (acc ++ [s]) = false := by simpa using hsym
      refine ⟨i + 1, by omega, by simp; omega, ?_, hsyma, ?_⟩
      · rw [hia]
        simp [List.take_succ_cons]
      · intro j hj1 hj2
        cases j with
        | zero => omega
        | succ k =>
          cases k with
          | zero => simpa using hsym'
          | succ m =>
            have hm := hmin (m + 1) (by omega) (by omega)
            simpa [List.take_succ_cons] using hm

theorem walk_none (fprobe : List Str → Option FsStat) :
    ∀ (ancs acc : List Str),
      findSymlinkAncestor fprobe acc ancs = none →
      ∀ i, 1 ≤ i → i ≤ ancs.length →
        probedSymlink fprobe (acc ++ ancs.take i) = false := by
  intro ancs
  induction ancs with
  | nil =>
    intro acc _ i h1 h2
    simp at h2
    omega
  | cons s rest ih =>
    intro acc h i h1 h2
    rw [walk_cons rfl] at h
    by_cases hsym : probedSymlink fprobe (acc ++ [s]) = true
    · rw [if_pos hsym] at h
      exact absurd h (by simp)
    · rw [if_neg hsym] at h
      have hsym' : probedSymlink fprobe (acc ++ [s]) = false := by simpa using hsym
      cases i with
      | zero => omega
      | succ k =>
        cases k with
        | zero => simpa using hsym'
        | succ m =>
          have hm := ih (acc ++ [s]) h (m + 1) (by omega) (by simp at h2; omega)
          simpa [List.take_succ_cons] using hm

theorem getLast?_append_of_ne_nil {m : Str} (s : Str) (h : m ≠ []) :
    (s ++ m).getLast? = m.getLast? := by
  rcases hy : m.getLast? with _ | y
  · exact absurd (by simpa using hy) h
  · rw [List.getLast?_append, hy]
    rfl

theorem escape_head?_ne_slash {p : Str} (h : p.head? ≠ some '/') :
    (escapeGitignorePath p).head? ≠ some '/' := by
  cases p with
  | nil => simp [escape_nil]
  | cons c t =>
    rw [escape_cons]
    split
    · intro hc
      rw [head?_append_left (by simp)] at hc
      exact absurd (by simpa using hc) (by decide : ¬(('\\' : Char) = '/'))
    · intro hc
      rw [head?_append_left (by simp)] at hc
      have hcc : c = '/' := by simpa using hc
      exact h (by rw [List.head?_cons, hcc])

theorem escape_getLast?_ne_slash : ∀ {p : Str}, p.getLast? ≠ some '/' →
    (escapeGitignorePath p).getLast? ≠ some '/' := by
  intro p
  induction p with
  | nil =>
    intro h
    simp [escape_nil]
  | cons c t ih =>
    intro h
    cases t with
    | nil =>
      rw [escape_cons, escape_nil]
      split
      · intro hc
        apply h
        simpa using hc
      · intro hc
        apply h
        simpa using hc
    | cons r t' =>
      have hlast : (c :: r :: t').getLast? = (r :: t').getLast? :=
        getLast?_cons_ne (by simp)
      rw [hlast] at h
      have hE := ih h
      have hEne : escapeGitignorePath (r :: t') ≠ [] := escape_ne_nil (by simp)
      rw [escape_cons]
      split
      · rw [getLast?_append_of_ne_nil _ hEne]
        exact hE
      · rw [getLast?_append_of_ne_nil _ hEne]
        exact hE

theorem escape_countSlash (p : Str) :
    (escapeGitignorePath p).countP (fun c => c == '/') =
      p.countP (fun c => c == '/') := by
  induction p with
  | nil => rfl
  | cons c t ih =>
    rw [escape_cons]
    split
    · rw [List.countP_append, ih]
      have h1 : List.countP (fun c => c == '/') ['\\', c] =
          if (c == '/') = true then 1 else 0 := by
        rw [List.countP_cons, List.countP_cons, List.countP_nil]
        rw [show (('\\' : Char) == '/') = false from rfl]
        simp
      rw [h1, List.countP_cons]
      exact Nat.add_comm _ _
    · rw [List.countP_append, ih]
      have h1 : List.countP (fun c => c == '/') [c] =
          if (c == '/') = true then 1 else 0 := by
        rw [List.countP_cons, List.countP_nil]
        simp
      rw [h1, List.countP_cons]
      exact Nat.add_comm _ _

theorem countSlash_zero {s : Str} (h : '/' ∉ s) :
    s.countP (fun c => c == '/') = 0 := by
  rw [List.countP_eq_zero]
  intro a ha hc
  rw [beq_iff_eq] at hc
  exact h (hc ▸ ha)

theorem joinChar_ne_nil {segs : List Str} (hne : segs ≠ []) (h : ∀ s ∈ segs, s ≠ []) :
    joinChar '/' segs ≠ [] := by
  cases segs with
  | nil => exact absurd rfl hne
  | cons s rest =>
    cases rest with
    | nil => exact h s (List.mem_cons_self s [])
    | cons r t =>
      show s ++ '/' :: joinChar '/' (r :: t) ≠ []
      simp

theorem joinChar_head? {s : Str} (hs : s ≠ []) (rest : List Str) :
    (joinChar '/' (s :: rest)).head? = s.head? := by
  cases rest with
  | nil => rfl
  | cons r t => exact head?_append_left hs


theorem joinChar_getLast?_ne : ∀ {segs : List Str},
    (∀ s ∈ segs, s ≠ [] ∧ '/' ∉ s) →
    (joinChar '/' segs).getLast? ≠ some '/' := by
  intro segs
  induction segs with
  | nil =>
    intro _
    simp [joinChar]
  | cons s rest ih =>
    intro h
    cases rest with
    | nil =>
      show s.getLast? ≠ some '/'
      exact getLast?_ne_of_not_mem (h s (List.mem_cons_self s [])).2
    | cons r t =>
      have hr := ih (fun x hx => h x (List.mem_cons_of_mem s hx))
      have hm : joinChar '/' (r :: t) ≠ [] :=
        joinChar_ne_nil (by simp) (fun x hx => (h x (List.mem_cons_of_mem s hx)).1)
      show (s ++ '/' :: joinChar '/' (r :: t)).getLast? ≠ some '/'
      rw [getLast?_append_of_ne_nil s (by simp), getLast?_cons_ne hm]
      exact hr

theorem joinChar_countSlash : ∀ (segs : List Str),
    (∀ s ∈ segs, '/' ∉ s) →
    (joinChar '/' segs).countP (fun c => c == '/') = segs.length - 1 := by
  intro segs
  induction segs with
  | nil =>
    intro _
    rfl
  | cons s rest ih =>
    intro h
    cases rest with
    | nil =>
      show s.countP (fun c => c == '/') = 0
      exact countSlash_zero (h s (List.mem_cons_self s []))
    | cons r t =>
      have hih := ih (fun x hx => h x (List.mem_cons_of_mem s hx))
      show (s ++ '/' :: joinChar '/' (r :: t)).countP (fun c => c == '/') =
        (s :: r :: t).length - 1
      rw [List.countP_append, List.countP_cons, hih,
        countSlash_zero (h s (List.mem_cons_self s _))]
      simp only [List.length_cons]
      have hsl : (('/' : Char) == '/') = true := rfl
      rw [hsl]
      simp

theorem format_file_path {p : Str} (hne : p ≠ [])
    (hh : p.head? ≠ some '/') (hl : p.getLast? ≠ some '/') (tsff als : Bool) :
    formatGitignoreEntry p false tsff als =
      (if als && !(isRootLevelPath p && ((escapeGitignorePath p).head? == some '.'))
       then '/' :: escapeGitignorePath p else escapeGitignorePath p) := by
  have hEh : (escapeGitignorePath p).head? ≠ some '/' := escape_head?_ne_slash hh
  have hEl : (escapeGitignorePath p).getLast? ≠ some '/' := escape_getLast?_ne_slash hl
  have hEne : escapeGitignorePath p ≠ [] := escape_ne_nil hne
  simp only [formatGitignoreEntry, Bool.not_false, Bool.true_and, Bool.false_eq_true,
    if_false]
  rw [stripLeadingSlashes_eq_self hEh, stripTrailingSlashes_eq_self hEl]
  by_cases hcond : (als &&
      !(isRootLevelPath p && ((escapeGitignorePath p).head? == some '.'))) = true
  · rw [if_pos hcond, if_pos hcond]
    have hsw : startsWithSlash (escapeGitignorePath p) = false := by
      rw [startsWithSlash, beq_eq_false_iff_ne]
      exact hEh
    rw [hsw]
    simp only [Bool.false_eq_true, if_false]
    exact stripTrailingSlashes_eq_self (by rw [getLast?_cons_ne hEne]; exact hEl)
  · rw [if_neg hcond, if_neg hcond]
    rw [stripLeadingSlashes_eq_self hEh]
    exact stripTrailingSlashes_eq_self hEl

end SymlinkLemmas

namespace SymlinkLemmas
open StrLemmas CanonLemmas

theorem joinChar_head?_ne {segs : List Str} (hne : segs ≠ [])
    (h : ∀ s ∈ segs, s ≠ [] ∧ '/' ∉ s) :
    (joinChar '/' segs).head? ≠ some '/' := by
  cases segs with
  | nil => exact absurd rfl hne
  | cons s0 rest =>
    rw [joinChar_head? (h s0 (List.mem_cons_self s0 rest)).1]
    exact head?_ne_of_not_mem (h s0 (List.mem_cons_self s0 rest)).2

end SymlinkLemmas

/-- C1 (spec-modelled): for an add target strictly inside a symlinked
ancestor directory, the emitted entry is the line for the shallowest
symlinked ancestor rendered as a file (no trailing slash), and the emitted
line never mentions the original deeper target path. -/
theorem ancestor_symlink_substitution (segs : List Str)
    (fprobe : List Str → Option FsStat) (stat : FsStat) (tsff als : Bool)
    (hseg : ∀ s ∈ segs, s ≠ [] ∧ '/' ∉ s) (hlen : 2 ≤ segs.length)
    (hex : ∃ i, 1 ≤ i ∧ i ≤ segs.length - 1 ∧
      probedSymlink fprobe (segs.take i) = true) :
    ∃ k, 1 ≤ k ∧ k ≤ segs.length - 1 ∧ probedSymlink fprobe (segs.take k) = true ∧
      (∀ j, 1 ≤ j → j < k → probedSymlink fprobe (segs.take j) = false) ∧
      buildEntryForAddResolved segs fprobe stat tsff als =
        formatGitignoreEntry (joinChar '/' (segs.take k)) false tsff als ∧
      endsWithSlash (buildEntryForAddResolved segs fprobe stat tsff als) = false ∧
      ¬∃ s t, s ++ joinChar '/' segs ++ t =
        buildEntryForAddResolved segs fprobe stat tsff als := by
  have hsegne : segs ≠ [] := by
    intro h
    rw [h] at hlen
    simp at hlen
  have hsub : ∀ (i : Nat), ∀ s ∈ segs.take i, s ≠ [] ∧ '/' ∉ s :=
    fun i s hs => hseg s ((List.take_sublist i segs).subset hs)
  have htake : ∀ i, i ≤ segs.length - 1 → segs.dropLast.take i = segs.take i := by
    intro i hi
    rw [List.dropLast_eq_take, List.take_take]
    congr 1
    omega
  have htne : ∀ i, 1 ≤ i → segs.take i ≠ [] := by
    intro i hi h
    rw [List.take_eq_nil_iff] at h
    rcases h with h | h
    · omega
    · exact hsegne h
  have hlen_take : ∀ i, i ≤ segs.length - 1 → (segs.take i).length = i := by
    intro i hi
    rw [List.length_take]
    omega
  rcases hw : findSymlinkAncestor fprobe [] segs.dropLast with _ | a
  · exfalso
    rcases hex with ⟨i, hi1, hi2, hsym⟩
    have hnone := SymlinkLemmas.walk_none fprobe segs.dropLast [] hw i hi1
      (by rw [List.length_dropLast]; exact hi2)
    rw [List.nil_append, htake i hi2, hsym] at hnone
    exact absurd hnone (by simp)
  · rcases SymlinkLemmas.walk_some fprobe segs.dropLast [] a hw with
      ⟨i, hi1, hi2, hia, hsyma, hmin⟩
    rw [List.length_dropLast] at hi2
    rw [List.nil_append, htake i hi2] at hia
    have hentry : buildEntryForAddResolved segs fprobe stat tsff als =
        formatGitignoreEntry (joinChar '/' (segs.take i)) false tsff als := by
      simp only [buildEntryForAddResolved, hw, hia]
    have hpne : joinChar '/' (segs.take i) ≠ [] :=
      SymlinkLemmas.joinChar_ne_nil (htne i hi1) (fun s hs => (hsub i s hs).1)
    have hph : (joinChar '/' (segs.take i)).head? ≠ some '/' :=
      SymlinkLemmas.joinChar_head?_ne (htne i hi1) (hsub i)
    have hpl : (joinChar '/' (segs.take i)).getLast? ≠ some '/' :=
      SymlinkLemmas.joinChar_getLast?_ne (hsub i)
    have hshape := SymlinkLemmas.format_file_path hpne hph hpl tsff als
    have hcntp : (escapeGitignorePath (joinChar '/' (segs.take i))).countP
        (fun c => c == '/') = i - 1 := by
      rw [SymlinkLemmas.escape_countSlash,
        SymlinkLemmas.joinChar_countSlash _ (fun s hs => (hsub i s hs).2),
        hlen_take i hi2]
    have hcntt : (joinChar '/' segs).countP (fun c => c == '/') = segs.length - 1 :=
      SymlinkLemmas.joinChar_countSlash segs (fun s hs => (hseg s hs).2)
    have htgtne : joinChar '/' segs ≠ [] :=
      SymlinkLemmas.joinChar_ne_nil hsegne (fun s hs => (hseg s hs).1)
    have htgth : (joinChar '/' segs).head? ≠ some '/' :=
      SymlinkLemmas.joinChar_head?_ne hsegne hseg
    refine ⟨i, hi1, hi2, hia ▸ hsyma, ?_, hentry, ?_, ?_⟩
    · intro j hj1 hj2
      have hm := hmin j hj1 hj2
      rw [List.nil_append, htake j (by omega)] at hm
      exact hm
    · rw [hentry, hshape]
      by_cases hcond : (als && !(isRootLevelPath (joinChar '/' (segs.take i)) &&
          ((escapeGitignorePath (joinChar '/' (segs.take i))).head? == some '.'))) = true
      · rw [if_pos hcond]
        rw [endsWithSlash, beq_eq_false_iff_ne, ne_eq]
        rw [CanonLemmas.getLast?_cons_ne (StrLemmas.escape_ne_nil hpne)]
        exact SymlinkLemmas.escape_getLast?_ne_slash hpl
      · rw [if_neg hcond]
        rw [endsWithSlash, beq_eq_false_iff_ne, ne_eq]
        exact SymlinkLemmas.escape_getLast?_ne_slash hpl
    · rintro ⟨s, t, hst⟩
      rw [hentry, hshape] at hst
      by_cases hcond : (als && !(isRootLevelPath (joinChar '/' (segs.take i)) &&
          ((escapeGitignorePath (joinChar '/' (segs.take i))).head? == some '.'))) = true
      · rw [if_pos hcond] at hst
        cases s with
        | nil =>
          rw [List.nil_append] at hst
          have hhd : (joinChar '/' segs ++ t).head? = some '/' := by
            rw [hst]
            rfl
          rw [CanonLemmas.head?_append_left htgtne] at hhd
          exact htgth hhd
        | cons c s' =>
          rw [List.cons_append] at hst
          have h2 : s' ++ joinChar '/' segs ++ t =
              escapeGitignorePath (joinChar '/' (segs.take i)) :=
            (List.cons.injEq _ _ _ _).mp hst |>.2
          have hcnt := congrArg (List.countP (fun c => c == '/')) h2
          rw [List.countP_append, List.countP_append, hcntt, hcntp] at hcnt
          omega
      · rw [if_neg hcond] at hst
        have hcnt := congrArg (List.countP (fun c => c == '/')) hst
        rw [List.countP_append, List.countP_append, hcntt, hcntp] at hcnt
        omega

/-- Witness for C1: adding `public/docs/images` where `public` is a real
directory and `public/docs` is a symbolic link emits `/public/docs` — the
shallowest symlinked ancestor rendered as a file — and never a line
mentioning `images`. -/
theorem ancestor_symlink_substitution_witness :
    buildEntryForAddResolved [strL "public", strL "docs", strL "images"]
      (fun p => if p = [strL "public"] then some ⟨true, false⟩
        else if p = [strL "public", strL "docs"] then some ⟨true, true⟩ else none)
      ⟨true, false⟩ true true = strL "/public/docs" ∧
    (∃ k, 1 ≤ k ∧ k ≤ ([strL "public", strL "docs", strL "images"] : List Str).length - 1 ∧
      probedSymlink
        (fun p => if p = [strL "public"] then some ⟨true, false⟩
          else if p = [strL "public", strL "docs"] then some ⟨true, true⟩ else none)
        (([strL "public", strL "docs", strL "images"] : List Str).take k) = true ∧
      (∀ j, 1 ≤ j → j < k → probedSymlink
        (fun p => if p = [strL "public"] then some ⟨true, false⟩
          else if p = [strL "public", strL "docs"] then some ⟨true, true⟩ else none)
        (([strL "public", strL "docs", strL "images"] : List Str).take j) = false) ∧
      buildEntryForAddResolved [strL "public", strL "docs", strL "images"]
        (fun p => if p = [strL "public"] then some ⟨true, false⟩
          else if p = [strL "public", strL "docs"] then some ⟨true, true⟩ else none)
        ⟨true, false⟩ true true =
        formatGitignoreEntry
          (joinChar '/' (([strL "public", strL "docs", strL "images"] : List Str).take k))
          false true true ∧
      endsWithSlash (buildEntryForAddResolved [strL "public", strL "docs", strL "images"]
        (fun p => if p = [strL "public"] then some ⟨true, false⟩
          else if p = [strL "public", strL "docs"] then some ⟨true, true⟩ else none)
        ⟨true, false⟩ true true) = false ∧
      ¬∃ s t, s ++ joinChar '/' ([strL "public", strL "docs", strL "images"] : List Str) ++ t =
        buildEntryForAddResolved [strL "public", strL "docs", strL "images"]
          (fun p => if p = [strL "public"] then some ⟨true, false⟩
            else if p = [strL "public", strL "docs"] then some ⟨true, true⟩ else none)
          ⟨true, false⟩ true true) :=
  ⟨by decide,
   ancestor_symlink_substitution [strL "public", strL "docs", strL "images"]
     (fun p => if p = [strL "public"] then some ⟨true, false⟩
       else if p = [strL "public", strL "docs"] then some ⟨true, true⟩ else none)
     ⟨true, false⟩ true true (by decide) (by decide)
     ⟨2, by decide, by decide, by decide⟩⟩
